import Mathlib

/-!
# PDPTW hybrid ACO / greedy engine: feasibility, cost, greedy insertion, 2-opt

A shallow embedding of `src/backend/PDPTW_HYBRID_ACO_GREEDY_V3.cpp`.

Conventions of the embedding
* C++ `int` values are mathematical integers (`Int`); signed overflow is undefined
  behaviour in the source and is outside the model.
* A route is a `List Int` of node identifiers, as `vector<int>` is in the source.
* A subscript outside a vector is undefined behaviour in the source; the lookups
  below return a default (a zero node, travel time 0, `false`) there.
* The globals `instance`, `pickup_nodes` are passed explicitly; `pickup_nodes` is
  recomputed from the instance exactly as `solve` fills it.
* Coordinates and names of the instance are never read by the engine and are left out.
-/

namespace PDPTW

/-! ## Data model -/

/-- A node of the instance (`struct Node`, without the coordinates). -/
structure Node where
  id : Int
  demand : Int
  early_time : Int
  late_time : Int
  service_duration : Int
  pickup_pair : Int
  delivery_pair : Int
deriving DecidableEq, Repr, Inhabited

/-- The test `demand > 0`. -/
def Node.is_pickup (n : Node) : Bool := decide (n.demand > 0)

/-- The test `demand < 0`. -/
def Node.is_delivery (n : Node) : Bool := decide (n.demand < 0)

/-- The problem instance (`struct Instance`, without name and location). -/
structure Instance where
  size : Nat
  capacity : Int
  route_time : Int
  nodes : List Node
  travel_times : List (List Int)
deriving DecidableEq, Repr, Inhabited

/-- Subscript of a vector by an `int`; a default outside the vector. -/
def vec_get {α : Type} (v : List α) (i : Int) (d : α) : α :=
  if i < 0 then d else v.getD i.toNat d

/-- Assignment `v[i] = x` by an `int` subscript; no effect outside the vector. -/
def vec_set {α : Type} (v : List α) (i : Int) (x : α) : List α :=
  if i < 0 then v else v.set i.toNat x

/-- The element `instance.nodes[i]`. -/
def Instance.node (inst : Instance) (i : Int) : Node :=
  vec_get inst.nodes i default

/-- The element `instance.travel_times[i][j]`. -/
def Instance.travel (inst : Instance) (i j : Int) : Int :=
  vec_get (vec_get inst.travel_times i []) j 0

/-- A route: node identifiers in visiting order, the depot left implicit. -/
abbrev Route := List Int

/-! ## Feasibility and cost evaluator -/

/-- The body of the `for` loop of `is_feasible_route`, from position `i` on: `prev` is
`route[i-1]` (node 0 before the first node), the other arguments are the loop variables.
When the route is exhausted the return-to-depot test is made. -/
def feasible_loop (inst : Instance) :
    Route → Int → Int → Int → List Bool → Bool
  | [], prev, current_time, _, _ =>
      if current_time + inst.travel prev 0 > (inst.node 0).late_time then false else true
  | node_id :: rest, prev, current_time, current_load, visited_pickup =>
      let node := inst.node node_id
      let arrival := current_time + inst.travel prev node_id
      if arrival > node.late_time then false
      else
        let departure := max arrival node.early_time + node.service_duration
        if node.is_delivery && !(vec_get visited_pickup node.pickup_pair false) then false
        else
          let visited := if node.is_pickup then vec_set visited_pickup node_id true
                         else visited_pickup
          let load := current_load + node.demand
          if load > inst.capacity || load < 0 then false
          else feasible_loop inst rest node_id departure load visited

/-- The function `is_feasible_route`. -/
def is_feasible_route (inst : Instance) (route : Route) : Bool :=
  if route.isEmpty then true
  else feasible_loop inst route 0 0 0 (List.replicate inst.size false)

/-- The accumulation loop of `calculate_route_cost` over consecutive pairs. -/
def cost_loop (inst : Instance) : Route → Int → Int
  | a :: b :: rest, total_time => cost_loop inst (b :: rest) (total_time + inst.travel a b)
  | _, total_time => total_time

/-- The function `calculate_route_cost`. -/
def calculate_route_cost (inst : Instance) (route : Route) : Int :=
  match route with
  | [] => 0
  | r0 :: _ =>
      cost_loop inst route (inst.travel 0 r0) + inst.travel (route.getLastD 0) 0

/-- The call `v.insert(v.begin() + pos, x)` for `pos ≤ v.size()`. -/
def vec_insert (v : Route) (pos : Nat) (x : Int) : Route :=
  v.take pos ++ x :: v.drop pos

/-- The candidate route built by the two `insert` calls: delivery first, then pickup. -/
def insert_pair (route : Route) (pickup_id delivery_id : Int)
    (pickup_pos delivery_pos : Nat) : Route :=
  vec_insert (vec_insert route delivery_pos delivery_id) pickup_pos pickup_id

/-- The function `is_feasible_insertion`. -/
def is_feasible_insertion (inst : Instance) (route : Route) (pickup_id delivery_id : Int)
    (pickup_pos delivery_pos : Nat) : Bool :=
  if pickup_pos > delivery_pos then false
  else is_feasible_route inst (insert_pair route pickup_id delivery_id pickup_pos delivery_pos)

/-! ## Greedy insertion constructor -/

/-- The statement `s.insert(x)` on a `std::set<int>`, kept as an ascending list. -/
def set_insert (x : Int) : List Int → List Int
  | [] => [x]
  | y :: ys => if x < y then x :: y :: ys else if x = y then y :: ys else y :: set_insert x ys

/-- The statement `s.erase(x)` on a `std::set<int>`. -/
def set_erase (s : List Int) (x : Int) : List Int := s.erase x

/-- The global `pickup_nodes` as `solve` fills it: the nodes with positive demand. -/
def pickup_nodes (inst : Instance) : List Node := inst.nodes.filter Node.is_pickup

/-- The set `unvisited_pairs` after the initial loop over `pickup_nodes`. -/
def initial_unvisited (inst : Instance) : List Int :=
  (pickup_nodes inst).foldl (fun s node => set_insert node.id s) []

/-- The three nested loops `for r`, `for p_pos`, `for d_pos = p_pos .. size` shared by the
insertion scans; `body r p_pos d_pos` is the loop body acting on the scan state. -/
def scan_slots {σ : Type} (routes : List Route) (num_routes : Nat)
    (body : Nat → Nat → Nat → σ → σ) (s : σ) : σ :=
  (List.range num_routes).foldl (fun s r =>
    (List.range ((routes.getD r []).length + 1)).foldl (fun s p_pos =>
      (List.range' p_pos ((routes.getD r []).length + 1 - p_pos)).foldl
        (fun s d_pos => body r p_pos d_pos s) s) s) s

/-- The local `struct GreedyInsertion`; the `double` score holds an `int` exactly. -/
structure GreedyInsertion where
  pickup_id : Int
  delivery_id : Int
  route_idx : Nat
  pickup_pos : Nat
  delivery_pos : Nat
  efficiency_score : Int
deriving DecidableEq, Repr

/-- The difference `new_cost - old_cost` of an insertion. -/
def cost_increase (inst : Instance) (route : Route) (pickup_id delivery_id : Int)
    (p_pos d_pos : Nat) : Int :=
  calculate_route_cost inst (insert_pair route pickup_id delivery_id p_pos d_pos)
    - calculate_route_cost inst route

/-- The innermost body of the scan of `pure_greedy_insertion`; `none` is
`found_insertion == false`. -/
def greedy_consider (inst : Instance) (routes : List Route) (pickup_id delivery_id : Int)
    (r p_pos d_pos : Nat) (best : Option GreedyInsertion) : Option GreedyInsertion :=
  if is_feasible_insertion inst (routes.getD r []) pickup_id delivery_id p_pos d_pos then
    let efficiency_score := cost_increase inst (routes.getD r []) pickup_id delivery_id p_pos d_pos
    match best with
    | none => some ⟨pickup_id, delivery_id, r, p_pos, d_pos, efficiency_score⟩
    | some b =>
        if efficiency_score < b.efficiency_score then
          some ⟨pickup_id, delivery_id, r, p_pos, d_pos, efficiency_score⟩
        else some b
  else best

/-- One full scan of the `while` body of `pure_greedy_insertion`. -/
def greedy_scan (inst : Instance) (num_routes : Nat) (routes : List Route)
    (unvisited : List Int) : Option GreedyInsertion :=
  unvisited.foldl (fun best pickup_id =>
    scan_slots routes num_routes
      (greedy_consider inst routes pickup_id (inst.node pickup_id).delivery_pair) best) none

/-- The two `insert` calls on `routes[route_idx]`. -/
def commit_insertion (routes : List Route) (route_idx : Nat) (pickup_id delivery_id : Int)
    (pickup_pos delivery_pos : Nat) : List Route :=
  routes.set route_idx
    (insert_pair (routes.getD route_idx []) pickup_id delivery_id pickup_pos delivery_pos)

/-- The `while` loop of `pure_greedy_insertion` with a bound on the number of executions
of its body; `none` when the bound is reached before the loop exits. The result is the
routes together with the final `unvisited_pairs`. -/
def greedy_loop (inst : Instance) (num_routes : Nat) :
    Nat → List Route → List Int → Option (List Route × List Int)
  | _, routes, [] => some (routes, [])
  | 0, _, _ :: _ => none
  | fuel + 1, routes, p :: ps =>
      match greedy_scan inst num_routes routes (p :: ps) with
      | none => some (routes, p :: ps)
      | some b =>
          greedy_loop inst num_routes fuel
            (commit_insertion routes b.route_idx b.pickup_id b.delivery_id
              b.pickup_pos b.delivery_pos)
            (set_erase (p :: ps) b.pickup_id)

/-- The function `pure_greedy_insertion`, run with one body execution per pickup id. -/
def pure_greedy_insertion (inst : Instance) (num_routes : Nat) : List Route :=
  match greedy_loop inst num_routes (initial_unvisited inst).length
      (List.replicate num_routes []) (initial_unvisited inst) with
  | some (routes, _) => routes
  | none => List.replicate num_routes []

/-! ## Solutions and their order -/

/-- The `struct HybridSolution`. -/
structure HybridSolution where
  routes : List Route
  total_cost : Int
  used_routes : Int
deriving DecidableEq, Repr

/-- The constructor `HybridSolution(num_routes)`. -/
def HybridSolution.new (num_routes : Nat) : HybridSolution :=
  { routes := List.replicate num_routes [], total_cost := 0, used_routes := 0 }

/-- The method `HybridSolution::calculate_cost`. -/
def HybridSolution.calculate_cost (inst : Instance) (s : HybridSolution) : HybridSolution :=
  s.routes.foldl (fun acc route =>
      if route.isEmpty then acc
      else { acc with total_cost := acc.total_cost + calculate_route_cost inst route,
                      used_routes := acc.used_routes + 1 })
    { s with total_cost := 0, used_routes := 0 }

/-- The comparison `HybridSolution::operator<`. -/
def HybridSolution.lt (a other : HybridSolution) : Bool :=
  if a.used_routes ≠ other.used_routes then decide (a.used_routes < other.used_routes)
  else decide (a.total_cost < other.total_cost)

/-! ## Local search (2-opt) -/

/-- The call `reverse(new_route.begin() + i + 1, new_route.begin() + j + 1)`: the
half-open range of positions `i+1 .. j` is reversed. -/
def reverse_segment (route : Route) (i j : Nat) : Route :=
  route.take (i + 1) ++ ((route.drop (i + 1)).take (j - i)).reverse ++ route.drop (j + 1)

/-- The index pairs of the two `for` loops of `local_search_2opt`, in scan order:
`i < size - 3` and `i + 2 ≤ j < size - 1`. -/
def two_opt_pairs (size : Nat) : List (Nat × Nat) :=
  (List.range (size - 3)).flatMap (fun i =>
    (List.range' (i + 2) (size - 1 - (i + 2))).map (fun j => (i, j)))

/-- One pass of the two `for` loops: the first reversal in scan order that is feasible and
strictly cheaper (both loops are left by `break` there), or `none` when the scan ends with
`improved_route == false`. -/
def two_opt_scan (inst : Instance) (route : Route) : Option Route :=
  (two_opt_pairs route.length).findSome? (fun ij =>
    let new_route := reverse_segment route ij.1 ij.2
    if is_feasible_route inst new_route
        && decide (calculate_route_cost inst new_route < calculate_route_cost inst route)
    then some new_route else none)

/-- The loop `while (improved_route)` with a bound on the number of scans; `none` when
the bound is reached before a scan without improvement. -/
def two_opt_loop (inst : Instance) : Nat → Route → Option Route
  | 0, _ => none
  | fuel + 1, route =>
      match two_opt_scan inst route with
      | none => some route
      | some new_route => two_opt_loop inst fuel new_route

/-- A bound on `|travel a b|` over the depot and the nodes of a route. -/
def travel_bound (inst : Instance) (route : Route) : Nat :=
  ((0 :: route).map (fun a =>
    ((0 :: route).map (fun b => (inst.travel a b).natAbs)).foldr max 0)).foldr max 0

/-- A number of scans after which the `while` loop has always stopped: the cost of the
route above its lowest conceivable value, plus the last scan. -/
def two_opt_fuel (inst : Instance) (route : Route) : Nat :=
  (calculate_route_cost inst route
      + ((route.length + 1) * travel_bound inst route : Nat)).toNat + 1

/-- The treatment of one route by `local_search_2opt`. -/
def two_opt_route (inst : Instance) (route : Route) : Route :=
  if route.length < 4 then route
  else (two_opt_loop inst (two_opt_fuel inst route) route).getD route

/-- The function `local_search_2opt`. -/
def local_search_2opt (inst : Instance) (solution : HybridSolution) : HybridSolution :=
  HybridSolution.calculate_cost inst
    { solution with routes := solution.routes.map (two_opt_route inst) }

/-! ## Ant construction -/

/-- The struct `HybridParams`; the `double` fields are rationals, which every finite
`double` is, and they are only compared. -/
structure HybridParams where
  num_ants : Int
  max_iterations : Int
  alpha : ℚ
  beta : ℚ
  rho : ℚ
  tau_max : ℚ
  tau_min : ℚ
  greedy_bias : ℚ
  elite_solutions : Int
  local_search_prob : ℚ
  restart_threshold : Int

/-- The defaults of `struct HybridParams`. -/
def default_params : HybridParams :=
  { num_ants := 10, max_iterations := 100, alpha := 2, beta := 5, rho := mkRat 1 10,
    tau_max := 50, tau_min := mkRat 1 100, greedy_bias := mkRat 85 100, elite_solutions := 4,
    local_search_prob := mkRat 7 10, restart_threshold := 9 }

/-- The random draws of one ant: `coin k` is the value `dis(gen)` compared with
`greedy_bias` in the `k`-th execution of the `while` body, and `wheel k` is the index of
`candidate_list` at which the floating-point roulette of `select_aco_pickup` stops there. -/
structure AntDraws where
  coin : Nat → ℚ
  wheel : Nat → Nat

/-- The constant `INT_MAX` of a 32-bit `int`. -/
def INT_MAX : Int := 2147483647

/-- The inner loops of `select_greedy_pickup` for one pickup: `min_cost_increase`. -/
def min_cost_increase (inst : Instance) (routes : List Route) (pickup_id delivery_id : Int) :
    Int :=
  scan_slots routes routes.length (fun r p_pos d_pos m =>
    if is_feasible_insertion inst (routes.getD r []) pickup_id delivery_id p_pos d_pos then
      min m (cost_increase inst (routes.getD r []) pickup_id delivery_id p_pos d_pos)
    else m) INT_MAX

/-- The method `HybridAnt::select_greedy_pickup`. -/
def select_greedy_pickup (inst : Instance) (candidates : List Int) (routes : List Route) :
    Int :=
  if candidates.isEmpty then -1
  else
    (candidates.foldl (fun (best : Int × Int) pickup_id =>
        let m := min_cost_increase inst routes pickup_id (inst.node pickup_id).delivery_pair
        if m < best.2 then (pickup_id, m) else best) (-1, INT_MAX)).1

/-- The method `HybridAnt::select_aco_pickup`, with its floating-point roulette replaced
by the index `k` it stops at: every return statement of the source returns an element of
`candidate_list` (`-1` for no candidates), the last one when the wheel runs past the end. -/
def select_aco_pickup (candidates : List Int) (k : Nat) : Int :=
  if candidates.isEmpty then -1
  else candidates.getD k (candidates.getLastD (-1))

/-- The method `HybridAnt::find_best_insertion`; `none` is `best_route == -1`, otherwise
the route index and the two positions. -/
def find_best_insertion (inst : Instance) (routes : List Route) (pickup_id delivery_id : Int) :
    Option (Nat × Nat × Nat) :=
  (scan_slots routes routes.length (fun r p_pos d_pos (best : Option (Nat × Nat × Nat) × Int) =>
    if is_feasible_insertion inst (routes.getD r []) pickup_id delivery_id p_pos d_pos then
      if cost_increase inst (routes.getD r []) pickup_id delivery_id p_pos d_pos < best.2 then
        (some (r, p_pos, d_pos),
          cost_increase inst (routes.getD r []) pickup_id delivery_id p_pos d_pos)
      else best
    else best) (none, INT_MAX)).1

/-- The pickup selected in one execution of the `while` body of `construct_solution`. -/
def ant_select (inst : Instance) (params : HybridParams) (draws : AntDraws) (step : Nat)
    (routes : List Route) (unvisited : List Int) : Int :=
  if draws.coin step < params.greedy_bias then select_greedy_pickup inst unvisited routes
  else select_aco_pickup unvisited (draws.wheel step)

/-- The `while` loop of `HybridAnt::construct_solution` with a bound on the number of
executions of its body; `none` when the bound is reached before the loop exits. -/
def ant_loop (inst : Instance) (params : HybridParams) (draws : AntDraws) :
    Nat → Nat → List Route → List Int → Option (List Route × List Int)
  | _, _, routes, [] => some (routes, [])
  | 0, _, _, _ :: _ => none
  | fuel + 1, step, routes, p :: ps =>
      let selected_pickup := ant_select inst params draws step routes (p :: ps)
      if selected_pickup = -1 then some (routes, p :: ps)
      else
        let delivery_id := (inst.node selected_pickup).delivery_pair
        match find_best_insertion inst routes selected_pickup delivery_id with
        | some (route_idx, pickup_pos, delivery_pos) =>
            ant_loop inst params draws fuel (step + 1)
              (commit_insertion routes route_idx selected_pickup delivery_id
                pickup_pos delivery_pos)
              (set_erase (p :: ps) selected_pickup)
        | none => some (routes, p :: ps)

/-- The method `HybridAnt::construct_solution`, run with one body execution per pickup
id. -/
def construct_solution (inst : Instance) (params : HybridParams) (draws : AntDraws)
    (num_routes : Nat) : HybridSolution :=
  HybridSolution.calculate_cost inst
    { HybridSolution.new num_routes with
      routes :=
        match ant_loop inst params draws (initial_unvisited inst).length 0
            (List.replicate num_routes []) (initial_unvisited inst) with
        | some (routes, _) => routes
        | none => List.replicate num_routes [] }

/-! ## Solver controller -/

/-- The random draws of one call of `hybrid_aco_solve`: for iteration `iter` and ant
`ant`, the ant's own draws and the value `dis_global(gen_global)` compared with
`local_search_prob`. -/
structure SolveDraws where
  ant : Nat → Nat → AntDraws
  ls_coin : Nat → Nat → ℚ

/-- The call `sort(iteration_solutions.begin(), iteration_solutions.end())`. The order
among solutions that compare equivalent is not fixed by `std::sort`; here it is the
stable one. -/
def sort_solutions (l : List HybridSolution) : List HybridSolution :=
  l.insertionSort (fun a b => HybridSolution.lt b a = false)

/-- The batch `iteration_solutions` built by the inner `for` loop over the ants. -/
def iteration_batch (inst : Instance) (params : HybridParams) (draws : SolveDraws)
    (num_routes iter : Nat) : List HybridSolution :=
  (List.range params.num_ants.toNat).map (fun ant =>
    let solution := construct_solution inst params (draws.ant iter ant) num_routes
    if draws.ls_coin iter ant < params.local_search_prob then local_search_2opt inst solution
    else solution)

/-- The update of `best_solution` and `no_improvement_count` from the sorted batch. -/
def update_best (sorted : List HybridSolution) (best_solution : HybridSolution)
    (no_improvement_count : Int) : HybridSolution × Int :=
  match sorted with
  | s0 :: _ =>
      if HybridSolution.lt s0 best_solution then (s0, 0)
      else (best_solution, no_improvement_count + 1)
  | [] => (best_solution, no_improvement_count + 1)

/-- The `for` loop of `hybrid_aco_solve` from iteration `iter` on, with `remaining`
iterations left before `max_iterations`. The pheromone matrix is written by the loop but
read only inside the roulette of `select_aco_pickup`, whose outcome is a draw here. -/
def aco_iterations (inst : Instance) (params : HybridParams) (draws : SolveDraws)
    (num_routes : Nat) : Nat → Nat → HybridSolution → Int → HybridSolution
  | 0, _, best_solution, _ => best_solution
  | remaining + 1, iter, best_solution, no_improvement_count =>
      let sorted := sort_solutions (iteration_batch inst params draws num_routes iter)
      let upd := update_best sorted best_solution no_improvement_count
      if upd.2 ≥ params.restart_threshold then upd.1
      else aco_iterations inst params draws num_routes remaining (iter + 1) upd.1 upd.2

/-- The solution `initial_solution` of `hybrid_aco_solve`. -/
def initial_solution (inst : Instance) (num_routes : Nat) : HybridSolution :=
  HybridSolution.calculate_cost inst
    { HybridSolution.new num_routes with routes := pure_greedy_insertion inst num_routes }

/-- The function `hybrid_aco_solve`. -/
def hybrid_aco_solve (inst : Instance) (params : HybridParams) (draws : SolveDraws)
    (num_routes : Nat) : HybridSolution :=
  aco_iterations inst params draws num_routes params.max_iterations.toNat 0
    (initial_solution inst num_routes) 0

/-! ## Route invariants, stated independently of the evaluator -/

/-- The sum of the travel times over the consecutive pairs of a route. -/
def consecutive_sum (inst : Instance) (route : Route) : Int :=
  ((route.zip route.tail).map (fun ab => inst.travel ab.1 ab.2)).sum

/-- The running load after the nodes of `pre` have been visited. -/
def load_after (inst : Instance) (pre : Route) : Int :=
  (pre.map (fun i => (inst.node i).demand)).sum

/-- The place of the vehicle after `k` nodes of the route: the depot, then `route[k-1]`. -/
def position (route : Route) (k : Nat) : Int := (0 :: route).getD k 0

/-- The clock after `k` nodes of the route have been served: 0 at the depot; the arrival
at the next node is the clock plus the travel time, and the departure from it is the
arrival clamped up to the early time, plus the service duration. -/
def clock (inst : Instance) (route : Route) : Nat → Int
  | 0 => 0
  | k + 1 =>
      max (clock inst route k + inst.travel (position route k) (route.getD k 0))
          (inst.node (route.getD k 0)).early_time
        + (inst.node (route.getD k 0)).service_duration

/-- The arrival time at position `i` of the route. -/
def arrival_time (inst : Instance) (route : Route) (i : Nat) : Int :=
  clock inst route i + inst.travel (position route i) (route.getD i 0)

/-- What `visited_pickup` holds after the nodes of `pre`. -/
def VisInv (inst : Instance) (visited : List Bool) (pre : Route) : Prop :=
  visited.length = inst.size
    ∧ ∀ q : Int, vec_get visited q false = true ↔ (q ∈ pre ∧ (inst.node q).is_pickup = true)

/-- The tests of the loop body at position `i`, in terms of the route. -/
def StepOk (inst : Instance) (route : Route) (i : Nat) : Prop :=
  arrival_time inst route i ≤ (inst.node (route.getD i 0)).late_time
  ∧ ((inst.node (route.getD i 0)).is_delivery = true →
      (inst.node (route.getD i 0)).pickup_pair ∈ route.take i
        ∧ (inst.node (inst.node (route.getD i 0)).pickup_pair).is_pickup = true)
  ∧ 0 ≤ load_after inst (route.take (i + 1))
  ∧ load_after inst (route.take (i + 1)) ≤ inst.capacity

/-- The return-to-depot test. -/
def ReturnOk (inst : Instance) (route : Route) : Prop :=
  clock inst route route.length + inst.travel (position route route.length) 0
    ≤ (inst.node 0).late_time

/-- Invariant (a): every delivery is preceded by its paired pickup: an earlier position
holds its `pickup_pair`, and the node there is a pickup. -/
def PrecedenceOk (inst : Instance) (route : Route) : Prop :=
  ∀ i, i < route.length → (inst.node (route.getD i 0)).is_delivery = true →
    ∃ j, j < i ∧ route.getD j 0 = (inst.node (route.getD i 0)).pickup_pair
      ∧ (inst.node (route.getD j 0)).is_pickup = true

/-- Invariant (a) with the pickup test left out: every delivery has its `pickup_pair` at
an earlier position. -/
def PrecedencePlain (inst : Instance) (route : Route) : Prop :=
  ∀ i, i < route.length → (inst.node (route.getD i 0)).is_delivery = true →
    ∃ j, j < i ∧ route.getD j 0 = (inst.node (route.getD i 0)).pickup_pair

/-- Invariant (b): the running load stays within 0 and the capacity. -/
def LoadOk (inst : Instance) (route : Route) : Prop :=
  ∀ i, i < route.length →
    0 ≤ load_after inst (route.take (i + 1))
      ∧ load_after inst (route.take (i + 1)) ≤ inst.capacity

/-- Invariant (c): every arrival is within the late time of its node. -/
def WindowsOk (inst : Instance) (route : Route) : Prop :=
  ∀ i, i < route.length → arrival_time inst route i ≤ (inst.node (route.getD i 0)).late_time

/-- Invariant (d): the departure from the last node plus the way back to the depot is
within the late time of the depot. -/
def DepotReturnOk (inst : Instance) (route : Route) : Prop :=
  route ≠ [] →
    clock inst route route.length + inst.travel (route.getLastD 0) 0 ≤ (inst.node 0).late_time

/-! ## Scan order, loop states and well-formedness -/

/-- The index triples `(r, p_pos, d_pos)` visited by `scan_slots`, in scan order. -/
def slots (routes : List Route) (num_routes : Nat) : List (Nat × Nat × Nat) :=
  (List.range num_routes).flatMap (fun r =>
    (List.range ((routes.getD r []).length + 1)).flatMap (fun p_pos =>
      (List.range' p_pos ((routes.getD r []).length + 1 - p_pos)).map
        (fun d_pos => (r, p_pos, d_pos))))

/-- The update `if (feasible) if (!found || score < best.score) best = c` of a scan. -/
def pick_first_min {γ : Type} (feas : γ → Bool) (score : γ → Int) (best : Option γ) (c : γ) :
    Option γ :=
  if feas c then
    match best with
    | none => some c
    | some b => if score c < score b then some c else some b
  else best

/-- The record the scan of `pure_greedy_insertion` writes for pickup `pickup_id` at the
index triple `t`. -/
def greedy_candidate (inst : Instance) (routes : List Route) (pickup_id : Int)
    (t : Nat × Nat × Nat) : GreedyInsertion :=
  ⟨pickup_id, (inst.node pickup_id).delivery_pair, t.1, t.2.1, t.2.2,
    cost_increase inst (routes.getD t.1 []) pickup_id (inst.node pickup_id).delivery_pair
      t.2.1 t.2.2⟩

/-- All records of one scan of `pure_greedy_insertion`, in scan order. -/
def greedy_candidates (inst : Instance) (num_routes : Nat) (routes : List Route)
    (unvisited : List Int) : List GreedyInsertion :=
  unvisited.flatMap (fun pickup_id =>
    (slots routes num_routes).map (greedy_candidate inst routes pickup_id))

/-- The test `is_feasible_insertion` on a record. -/
def GreedyInsertion.feasible (inst : Instance) (routes : List Route) (b : GreedyInsertion) :
    Bool :=
  is_feasible_insertion inst (routes.getD b.route_idx []) b.pickup_id b.delivery_id
    b.pickup_pos b.delivery_pos

/-- Strict scan order on `(pickup id, route index, p_pos, d_pos)`: ascending pickup id, then
route index, then `p_pos`, then `d_pos`. -/
def scan_lt (a b : Int × Nat × Nat × Nat) : Prop :=
  a.1 < b.1 ∨ (a.1 = b.1 ∧ (a.2.1 < b.2.1 ∨ (a.2.1 = b.2.1 ∧
    (a.2.2.1 < b.2.2.1 ∨ (a.2.2.1 = b.2.2.1 ∧ a.2.2.2 < b.2.2.2)))))

/-- The position of a record in the scan. -/
def GreedyInsertion.key (b : GreedyInsertion) : Int × Nat × Nat × Nat :=
  (b.pickup_id, b.route_idx, b.pickup_pos, b.delivery_pos)

/-- The states `(routes, unvisited_pairs)` at the head of the `while` loop of
`pure_greedy_insertion(num_routes)`: the initial one, and the one after each committed
insertion. -/
inductive GreedyReach (inst : Instance) (num_routes : Nat) : List Route → List Int → Prop
  | start : GreedyReach inst num_routes (List.replicate num_routes []) (initial_unvisited inst)
  | step {routes : List Route} {unvisited : List Int} {b : GreedyInsertion} :
      GreedyReach inst num_routes routes unvisited →
      greedy_scan inst num_routes routes unvisited = some b →
      GreedyReach inst num_routes
        (commit_insertion routes b.route_idx b.pickup_id b.delivery_id b.pickup_pos
          b.delivery_pos)
        (set_erase unvisited b.pickup_id)

/-- A route obtained from the empty route by pair insertions; the second argument lists
the pickups inserted, latest first. -/
inductive Built (inst : Instance) : Route → List Int → Prop
  | empty : Built inst [] []
  | ins {route : Route} {pks : List Int} (pk : Int) (p d : Nat) :
      Built inst route pks → p ≤ d → d ≤ route.length →
      Built inst (insert_pair route pk (inst.node pk).delivery_pair p d) (pk :: pks)

/-- The pickups placed so far, route by route, and the unvisited ones make up the
initial set; every route is built by pair insertions of its placed pickups. -/
def PlacedInv (inst : Instance) (n : Nat) (routes : List Route) (unv : List Int) : Prop :=
  ∃ placed : Nat → List Int,
    (∀ r, Built inst (routes.getD r []) (placed r))
    ∧ ((List.range n).flatMap placed ++ unv).Perm (initial_unvisited inst)

/-- Well-formed instance: every pickup node is stored at the index equal to its identifier
(the source subscripts `nodes` by identifiers), and its `delivery_pair` is a delivery whose
`pickup_pair` points back to it. -/
def WellFormed (inst : Instance) : Prop :=
  ∀ nd ∈ pickup_nodes inst,
    inst.node nd.id = nd
      ∧ (inst.node nd.delivery_pair).is_delivery = true
      ∧ (inst.node nd.delivery_pair).pickup_pair = nd.id

instance (inst : Instance) : Decidable (WellFormed inst) :=
  inferInstanceAs (Decidable (∀ nd ∈ pickup_nodes inst,
    inst.node nd.id = nd
      ∧ (inst.node nd.delivery_pair).is_delivery = true
      ∧ (inst.node nd.delivery_pair).pickup_pair = nd.id))

/-! ## Pheromone model -/

/-- The global `pheromone`, a matrix of `double` values; the values are taken as exact
rationals and the arithmetic on them as exact. -/
abbrev Pheromone := List (List ℚ)

/-- The element `pheromone[i][j]`. -/
def mat_get (m : Pheromone) (i j : Int) : ℚ := vec_get (vec_get m i []) j 0

/-- The assignment `pheromone[i][j] = x`. -/
def mat_set (m : Pheromone) (i j : Int) (x : ℚ) : Pheromone :=
  vec_set m i (vec_set (vec_get m i []) j x)

/-- The statement `pheromone[i][j] += x`. -/
def mat_add (m : Pheromone) (i j : Int) (x : ℚ) : Pheromone :=
  mat_set m i j (mat_get m i j + x)

/-- The inner `for` loop over the consecutive nodes of a route, adding `delta` on each arc. -/
def deposit_consecutive : Pheromone → Route → ℚ → Pheromone
  | m, a :: b :: rest, delta => deposit_consecutive (mat_add m a b delta) (b :: rest) delta
  | m, _, _ => m

/-- The body `if (!route.empty()) ...` shared by `initialize_pheromone` and
`update_pheromone`: `delta` is added on depot to first, on each consecutive arc, and on
last to depot. -/
def deposit_route (m : Pheromone) (route : Route) (delta : ℚ) : Pheromone :=
  match route with
  | [] => m
  | r0 :: _ =>
      mat_add (deposit_consecutive (mat_add m 0 r0 delta) route delta) (route.getLastD 0) 0 delta

/-- The function `initialize_pheromone`; the argument is the previous value of the global
`pheromone`, the result its new value. -/
def initialize_pheromone (inst : Instance) (_pheromone : Pheromone) : Pheromone :=
  (pure_greedy_insertion inst 3).foldl (fun m route => deposit_route m route 2)
    (List.replicate inst.size (List.replicate inst.size 1))

/-- The evaporation loops of `update_pheromone` over `i, j < instance.size`. -/
def evaporate (size : Nat) (rho : ℚ) (m : Pheromone) : Pheromone :=
  (List.range size).foldl (fun (m : Pheromone) (i : Nat) =>
    (List.range size).foldl (fun (m : Pheromone) (j : Nat) =>
      mat_set m i j ((1 - rho) * mat_get m i j)) m) m

/-- The function `update_pheromone`; the last argument is the previous value of the global
`pheromone`, the result its new value. -/
def update_pheromone (inst : Instance) (params : HybridParams)
    (solutions : List HybridSolution) (pheromone : Pheromone) : Pheromone :=
  (solutions.take (min params.elite_solutions solutions.length).toNat).foldl
    (fun m solution =>
      solution.routes.foldl
        (fun m route => deposit_route m route (10 / ((solution.total_cost : ℚ) + 1))) m)
    (evaporate inst.size params.rho pheromone)

/-- The arcs of a route: depot to first, consecutive nodes, last to depot; none for the
empty route. -/
def route_arcs (route : Route) : List (Int × Int) :=
  if route.isEmpty then [] else (0 :: route).zip (route ++ [0])

/-- The arcs of the routes of a solution. -/
def solution_arcs (routes : List Route) : List (Int × Int) := routes.flatMap route_arcs

/-- The entry `(i, j)` exists in the matrix. -/
def InBounds (m : Pheromone) (i j : Int) : Prop :=
  0 ≤ i ∧ i < m.length ∧ 0 ≤ j ∧ j < (vec_get m i []).length

instance (m : Pheromone) (i j : Int) : Decidable (InBounds m i j) :=
  inferInstanceAs (Decidable (0 ≤ i ∧ i < m.length ∧ 0 ≤ j ∧ j < (vec_get m i []).length))

/-- The matrix has the entries `(i, j)` for all `i, j < n`. -/
def Covers (n : Nat) (m : Pheromone) : Prop :=
  ∀ i j : Nat, i < n → j < n → InBounds m i j

/-- The pheromone added to an entry by `update_pheromone` for the arc `(a, b)`: for each of
the first `min(elite_solutions, |batch|)` solutions, `10 / (total_cost + 1)` times the number
of uses of the arc by the routes of the solution. -/
def reinforcement (params : HybridParams) (solutions : List HybridSolution) (a b : Int) : ℚ :=
  ((solutions.take (min params.elite_solutions solutions.length).toNat).map (fun s =>
    10 / ((s.total_cost : ℚ) + 1) * ((solution_arcs s.routes).count (a, b) : ℚ))).sum

/-- The routes hold exactly the pickups `P` and their deliveries, and `P` together with
`unv` makes up the initial set of pickup identifiers. -/
def Served (inst : Instance) (routes : List Route) (P unv : List Int) : Prop :=
  (P ++ unv).Perm (initial_unvisited inst)
    ∧ routes.flatten.Perm (P ++ P.map (fun pk => (inst.node pk).delivery_pair))

/-- The `for` loop of `hybrid_aco_solve` with the global `pheromone` as part of the state:
the result is `best_solution`, `no_improvement_count` and the matrix when the loop is left. -/
def aco_iterations_state (inst : Instance) (params : HybridParams) (draws : SolveDraws)
    (num_routes : Nat) :
    Nat → Nat → HybridSolution → Int → Pheromone → HybridSolution × Int × Pheromone
  | 0, _, best_solution, no_improvement_count, pheromone =>
      (best_solution, no_improvement_count, pheromone)
  | remaining + 1, iter, best_solution, no_improvement_count, pheromone =>
      let sorted := sort_solutions (iteration_batch inst params draws num_routes iter)
      let upd := update_best sorted best_solution no_improvement_count
      let updated := update_pheromone inst params sorted pheromone
      if upd.2 ≥ params.restart_threshold then (upd.1, upd.2, updated)
      else aco_iterations_state inst params draws num_routes remaining (iter + 1) upd.1 upd.2
        updated

/-- The function `hybrid_aco_solve` with the global `pheromone` as part of the state: the
argument is the matrix before the call. -/
def hybrid_aco_solve_state (inst : Instance) (params : HybridParams) (draws : SolveDraws)
    (num_routes : Nat) (pheromone : Pheromone) : HybridSolution × Int × Pheromone :=
  aco_iterations_state inst params draws num_routes params.max_iterations.toNat 0
    (initial_solution inst num_routes) 0 (initialize_pheromone inst pheromone)

/-- The matrices reachable by `initialize_pheromone` followed by calls of
`update_pheromone` on batches whose solutions satisfy `ok`. -/
inductive PheromoneReach (inst : Instance) (params : HybridParams)
    (ok : HybridSolution → Prop) : Pheromone → Prop
  | init (old : Pheromone) : PheromoneReach inst params ok (initialize_pheromone inst old)
  | update {m : Pheromone} (batch : List HybridSolution) :
      PheromoneReach inst params ok m → (∀ s ∈ batch, ok s) →
      PheromoneReach inst params ok (update_pheromone inst params batch m)

/-- The matrix has `n` rows of `n` entries. -/
def Square (n : Nat) (m : Pheromone) : Prop :=
  m.length = n ∧ ∀ row ∈ m, row.length = n

/-! ## Escalation loop of solve and constructor invariants -/

/-- The variables of `solve` when its escalation loop is left, with the route counts for
which `hybrid_aco_solve` was called (the "Attempting solution with ... routes" lines). -/
structure SolveResult where
  best_solution : HybridSolution
  all_pairs_served : Bool
  current_routes : Nat
  attempts : List Nat
deriving DecidableEq, Repr

/-- The sum `total_nodes_visited` of `solve`. -/
def total_nodes_visited (s : HybridSolution) : Nat :=
  s.routes.foldl (fun total route => total + route.length) 0

/-- The escalation loop `while (!all_pairs_served && current_routes <= required_pairs * 2)`
of `solve`, with a bound on the number of executions of its body; `none` when the bound is
reached before the loop exits. `draws k` are the random draws of the attempt with `k`
routes. -/
def solve_loop (inst : Instance) (params : HybridParams) (draws : Nat → SolveDraws) :
    Nat → Nat → HybridSolution → List Nat → Option SolveResult
  | 0, current_routes, best_solution, attempts =>
      if current_routes ≤ (pickup_nodes inst).length * 2 then none
      else some ⟨best_solution, false, current_routes, attempts⟩
  | fuel + 1, current_routes, best_solution, attempts =>
      if current_routes ≤ (pickup_nodes inst).length * 2 then
        let best := hybrid_aco_solve inst params (draws current_routes) current_routes
        let pairs_served := total_nodes_visited best / 2
        if pairs_served = (pickup_nodes inst).length then
          some ⟨best, true, current_routes, attempts ++ [current_routes]⟩
        else
          solve_loop inst params draws fuel (current_routes + 1) best
            (attempts ++ [current_routes])
      else some ⟨best_solution, false, current_routes, attempts⟩

/-- The escalation part of `solve(input_file, output_file, num_routes)` on a parsed
instance, run with one body execution per route count up to the bound. -/
def solve_escalation (inst : Instance) (params : HybridParams) (draws : Nat → SolveDraws)
    (num_routes : Nat) : SolveResult :=
  match solve_loop inst params draws ((pickup_nodes inst).length * 2 + 1 - num_routes)
      num_routes (HybridSolution.new num_routes) [] with
  | some r => r
  | none => ⟨HybridSolution.new num_routes, false, num_routes, []⟩

/-- A property of the loop state `(routes, unvisited_pairs)` of a constructor that every
committed feasible insertion of an unvisited pair keeps. -/
def InsertionClosed (inst : Instance) (P : List Route → List Int → Prop) : Prop :=
  ∀ (routes : List Route) (unv : List Int) (pk : Int) (r p d : Nat),
    P routes unv → pk ∈ unv → r < routes.length → p ≤ d → d ≤ (routes.getD r []).length →
    is_feasible_insertion inst (routes.getD r []) pk (inst.node pk).delivery_pair p d = true →
    P (commit_insertion routes r pk (inst.node pk).delivery_pair p d) (set_erase unv pk)

/-! ## Executed batches and the reversed segment -/

/-- The batches `iteration_solutions` of the iterations that `hybrid_aco_solve` executes,
in order, from iteration `iter` on. -/
def executed_batches (inst : Instance) (params : HybridParams) (draws : SolveDraws)
    (num_routes : Nat) : Nat → Nat → HybridSolution → Int → List (List HybridSolution)
  | 0, _, _, _ => []
  | remaining + 1, iter, best_solution, no_improvement_count =>
      let upd := update_best
        (sort_solutions (iteration_batch inst params draws num_routes iter))
        best_solution no_improvement_count
      iteration_batch inst params draws num_routes iter ::
        (if upd.2 ≥ params.restart_threshold then []
         else executed_batches inst params draws num_routes remaining (iter + 1) upd.1 upd.2)

/-- The route with the positions `a` to `b`, both inclusive, reversed. -/
def reverse_closed (route : Route) (a b : Nat) : Route :=
  route.take a ++ ((route.drop a).take (b + 1 - a)).reverse ++ route.drop (b + 1)

/-! ## Iterations of hybrid_aco_solve -/

/-- The test `!iteration_solutions.empty() && iteration_solutions[0] < best_solution` of
iteration `iter` of `hybrid_aco_solve`: the best ant solution of the iteration strictly
beats the global best. -/
def iteration_improves (inst : Instance) (params : HybridParams) (draws : SolveDraws)
    (num_routes iter : Nat) (best_solution : HybridSolution) : Bool :=
  match sort_solutions (iteration_batch inst params draws num_routes iter) with
  | s0 :: _ => HybridSolution.lt s0 best_solution
  | [] => false

/-- The body of the `for` loop of `hybrid_aco_solve` at iteration `iter`, up to and
including the call of `update_pheromone`: the new values of `best_solution`,
`no_improvement_count` and `pheromone`. -/
def aco_body (inst : Instance) (params : HybridParams) (draws : SolveDraws)
    (num_routes iter : Nat) (st : HybridSolution × Int × Pheromone) :
    HybridSolution × Int × Pheromone :=
  let sorted := sort_solutions (iteration_batch inst params draws num_routes iter)
  let upd := update_best sorted st.1 st.2.1
  (upd.1, upd.2, update_pheromone inst params sorted st.2.2)

/-- The `for` loop of `hybrid_aco_solve` from iteration `iter` on, recording the values of
`best_solution`, `no_improvement_count` and `pheromone` at the end of the body of each
executed iteration (where the early termination test is made). -/
def aco_trace (inst : Instance) (params : HybridParams) (draws : SolveDraws)
    (num_routes : Nat) :
    Nat → Nat → HybridSolution × Int × Pheromone → List (HybridSolution × Int × Pheromone)
  | 0, _, _ => []
  | remaining + 1, iter, st =>
      aco_body inst params draws num_routes iter st ::
        (if (aco_body inst params draws num_routes iter st).2.1 ≥ params.restart_threshold
         then []
         else aco_trace inst params draws num_routes remaining (iter + 1)
                (aco_body inst params draws num_routes iter st))

/-- The number of consecutive iterations, ending with iteration `k`, that did not
improve. -/
def trailing_failures (improved : Nat → Bool) (k : Nat) : Nat :=
  ((List.range (k + 1)).reverse.takeWhile (fun j => !improved j)).length

/-- The values of `best_solution`, `no_improvement_count` and `pheromone` when the `for`
loop of `hybrid_aco_solve` is entered; `old` is the matrix before the call. -/
def aco_start (inst : Instance) (num_routes : Nat) (old : Pheromone) :
    HybridSolution × Int × Pheromone :=
  (initial_solution inst num_routes, 0, initialize_pheromone inst old)

/-- The states at the end of the executed iterations of one call of `hybrid_aco_solve`. -/
def hybrid_aco_trace (inst : Instance) (params : HybridParams) (draws : SolveDraws)
    (num_routes : Nat) (old : Pheromone) : List (HybridSolution × Int × Pheromone) :=
  aco_trace inst params draws num_routes params.max_iterations.toNat 0
    (aco_start inst num_routes old)

/-! ## Insertions committed by the greedy constructor -/

/-- The insertions committed by the `while` loop of `pure_greedy_insertion`, in order: the
values of `best_insertion` at the two `insert` calls. -/
def greedy_commits (inst : Instance) (num_routes : Nat) :
    Nat → List Route → List Int → List GreedyInsertion
  | _, _, [] => []
  | 0, _, _ :: _ => []
  | fuel + 1, routes, p :: ps =>
      match greedy_scan inst num_routes routes (p :: ps) with
      | none => []
      | some b =>
          b :: greedy_commits inst num_routes fuel
            (commit_insertion routes b.route_idx b.pickup_id b.delivery_id
              b.pickup_pos b.delivery_pos)
            (set_erase (p :: ps) b.pickup_id)

/-- The insertions committed by `pure_greedy_insertion(num_routes)`. -/
def pure_greedy_commits (inst : Instance) (num_routes : Nat) : List GreedyInsertion :=
  greedy_commits inst num_routes (initial_unvisited inst).length
    (List.replicate num_routes []) (initial_unvisited inst)

/-! ## Accepted moves of the local search -/

/-- The loop `while (improved_route)` of `local_search_2opt` instrumented with the number
of accepted moves (executions of `route = new_route`). -/
def two_opt_count (inst : Instance) : Nat → Route → Option (Route × Nat)
  | 0, _ => none
  | fuel + 1, route =>
      match two_opt_scan inst route with
      | none => some (route, 0)
      | some new_route =>
          (two_opt_count inst fuel new_route).map (fun res => (res.1, res.2 + 1))

/-- Draws with which every ant takes the roulette branch; the roulette stops at the first
candidate in the first step and at the second candidate afterwards; no local search is
applied. -/
def roulette_draws_late : SolveDraws :=
  { ant := fun _ _ =>
      { coin := fun _ => mkRat 9 10, wheel := fun step => if step = 0 then 0 else 1 },
    ls_coin := fun _ _ => mkRat 9 10 }

/-- Draws with which every ant takes the roulette branch (0.9 is not below the default
`greedy_bias` 0.85), the roulette stops at the second candidate, and no local search is
applied (0.9 is not below the default `local_search_prob` 0.7). -/
def roulette_draws : SolveDraws :=
  { ant := fun _ _ => { coin := fun _ => mkRat 9 10, wheel := fun _ => 1 },
    ls_coin := fun _ _ => mkRat 9 10 }

/-! ## Evaluator with the arithmetic of int -/

/-- The constant `INT_MIN` of a 32-bit `int`. -/
def INT_MIN : Int := -2147483648

/-- The value lies within the range of a 32-bit `int`. -/
def fits_int (x : Int) : Bool := decide (INT_MIN ≤ x) && decide (x ≤ INT_MAX)

/-- The `int` that the program holds for the exact value `x` after an addition: `x` reduced
modulo 2^32 into the range of `int`. The source does not check its additions; the language
leaves a signed overflow undefined, and the compiled additions wrap around in two's
complement, which is what this function gives. -/
def wrap_int (x : Int) : Int := (x + 2147483648) % 4294967296 - 2147483648

/-- The loop of `is_feasible_route` as `feasible_loop`, with the `int` additions
`current_time += ...`, `current_load += ...` and `current_time + ...` reduced to the range of
`int`. -/
def feasible_loop_int (inst : Instance) :
    Route → Int → Int → Int → List Bool → Bool
  | [], prev, current_time, _, _ =>
      if wrap_int (current_time + inst.travel prev 0) > (inst.node 0).late_time then false
      else true
  | node_id :: rest, prev, current_time, current_load, visited_pickup =>
      let node := inst.node node_id
      let arrival := wrap_int (current_time + inst.travel prev node_id)
      if arrival > node.late_time then false
      else
        let departure := wrap_int (max arrival node.early_time + node.service_duration)
        if node.is_delivery && !(vec_get visited_pickup node.pickup_pair false) then false
        else
          let visited := if node.is_pickup then vec_set visited_pickup node_id true
                         else visited_pickup
          let load := wrap_int (current_load + node.demand)
          if load > inst.capacity || load < 0 then false
          else feasible_loop_int inst rest node_id departure load visited

/-- The function `is_feasible_route` with its `int` arithmetic reduced to the range of
`int`. -/
def is_feasible_route_int (inst : Instance) (route : Route) : Bool :=
  if route.isEmpty then true
  else feasible_loop_int inst route 0 0 0 (List.replicate inst.size false)

/-- Whether every `int` addition that the loop of `is_feasible_route` performs, up to the
point where it returns, gives a value within the range of `int`. -/
def walk_fits (inst : Instance) : Route → Int → Int → Int → List Bool → Bool
  | [], prev, current_time, _, _ => fits_int (current_time + inst.travel prev 0)
  | node_id :: rest, prev, current_time, current_load, visited_pickup =>
      let node := inst.node node_id
      let arrival := current_time + inst.travel prev node_id
      fits_int arrival &&
        (if arrival > node.late_time then true
         else
          let departure := max arrival node.early_time + node.service_duration
          fits_int departure &&
            (if node.is_delivery && !(vec_get visited_pickup node.pickup_pair false) then true
             else
              let visited := if node.is_pickup then vec_set visited_pickup node_id true
                             else visited_pickup
              let load := current_load + node.demand
              fits_int load &&
                (if load > inst.capacity || load < 0 then true
                 else walk_fits inst rest node_id departure load visited)))

/-- Whether no `int` addition of the call `is_feasible_route(route)` overflows. -/
def no_overflow (inst : Instance) (route : Route) : Bool :=
  if route.isEmpty then true
  else walk_fits inst route 0 0 0 (List.replicate inst.size false)

/-- The loop of `calculate_route_cost` as `cost_loop`, with the addition
`total_time += ...` reduced to the range of `int`. -/
def cost_loop_int (inst : Instance) : Route → Int → Int
  | a :: b :: rest, total_time =>
      cost_loop_int inst (b :: rest) (wrap_int (total_time + inst.travel a b))
  | _, total_time => total_time

/-- The function `calculate_route_cost` with its `int` arithmetic reduced to the range of
`int`. -/
def calculate_route_cost_int (inst : Instance) (route : Route) : Int :=
  match route with
  | [] => 0
  | r0 :: _ =>
      wrap_int (cost_loop_int inst route (inst.travel 0 r0) + inst.travel (route.getLastD 0) 0)

/-! ## Pheromone update on double values -/

/-- The arithmetic of `double` that `update_pheromone` uses, taken as a parameter: the
conversion of an `int` (also the literals `1.0` and `10.0`) and the four operations, each
with whatever rounding, infinities and NaN the machine gives it. -/
structure DoubleOps (D : Type) where
  of_int : Int → D
  add : D → D → D
  sub : D → D → D
  mul : D → D → D
  div : D → D → D

/-- The element `pheromone[i][j]` of a matrix of `double` values. -/
def dmat_get {D : Type} (ops : DoubleOps D) (m : List (List D)) (i j : Int) : D :=
  vec_get (vec_get m i []) j (ops.of_int 0)

/-- The assignment `pheromone[i][j] = x` on a matrix of `double` values. -/
def dmat_set {D : Type} (m : List (List D)) (i j : Int) (x : D) : List (List D) :=
  vec_set m i (vec_set (vec_get m i []) j x)

/-- The statement `pheromone[i][j] += x` on a matrix of `double` values. -/
def dmat_add {D : Type} (ops : DoubleOps D) (m : List (List D)) (i j : Int) (x : D) :
    List (List D) :=
  dmat_set m i j (ops.add (dmat_get ops m i j) x)

/-- The inner `for` loop of `update_pheromone` over the consecutive nodes of a route. -/
def ddeposit_consecutive {D : Type} (ops : DoubleOps D) :
    List (List D) → Route → D → List (List D)
  | m, a :: b :: rest, delta =>
      ddeposit_consecutive ops (dmat_add ops m a b delta) (b :: rest) delta
  | m, _, _ => m

/-- The body `if (!route.empty()) ...` of `update_pheromone`: `delta_tau` is added on depot
to first, on each consecutive arc, and on last to depot. -/
def ddeposit_route {D : Type} (ops : DoubleOps D) (m : List (List D)) (route : Route)
    (delta : D) : List (List D) :=
  match route with
  | [] => m
  | r0 :: _ =>
      dmat_add ops (ddeposit_consecutive ops (dmat_add ops m 0 r0 delta) route delta)
        (route.getLastD 0) 0 delta

/-- The evaporation loops of `update_pheromone`:
`pheromone[i][j] = (1.0 - rho) * pheromone[i][j]` for `i, j < instance.size`. -/
def devaporate {D : Type} (ops : DoubleOps D) (size : Nat) (rho : D) (m : List (List D)) :
    List (List D) :=
  (List.range size).foldl (fun (m : List (List D)) (i : Nat) =>
    (List.range size).foldl (fun (m : List (List D)) (j : Nat) =>
      dmat_set m i j (ops.mul (ops.sub (ops.of_int 1) rho) (dmat_get ops m i j))) m) m

/-- The value `delta_tau = 10.0 / (solution.total_cost + 1.0)`. -/
def delta_tau {D : Type} (ops : DoubleOps D) (solution : HybridSolution) : D :=
  ops.div (ops.of_int 10) (ops.add (ops.of_int solution.total_cost) (ops.of_int 1))

/-- The function `update_pheromone` on `double` values: `rho` is the value of
`hybrid_params.rho`, the last argument the previous value of the global `pheromone`, the
result its new value. -/
def update_pheromone_in {D : Type} (ops : DoubleOps D) (inst : Instance)
    (params : HybridParams) (rho : D) (solutions : List HybridSolution)
    (pheromone : List (List D)) : List (List D) :=
  (solutions.take (min params.elite_solutions solutions.length).toNat).foldl
    (fun m solution =>
      solution.routes.foldl
        (fun m route => ddeposit_route ops m route (delta_tau ops solution)) m)
    (devaporate ops inst.size rho pheromone)

/-- The entry `(i, j)` exists in the matrix. -/
def HasEntry {D : Type} (m : List (List D)) (i j : Int) : Prop :=
  0 ≤ i ∧ i < m.length ∧ 0 ≤ j ∧ j < (vec_get m i []).length

instance {D : Type} (m : List (List D)) (i j : Int) : Decidable (HasEntry m i j) :=
  inferInstanceAs (Decidable (0 ≤ i ∧ i < m.length ∧ 0 ≤ j ∧ j < (vec_get m i []).length))

/-- The value of an entry after the reinforcement loop of `update_pheromone` over the
solutions `elite`: for each solution in turn, one addition of its `delta_tau` per use of the
arc `(a, b)` by its routes. -/
def reinforced {D : Type} (ops : DoubleOps D) (elite : List HybridSolution) (a b : Int)
    (v : D) : D :=
  elite.foldl (fun v s =>
    Nat.iterate (fun u => ops.add u (delta_tau ops s)) ((solution_arcs s.routes).count (a, b)) v)
    v

/-- Exact arithmetic on the rationals. -/
def exact_ops : DoubleOps ℚ :=
  { of_int := fun n => (n : ℚ), add := fun x y => x + y, sub := fun x y => x - y,
    mul := fun x y => x * y, div := fun x y => x / y }

/-- A finite binary floating-point number `mant * 2 ^ expo`. -/
structure Binary where
  mant : Int
  expo : Int
deriving DecidableEq, Repr

/-- The number of binary digits of `n`; the first argument bounds the recursion. -/
def bit_length : Nat → Nat → Nat
  | 0, _ => 0
  | fuel + 1, n => if n = 0 then 0 else bit_length fuel (n / 2) + 1

/-- Rounding to 53 significant bits, to nearest, ties to even. -/
def round53 (x : Binary) : Binary :=
  let a := x.mant.natAbs
  let len := bit_length a a
  if len ≤ 53 then x
  else
    let k := len - 53
    let q := a / 2 ^ k
    let r := a % 2 ^ k
    let half := 2 ^ (k - 1)
    let q1 := if r > half ∨ (r = half ∧ q % 2 = 1) then q + 1 else q
    ⟨if x.mant < 0 then -(q1 : Int) else (q1 : Int), x.expo + (k : Int)⟩

/-- The rounded sum of two binary numbers. -/
def binary_add (x y : Binary) : Binary :=
  let e := min x.expo y.expo
  round53 ⟨x.mant * 2 ^ (x.expo - e).toNat + y.mant * 2 ^ (y.expo - e).toNat, e⟩

/-- The rounded product of two binary numbers. -/
def binary_mul (x y : Binary) : Binary :=
  round53 ⟨x.mant * y.mant, x.expo + y.expo⟩

/-- The rounded quotient of two binary numbers, for a divisor other than zero: the
quotient of the magnitudes is taken with at least 55 bits and a sticky bit for the
remainder, then rounded. -/
def binary_div (x y : Binary) : Binary :=
  let s := 55 + bit_length y.mant.natAbs y.mant.natAbs
  let n := x.mant.natAbs * 2 ^ s
  let q := 2 * (n / y.mant.natAbs) + (if n % y.mant.natAbs = 0 then 0 else 1)
  round53 ⟨if (x.mant < 0) = (y.mant < 0) then (q : Int) else -(q : Int),
    x.expo - y.expo - (s : Int) - 1⟩

/-- The arithmetic of `double` on finite numbers within its exponent range: 53 significant
bits, every operation rounded to nearest, ties to even. `none` stands for a result that is
not such a number (here: of a division by zero); the exponent is not bounded. -/
def binary64_ops : DoubleOps (Option Binary) :=
  { of_int := fun n => some (round53 ⟨n, 0⟩),
    add := fun x y => x.bind (fun a => y.map (fun b => binary_add a b)),
    sub := fun x y => x.bind (fun a => y.map (fun b => binary_add a ⟨-b.mant, b.expo⟩)),
    mul := fun x y => x.bind (fun a => y.map (fun b => binary_mul a b)),
    div := fun x y => x.bind (fun a => y.bind (fun b =>
      if b.mant = 0 then none else some (binary_div a b))) }

/-- The rational number that a binary number stands for. -/
def Binary.to_rat (x : Binary) : ℚ := (x.mant : ℚ) * (2 : ℚ) ^ x.expo

/-- The `double` nearest to 0.1, the default of `hybrid_params.rho`. -/
def rho_default : Binary := ⟨3602879701896397, -55⟩

/-- The matrix that `initialize_pheromone` leaves on the one-pair instance, whose greedy
route is 1, 2: 3.0 on the arcs (0, 1), (1, 2) and (2, 0), and 1.0 elsewhere. -/
def matrix_one_pair : List (List (Option Binary)) :=
  [[1, 3, 1], [1, 1, 3], [3, 1, 1]].map (fun row => row.map binary64_ops.of_int)

/-! ## Request nodes -/

/-- Builder for a node whose identifier is `id`. -/
def mkNode (id demand early late service pp dp : Int) : Node :=
  { id := id, demand := demand, early_time := early, late_time := late,
    service_duration := service, pickup_pair := pp, delivery_pair := dp }

/-- Depot and one pair (1 picks up, 2 delivers), capacity 10, wide windows. -/
def inst1 : Instance :=
  { size := 3, capacity := 10, route_time := 1000,
    nodes := [mkNode 0 0 0 1000 0 (-1) (-1), mkNode 1 5 0 1000 2 (-1) 2,
              mkNode 2 (-5) 0 1000 2 1 (-1)],
    travel_times := [[0, 3, 4], [3, 0, 5], [4, 5, 0]] }

/-- Two pairs on a line; all windows wide. -/
def inst2 : Instance :=
  { size := 5, capacity := 10, route_time := 1000,
    nodes := [mkNode 0 0 0 1000 0 (-1) (-1), mkNode 1 5 0 1000 0 (-1) 2,
              mkNode 2 (-5) 0 1000 0 1 (-1), mkNode 3 5 0 1000 0 (-1) 4,
              mkNode 4 (-5) 0 1000 0 3 (-1)],
    travel_times := [[0, 1, 2, 3, 4], [1, 0, 1, 2, 3], [2, 1, 0, 1, 2], [3, 2, 1, 0, 1],
                     [4, 3, 2, 1, 0]] }

/-- Draws that always take the greedy branch and always apply local search. -/
def greedy_draws : SolveDraws :=
  { ant := fun _ _ => { coin := fun _ => 0, wheel := fun _ => 0 }, ls_coin := fun _ _ => 0 }

/-- Two pairs (1, 2) and (3, 4) whose pickups must both be reached by time 5, with travel
times that let only one of them be reached in time on the same route. -/
def inst_split : Instance :=
  { size := 5, capacity := 10, route_time := 1000,
    nodes := [mkNode 0 0 0 1000 0 (-1) (-1), mkNode 1 5 0 5 0 (-1) 2,
              mkNode 2 (-5) 0 1000 0 1 (-1), mkNode 3 5 0 5 0 (-1) 4,
              mkNode 4 (-5) 0 1000 0 3 (-1)],
    travel_times := [[0, 4, 4, 4, 4], [4, 0, 4, 4, 4], [4, 4, 0, 4, 4], [4, 4, 4, 0, 4],
                     [4, 4, 4, 4, 0]] }

/-- One pair whose pickup lies at travel time `INT_MAX` from the depot, with windows wide
enough for it: the only insertion is feasible and its cost increase is `INT_MAX`. -/
def inst_sentinel : Instance :=
  { size := 3, capacity := 10, route_time := 1000,
    nodes := [mkNode 0 0 0 2147483647 0 (-1) (-1), mkNode 1 5 0 2147483647 0 (-1) 2,
              mkNode 2 (-5) 0 2147483647 0 1 (-1)],
    travel_times := [[0, 2147483647, 0], [0, 0, 0], [0, 0, 0]] }

/-- Two pairs: the pair (1, 2) fits the vehicle, the pickup 3 of the pair (3, 4) asks for
more than the capacity, so that the pair (3, 4) has no feasible insertion. -/
def inst_unserved : Instance :=
  { size := 5, capacity := 10, route_time := 1000,
    nodes := [mkNode 0 0 0 1000 0 (-1) (-1), mkNode 1 5 0 1000 0 (-1) 2,
              mkNode 2 (-5) 0 1000 0 1 (-1), mkNode 3 20 0 1000 0 (-1) 4,
              mkNode 4 (-20) 0 1000 0 3 (-1)],
    travel_times := [[0, 1, 2, 3, 4], [1, 0, 1, 2, 3], [2, 1, 0, 1, 2], [3, 2, 1, 0, 1],
                     [4, 3, 2, 1, 0]] }

/-- Three pairs on a line: the pairs (1, 2) and (3, 4) fit the vehicle, the pickup 5 of the
pair (5, 6) asks for more than the capacity. -/
def inst_unserved3 : Instance :=
  { size := 7, capacity := 10, route_time := 1000,
    nodes := [mkNode 0 0 0 1000 0 (-1) (-1), mkNode 1 5 0 1000 0 (-1) 2,
              mkNode 2 (-5) 0 1000 0 1 (-1), mkNode 3 5 0 1000 0 (-1) 4,
              mkNode 4 (-5) 0 1000 0 3 (-1), mkNode 5 20 0 1000 0 (-1) 6,
              mkNode 6 (-20) 0 1000 0 5 (-1)],
    travel_times := [[0, 1, 2, 3, 4, 5, 6], [1, 0, 1, 2, 3, 4, 5], [2, 1, 0, 1, 2, 3, 4],
                     [3, 2, 1, 0, 1, 2, 3], [4, 3, 2, 1, 0, 1, 2], [5, 4, 3, 2, 1, 0, 1],
                     [6, 5, 4, 3, 2, 1, 0]] }

/-- Depot and one pair whose pickup 1 lies at travel time `INT_MAX` from the depot and at
travel time 1 back to it: on the route of node 1 alone the way back makes the clock, and
the cost, leave the range of `int`. -/
def inst_ovf : Instance :=
  { size := 3, capacity := 10, route_time := 1000,
    nodes := [mkNode 0 0 0 1000 0 (-1) (-1), mkNode 1 5 0 2147483647 0 (-1) 2,
              mkNode 2 (-5) 0 2147483647 0 1 (-1)],
    travel_times := [[0, 2147483647, 0], [1, 0, 0], [0, 0, 0]] }

/-- Depot, two pickups 1 and 2 that both name node 3 as their delivery, and the delivery 3,
which names pickup 2; pickup 1 asks for more than the capacity. The parser accepts such
node lines, as it does not compare the pair fields of different nodes. -/
def inst_shared : Instance :=
  { size := 4, capacity := 10, route_time := 1000,
    nodes := [mkNode 0 0 0 1000 0 (-1) (-1), mkNode 1 20 0 1000 0 (-1) 3,
              mkNode 2 5 0 1000 0 (-1) 3, mkNode 3 (-5) 0 1000 0 2 (-1)],
    travel_times := [[0, 3, 3, 3], [3, 0, 3, 3], [3, 3, 0, 3], [3, 3, 3, 0]] }

/-- Depot, a pickup 1 whose delivery is node 2, node 2 itself a pickup (its demand is
positive) whose delivery is node 3, and the delivery 3, which takes off more than the
capacity. Every pickup's `delivery_pair` points to a node whose `pickup_pair` points back. -/
def inst_chain : Instance :=
  { size := 4, capacity := 10, route_time := 1000,
    nodes := [mkNode 0 0 0 1000 0 (-1) (-1), mkNode 1 5 0 1000 0 (-1) 2,
              mkNode 2 5 0 1000 0 1 3, mkNode 3 (-20) 0 1000 0 2 (-1)],
    travel_times := [[0, 3, 3, 3], [3, 0, 3, 3], [3, 3, 0, 3], [3, 3, 3, 0]] }

/-! ## Theorems -/

theorem cost_loop_eq (inst : Instance) (route : Route) (acc : Int) :
    cost_loop inst route acc = acc + consecutive_sum inst route := by
  induction route generalizing acc with
  | nil => simp [cost_loop, consecutive_sum]
  | cons a rest ih =>
    cases rest with
    | nil => simp [cost_loop, consecutive_sum]
    | cons b rest =>
      rw [cost_loop, ih]
      simp [consecutive_sum, add_assoc]

theorem cost_cons (inst : Instance) (r0 : Int) (rest : Route) :
    calculate_route_cost inst (r0 :: rest)
      = inst.travel 0 r0 + consecutive_sum inst (r0 :: rest)
        + inst.travel ((r0 :: rest).getLastD 0) 0 := by
  simp only [calculate_route_cost, cost_loop_eq]

theorem vec_get_set_true (v : List Bool) (i q : Int) :
    vec_get (vec_set v i true) q false = true
      ↔ ((q = i ∧ 0 ≤ i ∧ i < v.length) ∨ vec_get v q false = true) := by
  unfold vec_get vec_set
  by_cases hq : q < 0
  · simp [hq]; omega
  · by_cases hi : i < 0
    · simp [hq, hi]
    · simp only [hq, hi, if_false]
      simp only [List.getD_eq_getElem?_getD, List.getElem?_set]
      by_cases h : i.toNat = q.toNat
      · have : q = i := by omega
        subst this
        by_cases hl : q.toNat < v.length
        · simp [hl]; omega
        · simp [hl]
          have : v[q.toNat]? = none := by simp; omega
          simp [this]; omega
      · simp [h]; omega

theorem vec_get_replicate_false (n : Nat) (q : Int) :
    vec_get (List.replicate n false) q false = false := by
  unfold vec_get
  split
  · rfl
  · simp [List.getD_eq_getElem?_getD, List.getElem?_replicate]
    split <;> simp

theorem vec_set_length (v : List Bool) (i : Int) (b : Bool) :
    (vec_set v i b).length = v.length := by
  unfold vec_set; split <;> simp

theorem feasible_loop_iff (inst : Instance) (route : Route)
    (hr : ∀ x ∈ route, 0 ≤ x ∧ x < inst.size) :
    ∀ (rest : Route) (k : Nat) (visited : List Bool),
      route.drop k = rest → k ≤ route.length → VisInv inst visited (route.take k) →
      (feasible_loop inst rest (position route k) (clock inst route k)
          (load_after inst (route.take k)) visited = true
        ↔ (∀ i, k ≤ i → i < route.length → StepOk inst route i) ∧ ReturnOk inst route) := by
  intro rest
  induction rest with
  | nil =>
    intro k visited hdrop hk _
    have hkl : k = route.length := by
      have := congrArg List.length hdrop
      simp at this; omega
    subst hkl
    simp only [feasible_loop, ReturnOk]
    constructor
    · intro h
      refine ⟨fun i h1 h2 => absurd h2 (by omega), ?_⟩
      by_contra hc
      simp [not_le.mp hc] at h
    · rintro ⟨_, h⟩
      simp [not_lt.mpr h]
  | cons x rest ih =>
    intro k visited hdrop hk hvis
    have hkl : k < route.length := by
      have := congrArg List.length hdrop
      simp at this; omega
    have hx : route.getD k 0 = x := by
      have h1 : route[k]? = (route.drop k)[0]? := by simp
      rw [List.getD_eq_getElem?_getD, h1, hdrop]; simp
    have hdrop' : route.drop (k + 1) = rest := by
      have : route.drop (k + 1) = (route.drop k).drop 1 := by simp [List.drop_drop, Nat.add_comm]
      rw [this, hdrop]; rfl
    have htake : route.take (k + 1) = route.take k ++ [x] := by
      rw [List.take_succ, ← hx]
      simp [List.getD_eq_getElem?_getD, List.getElem?_eq_getElem hkl]
    have hxr : 0 ≤ x ∧ x < inst.size := by
      apply hr
      rw [← hx, List.getD_eq_getElem?_getD, List.getElem?_eq_getElem hkl]
      simp
    have hpos : position route (k + 1) = x := by
      simp [position, ← hx]
    have hload : load_after inst (route.take (k + 1))
        = load_after inst (route.take k) + (inst.node x).demand := by
      simp [htake, load_after]
    have hclock : clock inst route (k + 1)
        = max (clock inst route k + inst.travel (position route k) x) (inst.node x).early_time
          + (inst.node x).service_duration := by
      rw [clock, hx]
    have hsplit : (∀ i, k ≤ i → i < route.length → StepOk inst route i)
        ↔ (StepOk inst route k ∧ ∀ i, k + 1 ≤ i → i < route.length → StepOk inst route i) := by
      constructor
      · intro h
        exact ⟨h k le_rfl hkl, fun i h1 h2 => h i (by omega) h2⟩
      · rintro ⟨h0, h⟩ i h1 h2
        rcases Nat.eq_or_lt_of_le h1 with h3 | h3
        · subst h3; exact h0
        · exact h i h3 h2
    have hvis' : VisInv inst
        (if (inst.node x).is_pickup = true then vec_set visited x true else visited)
        (route.take (k + 1)) := by
      obtain ⟨hlen, hv⟩ := hvis
      by_cases hp : (inst.node x).is_pickup = true
      · simp only [hp, if_true]
        refine ⟨by rw [vec_set_length, hlen], fun q => ?_⟩
        rw [vec_get_set_true, hv q, htake, List.mem_append, List.mem_singleton, hlen]
        constructor
        · rintro (⟨rfl, _⟩ | ⟨h1, h2⟩)
          · exact ⟨Or.inr rfl, hp⟩
          · exact ⟨Or.inl h1, h2⟩
        · rintro ⟨h1 | rfl, h2⟩
          · exact Or.inr ⟨h1, h2⟩
          · exact Or.inl ⟨rfl, hxr.1, by exact_mod_cast hxr.2⟩
      · rw [if_neg hp]
        refine ⟨hlen, fun q => ?_⟩
        rw [hv q, htake, List.mem_append, List.mem_singleton]
        constructor
        · rintro ⟨h1, h2⟩; exact ⟨Or.inl h1, h2⟩
        · rintro ⟨h1 | rfl, h2⟩
          · exact ⟨h1, h2⟩
          · exact absurd h2 hp
    have ih' := ih (k + 1) _ hdrop' hkl hvis'
    rw [hpos, hload, hclock] at ih'
    rw [hsplit]
    simp only [feasible_loop]
    have hstep : StepOk inst route k ↔
        (clock inst route k + inst.travel (position route k) x ≤ (inst.node x).late_time
         ∧ ((inst.node x).is_delivery = true →
              vec_get visited (inst.node x).pickup_pair false = true)
         ∧ 0 ≤ load_after inst (route.take k) + (inst.node x).demand
         ∧ load_after inst (route.take k) + (inst.node x).demand ≤ inst.capacity) := by
      simp only [StepOk, arrival_time, hx, hload, hvis.2]
    rw [hstep]
    by_cases h1 : clock inst route k + inst.travel (position route k) x > (inst.node x).late_time
    · simp only [h1, if_true]
      constructor
      · intro h; cases h
      · rintro ⟨⟨⟨h, _⟩, _⟩, _⟩; omega
    · simp only [h1, if_false]
      by_cases h2 : ((inst.node x).is_delivery
          && !(vec_get visited (inst.node x).pickup_pair false)) = true
      · simp only [h2, if_true]
        simp only [Bool.and_eq_true, Bool.not_eq_true'] at h2
        constructor
        · intro h; cases h
        · rintro ⟨⟨⟨_, h, _⟩, _⟩, _⟩
          rw [h h2.1] at h2
          cases h2.2
      · simp only [h2, Bool.false_eq_true, if_false]
        by_cases h3 : (decide (load_after inst (route.take k) + (inst.node x).demand
            > inst.capacity)
            || decide (load_after inst (route.take k) + (inst.node x).demand < 0)) = true
        · simp only [h3, if_true]
          simp only [Bool.or_eq_true, decide_eq_true_eq] at h3
          constructor
          · intro h; cases h
          · rintro ⟨⟨⟨_, _, h, h'⟩, _⟩, _⟩; omega
        · simp only [h3, Bool.false_eq_true, if_false]
          simp only [Bool.or_eq_true, decide_eq_true_eq, not_or, not_lt] at h3
          rw [ih']
          simp only [Bool.and_eq_true, Bool.not_eq_true', not_and, Bool.not_eq_false] at h2
          constructor
          · rintro ⟨h, h'⟩
            exact ⟨⟨⟨by omega, h2, h3.2, by omega⟩, h⟩, h'⟩
          · rintro ⟨⟨_, h⟩, h'⟩
            exact ⟨h, h'⟩

theorem mem_take_iff_getD (l : Route) (i : Nat) (q : Int) :
    q ∈ l.take i ↔ ∃ j, j < i ∧ j < l.length ∧ l.getD j 0 = q := by
  rw [List.mem_take_iff_getElem]
  constructor
  · rintro ⟨j, hj, rfl⟩
    have h1 : j < i := lt_of_lt_of_le hj (min_le_left _ _)
    have h2 : j < l.length := lt_of_lt_of_le hj (min_le_right _ _)
    exact ⟨j, h1, h2, by rw [List.getD_eq_getElem _ _ h2]⟩
  · rintro ⟨j, h1, h2, rfl⟩
    exact ⟨j, lt_min h1 h2, by rw [List.getD_eq_getElem _ _ h2]⟩

theorem position_length (route : Route) (h : route ≠ []) :
    position route route.length = route.getLastD 0 := by
  cases route with
  | nil => exact absurd rfl h
  | cons a l =>
    simp only [position, List.length_cons]
    rw [List.getD_cons_succ, List.getLastD_eq_getLast?, List.getLast?_eq_getElem?,
      List.getD_eq_getElem?_getD]
    simp

theorem feasible_route_characterisation (inst : Instance) (route : Route)
    (hr : ∀ x ∈ route, 0 ≤ x ∧ x < inst.size) :
    is_feasible_route inst route = true
      ↔ (PrecedenceOk inst route ∧ LoadOk inst route ∧ WindowsOk inst route
          ∧ DepotReturnOk inst route) := by
  by_cases hne : route = []
  · subst hne
    simp [is_feasible_route, PrecedenceOk, LoadOk, WindowsOk, DepotReturnOk]
  · have hvis : VisInv inst (List.replicate inst.size false) (route.take 0) := by
      refine ⟨by simp, fun q => ?_⟩
      rw [vec_get_replicate_false]; simp
    have key := feasible_loop_iff inst route hr route 0 _ (by simp) (Nat.zero_le _) hvis
    have hfe : is_feasible_route inst route
        = feasible_loop inst route 0 0 0 (List.replicate inst.size false) := by
      unfold is_feasible_route
      cases route with
      | nil => exact absurd rfl hne
      | cons a l => simp
    have h0 : position route 0 = 0 := rfl
    have h1 : clock inst route 0 = 0 := rfl
    have h2 : load_after inst (route.take 0) = 0 := by simp [load_after]
    rw [h0, h1, h2] at key
    rw [hfe, key]
    simp only [ReturnOk, position_length route hne]
    constructor
    · rintro ⟨hs, hret⟩
      refine ⟨fun i hi hd => ?_, fun i hi => ?_, fun i hi => ?_, fun _ => hret⟩
      · obtain ⟨_, h, _, _⟩ := hs i (Nat.zero_le _) hi
        obtain ⟨hm, hp⟩ := h hd
        obtain ⟨j, hj, _, hq⟩ := (mem_take_iff_getD route i _).mp hm
        exact ⟨j, hj, hq, by rw [hq]; exact hp⟩
      · obtain ⟨_, _, h, h'⟩ := hs i (Nat.zero_le _) hi
        exact ⟨h, h'⟩
      · exact (hs i (Nat.zero_le _) hi).1
    · rintro ⟨ha, hb, hc, hd⟩
      refine ⟨fun i _ hi => ⟨hc i hi, fun hdel => ?_, (hb i hi).1, (hb i hi).2⟩, hd hne⟩
      obtain ⟨j, hj, hq, hp⟩ := ha i hi hdel
      refine ⟨(mem_take_iff_getD route i _).mpr ⟨j, hj, by omega, hq⟩, ?_⟩
      rw [← hq]; exact hp

/-- C1: on a route of in-range node identifiers that `is_feasible_route` accepts, the
running load after every prefix that ends at a visited node is within 0 and the capacity
(and after the empty prefix too, where it is 0, as soon as the capacity is not negative), and
every delivery at an index `i` has its `pickup_pair` at some index `j < i`. -/
theorem feasible_route_load_and_precedence (inst : Instance) (route : Route)
    (hr : ∀ x ∈ route, 0 ≤ x ∧ x < inst.size)
    (h : is_feasible_route inst route = true) :
    (∀ k, k ≤ route.length → (1 ≤ k ∨ 0 ≤ inst.capacity) →
        0 ≤ load_after inst (route.take k) ∧ load_after inst (route.take k) ≤ inst.capacity)
    ∧ (∀ i, i < route.length → (inst.node (route.getD i 0)).demand < 0 →
        ∃ j, j < i ∧ route.getD j 0 = (inst.node (route.getD i 0)).pickup_pair) := by
  obtain ⟨ha, hb, _, _⟩ := (feasible_route_characterisation inst route hr).mp h
  constructor
  · intro k hk hk'
    rcases Nat.eq_zero_or_pos k with h0 | h0
    · subst h0
      rcases hk' with h1 | h1
      · omega
      · simpa [load_after] using h1
    · have := hb (k - 1) (by omega)
      rwa [Nat.sub_add_cancel h0] at this
  · intro i hi hd
    obtain ⟨j, hj, hq, _⟩ := ha i hi (by simpa [Node.is_delivery] using hd)
    exact ⟨j, hj, hq⟩

/-- Witness of C1 on the route 1, 2 of the one-pair instance. -/
theorem feasible_route_load_and_precedence_witness :
    (∀ x ∈ ([1, 2] : Route), 0 ≤ x ∧ x < inst1.size)
    ∧ is_feasible_route inst1 [1, 2] = true
    ∧ ((∀ k, k ≤ ([1, 2] : Route).length → (1 ≤ k ∨ 0 ≤ inst1.capacity) →
          0 ≤ load_after inst1 (([1, 2] : Route).take k)
            ∧ load_after inst1 (([1, 2] : Route).take k) ≤ inst1.capacity)
      ∧ (∀ i, i < ([1, 2] : Route).length →
          (inst1.node (([1, 2] : Route).getD i 0)).demand < 0 →
          ∃ j, j < i ∧ ([1, 2] : Route).getD j 0
            = (inst1.node (([1, 2] : Route).getD i 0)).pickup_pair)) :=
  ⟨by decide, by decide,
    feasible_route_load_and_precedence inst1 [1, 2] (by decide) (by decide)⟩

theorem insert_pair_eq (route : Route) (pk dl : Int) (p d : Nat) (hpd : p ≤ d)
    (hd : d ≤ route.length) :
    insert_pair route pk dl p d
      = route.take p ++ [pk] ++ (route.drop p).take (d - p) ++ [dl] ++ route.drop d := by
  unfold insert_pair vec_insert
  have h1 : (route.take d).length = d := by simp [hd]
  have h2 : List.take p (route.take d ++ dl :: route.drop d) = route.take p := by
    rw [List.take_append_of_le_length (by omega), List.take_take, min_eq_left hpd]
  have h3 : List.drop p (route.take d ++ dl :: route.drop d)
      = (route.drop p).take (d - p) ++ dl :: route.drop d := by
    rw [List.drop_append_of_le_length (by omega), List.drop_take]
  rw [h2, h3]
  simp

/-- C4: `is_feasible_insertion` is false when `d_pos < p_pos`; for `p_pos ≤ d_pos ≤ size`
it is `is_feasible_route` of the candidate
`route[0..p_pos) ++ [pickup] ++ route[p_pos..d_pos) ++ [delivery] ++ route[d_pos..)`, in which the
pickup is at index `p_pos`, the delivery at index `d_pos + 1`, and removing both gives back the
route. -/
theorem is_feasible_insertion_spec (inst : Instance) (route : Route) (pickup delivery : Int)
    (p_pos d_pos : Nat) :
    (d_pos < p_pos → is_feasible_insertion inst route pickup delivery p_pos d_pos = false)
    ∧ (p_pos ≤ d_pos → d_pos ≤ route.length →
        is_feasible_insertion inst route pickup delivery p_pos d_pos
            = is_feasible_route inst
                (route.take p_pos ++ [pickup] ++ (route.drop p_pos).take (d_pos - p_pos)
                  ++ [delivery] ++ route.drop d_pos)
          ∧ (route.take p_pos ++ [pickup] ++ (route.drop p_pos).take (d_pos - p_pos)
                  ++ [delivery] ++ route.drop d_pos)[p_pos]? = some pickup
          ∧ (route.take p_pos ++ [pickup] ++ (route.drop p_pos).take (d_pos - p_pos)
                  ++ [delivery] ++ route.drop d_pos)[d_pos + 1]? = some delivery
          ∧ ((route.take p_pos ++ [pickup] ++ (route.drop p_pos).take (d_pos - p_pos)
                  ++ [delivery] ++ route.drop d_pos).eraseIdx (d_pos + 1)).eraseIdx p_pos
              = route) := by
  constructor
  · intro h
    simp [is_feasible_insertion, h]
  · intro hpd hd
    have hp : p_pos ≤ route.length := le_trans hpd hd
    have e1 : (route.take p_pos).length = p_pos := by simp [hp]
    have e2 : (route.take p_pos ++ [pickup] ++ (route.drop p_pos).take (d_pos - p_pos)).length
        = d_pos + 1 := by
      simp [hp]; omega
    refine ⟨?_, ?_, ?_, ?_⟩
    · rw [← insert_pair_eq route pickup delivery p_pos d_pos hpd hd]
      simp [is_feasible_insertion, Nat.not_lt.mpr hpd]
    · simp only [List.append_assoc]
      rw [List.getElem?_append_right (by omega)]
      simp [e1]
    · rw [List.append_assoc _ [delivery], List.getElem?_append_right (by omega), e2]
      simp
    · rw [List.append_assoc _ [delivery], List.eraseIdx_append_of_length_le (by omega)]
      rw [e2]
      simp only [Nat.sub_self, List.singleton_append, List.eraseIdx_cons_zero, List.append_assoc]
      rw [List.eraseIdx_append_of_length_le (by omega), e1]
      have : route.drop d_pos = (route.drop p_pos).drop (d_pos - p_pos) := by
        rw [List.drop_drop]; congr 1; omega
      rw [this]
      simp only [Nat.sub_self, List.cons_append, List.eraseIdx_cons_zero, List.nil_append]
      rw [List.take_append_drop, List.take_append_drop]

/-- Witness of C4 for the insertion of the pair 1, 2 into the empty route. -/
theorem is_feasible_insertion_spec_witness :
    is_feasible_insertion inst1 [] 1 2 0 0 = is_feasible_route inst1 [1, 2]
    ∧ is_feasible_insertion inst1 [3] 1 2 1 0 = false :=
  ⟨((is_feasible_insertion_spec inst1 [] 1 2 0 0).2 (Nat.le_refl 0) (Nat.le_refl 0)).1,
    (is_feasible_insertion_spec inst1 [3] 1 2 1 0).1 (by decide)⟩

/-- C9: `HybridSolution::operator<` is the lexicographic order on
`(used_routes, total_cost)`; fewer used routes is strictly better whatever the costs; the
relation is irreflexive, transitive, and its incomparability is transitive. -/
theorem solution_order_lexicographic :
    (∀ a b : HybridSolution, HybridSolution.lt a b = true ↔
        (a.used_routes < b.used_routes
          ∨ (a.used_routes = b.used_routes ∧ a.total_cost < b.total_cost)))
    ∧ (∀ a b : HybridSolution, a.used_routes < b.used_routes →
        HybridSolution.lt a b = true ∧ HybridSolution.lt b a = false)
    ∧ (∀ a : HybridSolution, HybridSolution.lt a a = false)
    ∧ (∀ a b c : HybridSolution, HybridSolution.lt a b = true → HybridSolution.lt b c = true →
        HybridSolution.lt a c = true)
    ∧ (∀ a b c : HybridSolution,
        HybridSolution.lt a b = false → HybridSolution.lt b a = false →
        HybridSolution.lt b c = false → HybridSolution.lt c b = false →
        HybridSolution.lt a c = false ∧ HybridSolution.lt c a = false) := by
  have key : ∀ a b : HybridSolution, HybridSolution.lt a b = true ↔
        (a.used_routes < b.used_routes
          ∨ (a.used_routes = b.used_routes ∧ a.total_cost < b.total_cost)) := by
    intro a b
    unfold HybridSolution.lt
    by_cases h : a.used_routes = b.used_routes
    · simp [h]
    · simp only [ne_eq, h, not_false_eq_true, if_true, decide_eq_true_eq]
      constructor
      · intro h'; exact Or.inl h'
      · rintro (h' | h')
        · exact h'
        · simp at h'
  have keyf : ∀ a b : HybridSolution, HybridSolution.lt a b = false ↔
        ¬ (a.used_routes < b.used_routes
          ∨ (a.used_routes = b.used_routes ∧ a.total_cost < b.total_cost)) := by
    intro a b
    rw [← key, Bool.not_eq_true]
  refine ⟨key, ?_, ?_, ?_, ?_⟩
  · intro a b h
    rw [key, keyf]
    refine ⟨Or.inl h, ?_⟩
    omega
  · intro a
    rw [keyf]; omega
  · intro a b c
    rw [key, key, key]; omega
  · intro a b c
    rw [keyf, keyf, keyf, keyf, keyf, keyf]; omega

theorem foldl_flatMap_eq {α β σ : Type} (l : List α) (f : α → List β) (g : σ → β → σ) (s : σ) :
    (l.flatMap f).foldl g s = l.foldl (fun s a => (f a).foldl g s) s := by
  induction l generalizing s with
  | nil => rfl
  | cons a l ih => simp [List.flatMap_cons, List.foldl_append, ih]

theorem scan_slots_eq {σ : Type} (routes : List Route) (n : Nat)
    (body : Nat → Nat → Nat → σ → σ) (s : σ) :
    scan_slots routes n body s
      = (slots routes n).foldl (fun s t => body t.1 t.2.1 t.2.2 s) s := by
  unfold scan_slots slots
  rw [foldl_flatMap_eq]
  congr 1
  funext s r
  rw [foldl_flatMap_eq]
  congr 1
  funext s p
  rw [List.foldl_map]

theorem mem_slots (routes : List Route) (n : Nat) (r p d : Nat) :
    (r, p, d) ∈ slots routes n ↔ r < n ∧ p ≤ d ∧ d ≤ (routes.getD r []).length := by
  unfold slots
  simp only [List.mem_flatMap, List.mem_range, List.mem_map, List.mem_range'_1, Prod.mk.injEq]
  constructor
  · rintro ⟨r', hr', p', hp', d', ⟨h1, h2⟩, rfl, rfl, rfl⟩
    exact ⟨hr', h1, by omega⟩
  · rintro ⟨h1, h2, h3⟩
    exact ⟨r, h1, p, by omega, d, ⟨h2, by omega⟩, rfl, rfl, rfl⟩

theorem foldl_pick_first_min_none {γ : Type} (feas : γ → Bool) (score : γ → Int) (L : List γ) :
    ∀ init : Option γ, L.foldl (pick_first_min feas score) init = none
      ↔ (init = none ∧ ∀ c ∈ L, feas c = false) := by
  induction L with
  | nil => intro init; simp
  | cons c L ih =>
    intro init
    rw [List.foldl_cons, ih]
    unfold pick_first_min
    by_cases hc : feas c = true
    · cases init with
      | none => simp [hc]
      | some b0 =>
        by_cases hs : score c < score b0 <;> simp [hc, hs]
    · simp only [Bool.not_eq_true] at hc
      simp [hc]

theorem foldl_pick_first_min_some {γ : Type} (feas : γ → Bool) (score : γ → Int) (L : List γ) :
    ∀ (init : Option γ) (b : γ), L.foldl (pick_first_min feas score) init = some b →
      (init = some b ∧ ∀ c ∈ L, feas c = true → score b ≤ score c)
      ∨ (∃ pre post, L = pre ++ b :: post ∧ feas b = true
          ∧ (∀ b0, init = some b0 → score b < score b0)
          ∧ (∀ c ∈ pre, feas c = true → score b < score c)
          ∧ (∀ c ∈ post, feas c = true → score b ≤ score c)) := by
  induction L with
  | nil =>
    intro init b h
    exact Or.inl ⟨h, fun c hc => absurd hc (List.not_mem_nil c)⟩
  | cons c L ih =>
    intro init b h
    rw [List.foldl_cons] at h
    by_cases hc : feas c = true
    · cases init with
      | none =>
        have hi : pick_first_min feas score none c = some c := by simp [pick_first_min, hc]
        rw [hi] at h
        rcases ih _ _ h with ⟨h1, h2⟩ | ⟨pre, post, h1, h2, h3, h4, h5⟩
        · cases h1
          exact Or.inr ⟨[], L, rfl, hc, (fun b0 hb => by cases hb),
            fun c' hc' => absurd hc' (List.not_mem_nil c'), h2⟩
        · refine Or.inr ⟨c :: pre, post, by rw [h1]; rfl, h2, (fun b0 hb => by cases hb), ?_, h5⟩
          intro c' hc' hf
          rcases List.mem_cons.mp hc' with rfl | hm
          · exact h3 _ rfl
          · exact h4 c' hm hf
      | some b0 =>
        by_cases hs : score c < score b0
        · have hi : pick_first_min feas score (some b0) c = some c := by
            simp [pick_first_min, hc, hs]
          rw [hi] at h
          rcases ih _ _ h with ⟨h1, h2⟩ | ⟨pre, post, h1, h2, h3, h4, h5⟩
          · cases h1
            refine Or.inr ⟨[], L, rfl, hc, ?_, fun c' hc' => absurd hc' (List.not_mem_nil c'), h2⟩
            intro b1 hb; cases hb; exact hs
          · have hbc := h3 _ rfl
            refine Or.inr ⟨c :: pre, post, by rw [h1]; rfl, h2, ?_, ?_, h5⟩
            · intro b1 hb; cases hb; omega
            · intro c' hc' hf
              rcases List.mem_cons.mp hc' with rfl | hm
              · exact hbc
              · exact h4 c' hm hf
        · have hi : pick_first_min feas score (some b0) c = some b0 := by
            simp [pick_first_min, hc, hs]
          rw [hi] at h
          rcases ih _ _ h with ⟨h1, h2⟩ | ⟨pre, post, h1, h2, h3, h4, h5⟩
          · cases h1
            refine Or.inl ⟨rfl, ?_⟩
            intro c' hc' hf
            rcases List.mem_cons.mp hc' with rfl | hm
            · omega
            · exact h2 c' hm hf
          · have hbc := h3 _ rfl
            refine Or.inr ⟨c :: pre, post, by rw [h1]; rfl, h2, ?_, ?_, h5⟩
            · intro b1 hb; cases hb; exact hbc
            · intro c' hc' hf
              rcases List.mem_cons.mp hc' with rfl | hm
              · omega
              · exact h4 c' hm hf
    · have hi : pick_first_min feas score init c = init := by simp [pick_first_min, hc]
      rw [hi] at h
      rcases ih _ _ h with ⟨h1, h2⟩ | ⟨pre, post, h1, h2, h3, h4, h5⟩
      · refine Or.inl ⟨h1, ?_⟩
        intro c' hc' hf
        rcases List.mem_cons.mp hc' with rfl | hm
        · exact absurd hf hc
        · exact h2 c' hm hf
      · refine Or.inr ⟨c :: pre, post, by rw [h1]; rfl, h2, h3, ?_, h5⟩
        intro c' hc' hf
        rcases List.mem_cons.mp hc' with rfl | hm
        · exact absurd hf hc
        · exact h4 c' hm hf

theorem greedy_scan_eq (inst : Instance) (n : Nat) (routes : List Route) (unv : List Int) :
    greedy_scan inst n routes unv
      = (greedy_candidates inst n routes unv).foldl
          (pick_first_min (GreedyInsertion.feasible inst routes)
            GreedyInsertion.efficiency_score) none := by
  unfold greedy_scan greedy_candidates
  rw [foldl_flatMap_eq]
  congr 1
  funext best pk
  rw [scan_slots_eq, List.foldl_map]
  congr 1
  funext best t
  unfold greedy_consider pick_first_min GreedyInsertion.feasible greedy_candidate
  dsimp only
  cases best <;> rfl

theorem slots_pairwise (routes : List Route) (n : Nat) :
    (slots routes n).Pairwise (fun a b =>
      a.1 < b.1 ∨ (a.1 = b.1 ∧ (a.2.1 < b.2.1 ∨ (a.2.1 = b.2.1 ∧ a.2.2 < b.2.2)))) := by
  unfold slots
  rw [List.pairwise_flatMap]
  constructor
  · intro r _
    rw [List.pairwise_flatMap]
    constructor
    · intro p _
      rw [List.pairwise_map]
      exact (List.pairwise_lt_range' p _).imp (fun h => Or.inr ⟨rfl, Or.inr ⟨rfl, h⟩⟩)
    · refine (List.pairwise_lt_range _).imp ?_
      intro p1 p2 h x hx y hy
      simp only [List.mem_map] at hx hy
      obtain ⟨_, _, rfl⟩ := hx
      obtain ⟨_, _, rfl⟩ := hy
      exact Or.inr ⟨rfl, Or.inl h⟩
  · refine (List.pairwise_lt_range _).imp ?_
    intro r1 r2 h x hx y hy
    simp only [List.mem_flatMap, List.mem_map] at hx hy
    obtain ⟨_, _, _, _, rfl⟩ := hx
    obtain ⟨_, _, _, _, rfl⟩ := hy
    exact Or.inl h

theorem greedy_candidates_pairwise (inst : Instance) (n : Nat) (routes : List Route)
    (unv : List Int) (hs : unv.Pairwise (fun a b => a < b)) :
    (greedy_candidates inst n routes unv).Pairwise
      (fun a b => scan_lt a.key b.key) := by
  unfold greedy_candidates
  rw [List.pairwise_flatMap]
  constructor
  · intro pk _
    rw [List.pairwise_map]
    refine (slots_pairwise routes n).imp ?_
    intro a b h
    exact Or.inr ⟨rfl, h⟩
  · refine hs.imp ?_
    intro p1 p2 h x hx y hy
    simp only [List.mem_map] at hx hy
    obtain ⟨_, _, rfl⟩ := hx
    obtain ⟨_, _, rfl⟩ := hy
    exact Or.inl h

theorem mem_greedy_candidates (inst : Instance) (n : Nat) (routes : List Route)
    (unv : List Int) (b : GreedyInsertion) :
    b ∈ greedy_candidates inst n routes unv
      ↔ (b.pickup_id ∈ unv ∧ b.route_idx < n ∧ b.pickup_pos ≤ b.delivery_pos
          ∧ b.delivery_pos ≤ (routes.getD b.route_idx []).length
          ∧ b = greedy_candidate inst routes b.pickup_id
                  (b.route_idx, b.pickup_pos, b.delivery_pos)) := by
  unfold greedy_candidates
  simp only [List.mem_flatMap, List.mem_map]
  constructor
  · rintro ⟨pk, hpk, ⟨r, p, d⟩, ht, rfl⟩
    obtain ⟨h1, h2, h3⟩ := (mem_slots routes n r p d).mp ht
    exact ⟨hpk, h1, h2, h3, rfl⟩
  · rintro ⟨h1, h2, h3, h4, h5⟩
    exact ⟨b.pickup_id, h1, (b.route_idx, b.pickup_pos, b.delivery_pos),
      (mem_slots routes n _ _ _).mpr ⟨h2, h3, h4⟩, h5.symm⟩

/-- What one scan of `pure_greedy_insertion` returns. -/
theorem greedy_scan_some (inst : Instance) (n : Nat) (routes : List Route) (unv : List Int)
    (hs : unv.Pairwise (fun a b => a < b)) (b : GreedyInsertion)
    (h : greedy_scan inst n routes unv = some b) :
    b ∈ greedy_candidates inst n routes unv
    ∧ b.feasible inst routes = true
    ∧ ∀ c ∈ greedy_candidates inst n routes unv, c.feasible inst routes = true →
        b.efficiency_score ≤ c.efficiency_score
        ∧ (c.efficiency_score = b.efficiency_score → c = b ∨ scan_lt b.key c.key) := by
  rw [greedy_scan_eq] at h
  rcases foldl_pick_first_min_some _ _ _ _ _ h with ⟨h1, _⟩ | ⟨pre, post, h1, h2, _, h4, h5⟩
  · cases h1
  · have hmem : b ∈ greedy_candidates inst n routes unv := by rw [h1]; simp
    refine ⟨hmem, h2, ?_⟩
    intro c hc hf
    have hpw := greedy_candidates_pairwise inst n routes unv hs
    rw [h1] at hc hpw
    rw [List.pairwise_append] at hpw
    obtain ⟨_, hpw2, _⟩ := hpw
    rw [List.pairwise_cons] at hpw2
    rcases List.mem_append.mp hc with hc | hc
    · have := h4 c hc hf
      exact ⟨by omega, fun he => by omega⟩
    · rcases List.mem_cons.mp hc with rfl | hc
      · exact ⟨le_rfl, fun _ => Or.inl rfl⟩
      · exact ⟨h5 c hc hf, fun _ => Or.inr (hpw2.1 c hc)⟩

theorem greedy_scan_none (inst : Instance) (n : Nat) (routes : List Route) (unv : List Int) :
    greedy_scan inst n routes unv = none
      ↔ ∀ c ∈ greedy_candidates inst n routes unv, c.feasible inst routes = false := by
  rw [greedy_scan_eq, foldl_pick_first_min_none]
  simp

theorem set_insert_mem (x y : Int) (s : List Int) :
    y ∈ set_insert x s ↔ y = x ∨ y ∈ s := by
  induction s with
  | nil => simp [set_insert]
  | cons a s ih =>
    unfold set_insert
    split
    · simp
    · split
      · rename_i h1 h2
        subst h2
        simp
      · simp [ih]
        tauto

theorem set_insert_sorted (x : Int) (s : List Int) (hs : s.Pairwise (fun a b => a < b)) :
    (set_insert x s).Pairwise (fun a b => a < b) := by
  induction s with
  | nil => simp [set_insert]
  | cons a s ih =>
    rw [List.pairwise_cons] at hs
    unfold set_insert
    split
    · rename_i h1
      rw [List.pairwise_cons]
      refine ⟨?_, List.pairwise_cons.mpr hs⟩
      intro y hy
      rcases List.mem_cons.mp hy with rfl | hy
      · exact h1
      · exact lt_trans h1 (hs.1 y hy)
    · split
      · exact List.pairwise_cons.mpr hs
      · rename_i h1 h2
        rw [List.pairwise_cons]
        refine ⟨?_, ih hs.2⟩
        intro y hy
        rcases (set_insert_mem x y s).mp hy with rfl | hy
        · omega
        · exact hs.1 y hy

theorem set_insert_length (x : Int) (s : List Int) :
    (set_insert x s).length ≤ s.length + 1 := by
  induction s with
  | nil => simp [set_insert]
  | cons a s ih =>
    unfold set_insert
    split
    · simp
    · split
      · simp
      · simp; omega

theorem foldl_set_insert_sorted (l : List Node) :
    ∀ s : List Int, s.Pairwise (fun a b => a < b) →
      (l.foldl (fun s node => set_insert node.id s) s).Pairwise (fun a b => a < b) := by
  induction l with
  | nil => intro s hs; exact hs
  | cons a l ih => intro s hs; exact ih _ (set_insert_sorted _ _ hs)

theorem foldl_set_insert_length (l : List Node) :
    ∀ s : List Int, (l.foldl (fun s node => set_insert node.id s) s).length
      ≤ s.length + l.length := by
  induction l with
  | nil => intro s; simp
  | cons a l ih =>
    intro s
    have h1 := ih (set_insert a.id s)
    have h2 := set_insert_length a.id s
    simp only [List.foldl_cons, List.length_cons]
    omega

theorem foldl_set_insert_mem (l : List Node) :
    ∀ (s : List Int) (y : Int), y ∈ l.foldl (fun s node => set_insert node.id s) s
      ↔ (y ∈ s ∨ ∃ nd ∈ l, nd.id = y) := by
  induction l with
  | nil => intro s y; simp
  | cons a l ih =>
    intro s y
    rw [List.foldl_cons, ih, set_insert_mem]
    simp only [List.mem_cons, exists_eq_or_imp]
    constructor
    · rintro ((rfl | h) | h)
      · exact Or.inr (Or.inl rfl)
      · exact Or.inl h
      · exact Or.inr (Or.inr h)
    · rintro (h | h | h)
      · exact Or.inl (Or.inr h)
      · exact Or.inl (Or.inl h.symm)
      · exact Or.inr h

theorem initial_unvisited_sorted (inst : Instance) :
    (initial_unvisited inst).Pairwise (fun a b => a < b) :=
  foldl_set_insert_sorted _ _ List.Pairwise.nil

theorem initial_unvisited_length (inst : Instance) :
    (initial_unvisited inst).length ≤ (pickup_nodes inst).length := by
  have := foldl_set_insert_length (pickup_nodes inst) []
  simpa [initial_unvisited] using this

theorem mem_initial_unvisited (inst : Instance) (y : Int) :
    y ∈ initial_unvisited inst ↔ ∃ nd ∈ pickup_nodes inst, nd.id = y := by
  unfold initial_unvisited
  rw [foldl_set_insert_mem]
  simp

theorem greedy_reach_sorted {inst : Instance} {n : Nat} {routes : List Route} {unv : List Int}
    (h : GreedyReach inst n routes unv) : unv.Pairwise (fun a b => a < b) := by
  induction h with
  | start => exact initial_unvisited_sorted inst
  | step _ _ ih => exact List.Pairwise.erase _ ih

theorem greedy_reach_length {inst : Instance} {n : Nat} {routes : List Route} {unv : List Int}
    (h : GreedyReach inst n routes unv) : routes.length = n := by
  induction h with
  | start => simp
  | step _ _ ih => simpa [commit_insertion] using ih

theorem getD_set_routes (routes : List Route) (r r' : Nat) (x : Route) :
    (routes.set r x).getD r' [] = if r = r' ∧ r < routes.length then x else routes.getD r' [] := by
  simp only [List.getD_eq_getElem?_getD, List.getElem?_set]
  by_cases h : r = r'
  · subst h
    by_cases h2 : r < routes.length
    · simp [h2]
    · have : routes[r]? = none := by simp; omega
      simp [h2, this]
  · simp [h]

theorem mem_set_routes (routes : List Route) (r : Nat) (x route : Route)
    (h : route ∈ routes.set r x) : route = x ∨ route ∈ routes := by
  rcases List.mem_or_eq_of_mem_set h with h | h
  · exact Or.inr h
  · exact Or.inl h

theorem greedy_reach_feasible {inst : Instance} {n : Nat} {routes : List Route}
    {unv : List Int} (h : GreedyReach inst n routes unv) :
    ∀ route ∈ routes, is_feasible_route inst route = true := by
  induction h with
  | start =>
    intro route hr
    rw [List.eq_of_mem_replicate hr]
    rfl
  | @step routes unv b hreach hscan ih =>
    intro route hr
    rcases mem_set_routes _ _ _ _ hr with rfl | hr
    · have hb := (greedy_scan_some inst n routes unv (greedy_reach_sorted hreach) b hscan).2.1
      have hm := (greedy_scan_some inst n routes unv (greedy_reach_sorted hreach) b hscan).1
      have hpd := ((mem_greedy_candidates inst n routes unv b).mp hm).2.2.1
      unfold GreedyInsertion.feasible is_feasible_insertion at hb
      rw [if_neg (Nat.not_lt.mpr hpd)] at hb
      exact hb
    · exact ih route hr

theorem greedy_loop_reach (inst : Instance) (n : Nat) :
    ∀ (fuel : Nat) (routes : List Route) (unv : List Int) (res : List Route × List Int),
      GreedyReach inst n routes unv → greedy_loop inst n fuel routes unv = some res →
      GreedyReach inst n res.1 res.2
        ∧ (res.2 = [] ∨ greedy_scan inst n res.1 res.2 = none) := by
  intro fuel
  induction fuel with
  | zero =>
    intro routes unv res hreach h
    cases unv with
    | nil =>
      simp only [greedy_loop, Option.some.injEq] at h
      subst h
      exact ⟨hreach, Or.inl rfl⟩
    | cons p ps => simp [greedy_loop] at h
  | succ fuel ih =>
    intro routes unv res hreach h
    cases unv with
    | nil =>
      simp only [greedy_loop, Option.some.injEq] at h
      subst h
      exact ⟨hreach, Or.inl rfl⟩
    | cons p ps =>
      simp only [greedy_loop] at h
      cases hs : greedy_scan inst n routes (p :: ps) with
      | none =>
        rw [hs] at h
        simp only [Option.some.injEq] at h
        subst h
        exact ⟨hreach, Or.inr hs⟩
      | some b =>
        rw [hs] at h
        exact ih _ _ res (GreedyReach.step hreach hs) h

theorem greedy_loop_terminates (inst : Instance) (n : Nat) :
    ∀ (fuel : Nat) (routes : List Route) (unv : List Int),
      unv.Pairwise (fun a b => a < b) → unv.length ≤ fuel →
      ∃ res, greedy_loop inst n fuel routes unv = some res := by
  intro fuel
  induction fuel with
  | zero =>
    intro routes unv _ hl
    cases unv with
    | nil => exact ⟨(routes, []), by simp [greedy_loop]⟩
    | cons p ps => simp at hl
  | succ fuel ih =>
    intro routes unv hs hl
    cases unv with
    | nil => exact ⟨(routes, []), by simp [greedy_loop]⟩
    | cons p ps =>
      simp only [greedy_loop]
      cases hsc : greedy_scan inst n routes (p :: ps) with
      | none => exact ⟨_, rfl⟩
      | some b =>
        have hm := (greedy_scan_some inst n routes _ hs b hsc).1
        have hpk := ((mem_greedy_candidates inst n routes _ b).mp hm).1
        apply ih
        · exact List.Pairwise.erase _ hs
        · unfold set_erase
          rw [List.length_erase_of_mem hpk]
          simp only [List.length_cons] at hl ⊢
          omega

theorem greedy_loop_mono (inst : Instance) (n : Nat) :
    ∀ (fuel fuel' : Nat) (routes : List Route) (unv : List Int) (res : List Route × List Int),
      fuel ≤ fuel' → greedy_loop inst n fuel routes unv = some res →
      greedy_loop inst n fuel' routes unv = some res := by
  intro fuel
  induction fuel with
  | zero =>
    intro fuel' routes unv res _ h
    cases unv with
    | nil =>
      cases fuel' <;> simpa [greedy_loop] using h
    | cons p ps => simp [greedy_loop] at h
  | succ fuel ih =>
    intro fuel' routes unv res hle h
    cases unv with
    | nil => cases fuel' <;> simpa [greedy_loop] using h
    | cons p ps =>
      cases fuel' with
      | zero => omega
      | succ fuel' =>
        simp only [greedy_loop] at h ⊢
        cases hsc : greedy_scan inst n routes (p :: ps) with
        | none => rw [hsc] at h; exact h
        | some b =>
          rw [hsc] at h
          exact ih fuel' _ _ res (by omega) h

theorem pure_greedy_insertion_run (inst : Instance) (n : Nat) :
    ∃ unv, greedy_loop inst n (initial_unvisited inst).length (List.replicate n [])
        (initial_unvisited inst) = some (pure_greedy_insertion inst n, unv) := by
  obtain ⟨res, h⟩ := greedy_loop_terminates inst n _ (List.replicate n [])
    (initial_unvisited inst) (initial_unvisited_sorted inst) le_rfl
  refine ⟨res.2, ?_⟩
  unfold pure_greedy_insertion
  rw [h]

theorem vec_insert_perm (v : Route) (pos : Nat) (x : Int) :
    (vec_insert v pos x).Perm (x :: v) := by
  unfold vec_insert
  have h : (v.take pos ++ x :: v.drop pos).Perm (x :: (v.take pos ++ v.drop pos)) :=
    List.perm_middle
  rw [List.take_append_drop] at h
  exact h

theorem vec_insert_sublist (v : Route) (pos : Nat) (x : Int) :
    List.Sublist v (vec_insert v pos x) := by
  unfold vec_insert
  conv => lhs; rw [← List.take_append_drop pos v]
  exact List.Sublist.append (List.Sublist.refl _) (List.sublist_cons_self _ _)

theorem insert_pair_perm (route : Route) (pk dl : Int) (p d : Nat) :
    (insert_pair route pk dl p d).Perm (pk :: dl :: route) := by
  unfold insert_pair
  exact (vec_insert_perm _ _ _).trans ((vec_insert_perm _ _ _).cons _)

theorem insert_pair_sublist (route : Route) (pk dl : Int) (p d : Nat) :
    List.Sublist route (insert_pair route pk dl p d) := by
  unfold insert_pair
  exact (vec_insert_sublist _ _ _).trans (vec_insert_sublist _ _ _)

theorem insert_pair_length (route : Route) (pk dl : Int) (p d : Nat) :
    (insert_pair route pk dl p d).length = route.length + 2 := by
  have := (insert_pair_perm route pk dl p d).length_eq
  simp at this
  exact this

theorem insert_pair_pair_sublist (route : Route) (pk dl : Int) (p d : Nat) (hpd : p ≤ d)
    (hd : d ≤ route.length) :
    List.Sublist [pk, dl] (insert_pair route pk dl p d) := by
  rw [insert_pair_eq route pk dl p d hpd hd]
  have h1 : List.Sublist [pk] (route.take p ++ [pk] ++ (route.drop p).take (d - p)) :=
    (List.sublist_append_right _ _).trans (List.sublist_append_left _ _)
  have h2 : List.Sublist [dl] ([dl] ++ route.drop d) := List.sublist_append_left _ _
  have := List.Sublist.append h1 h2
  simp only [List.append_assoc, List.singleton_append, List.cons_append, List.nil_append] at this ⊢
  exact this

theorem built_perm {inst : Instance} {route : Route} {pks : List Int}
    (h : Built inst route pks) :
    route.Perm (pks ++ pks.map (fun pk => (inst.node pk).delivery_pair)) := by
  induction h with
  | empty => simp
  | ins pk p d _ _ _ ih =>
    refine (insert_pair_perm _ _ _ _ _).trans ?_
    simp only [List.cons_append, List.map_cons]
    refine List.Perm.cons _ ?_
    exact (ih.cons _).trans List.perm_middle.symm

theorem built_pair_sublist {inst : Instance} {route : Route} {pks : List Int}
    (h : Built inst route pks) :
    ∀ pk ∈ pks, List.Sublist [pk, (inst.node pk).delivery_pair] route := by
  induction h with
  | empty => intro pk hpk; cases hpk
  | ins pk p d _ hpd hd ih =>
    intro pk' hpk'
    rcases List.mem_cons.mp hpk' with rfl | hm
    · exact insert_pair_pair_sublist _ _ _ _ _ hpd hd
    · exact (ih pk' hm).trans (insert_pair_sublist _ _ _ _ _)

theorem flatMap_update_perm (l : List Nat) (f : Nat → List Int) (r0 : Nat) (x : Int)
    (hn : l.Nodup) (hm : r0 ∈ l) :
    (l.flatMap (fun r => if r = r0 then x :: f r else f r)).Perm (x :: l.flatMap f) := by
  induction l with
  | nil => cases hm
  | cons a l ih =>
    rw [List.nodup_cons] at hn
    simp only [List.flatMap_cons]
    by_cases ha : a = r0
    · subst ha
      have hcongr : l.flatMap (fun r => if r = a then x :: f r else f r) = l.flatMap f := by
        simp only [List.flatMap_def]
        congr 1
        apply List.map_congr_left
        intro r hr
        have : r ≠ a := fun h => hn.1 (h ▸ hr)
        simp [this]
      rw [hcongr]
      simp
    · rcases List.mem_cons.mp hm with h | h
      · exact absurd h.symm ha
      · simp only [ha, if_false]
        exact ((ih hn.2 h).append_left (f a)).trans List.perm_middle

theorem greedy_reach_placed {inst : Instance} {n : Nat} {routes : List Route}
    {unv : List Int} (h : GreedyReach inst n routes unv) : PlacedInv inst n routes unv := by
  induction h with
  | start =>
    refine ⟨fun _ => [], fun r => ?_, ?_⟩
    · have : (List.replicate n ([] : Route)).getD r [] = [] := by
        simp only [List.getD_eq_getElem?_getD, List.getElem?_replicate]
        split <;> rfl
      rw [this]
      exact Built.empty
    · have : (List.range n).flatMap (fun _ => ([] : List Int)) = [] := by
        induction n with
        | zero => rfl
        | succ n ih => simp [List.range_succ, ih]
      rw [this]
      simp
  | @step routes unv b hreach hscan ih =>
    obtain ⟨placed, hb, hp⟩ := ih
    have hsome := greedy_scan_some inst n routes unv (greedy_reach_sorted hreach) b hscan
    obtain ⟨hpk, hr, hpd, hd, hbeq⟩ := (mem_greedy_candidates inst n routes unv b).mp hsome.1
    have hdl : b.delivery_id = (inst.node b.pickup_id).delivery_pair := by
      rw [hbeq]; rfl
    have hlen := greedy_reach_length hreach
    refine ⟨fun r => if r = b.route_idx then b.pickup_id :: placed r else placed r,
      fun r => ?_, ?_⟩
    · unfold commit_insertion
      rw [getD_set_routes]
      by_cases hrr : r = b.route_idx
      · subst hrr
        simp only [true_and, hlen, hr, if_true]
        rw [hdl]
        exact Built.ins _ _ _ (hb _) hpd hd
      · have : ¬ (b.route_idx = r ∧ b.route_idx < routes.length) := fun h => hrr h.1.symm
        simp only [this, hrr, if_false]
        exact hb r
    · have h1 := flatMap_update_perm (List.range n) placed b.route_idx b.pickup_id
        (List.nodup_range n) (List.mem_range.mpr hr)
      have h2 : unv.Perm (b.pickup_id :: set_erase unv b.pickup_id) :=
        List.perm_cons_erase hpk
      refine (List.Perm.append_right _ h1).trans ?_
      refine List.Perm.trans ?_ hp
      simp only [List.cons_append]
      exact List.perm_middle.symm.trans (List.Perm.append_left _ h2.symm)

theorem mem_two_opt_pairs (n i j : Nat) :
    (i, j) ∈ two_opt_pairs n ↔ (i + 3 < n ∧ i + 2 ≤ j ∧ j + 1 < n) := by
  unfold two_opt_pairs
  simp only [List.mem_flatMap, List.mem_range, List.mem_map, List.mem_range'_1, Prod.mk.injEq]
  constructor
  · rintro ⟨i', hi', j', ⟨h1, h2⟩, rfl, rfl⟩
    omega
  · rintro ⟨h1, h2, h3⟩
    exact ⟨i, by omega, j, ⟨h2, by omega⟩, rfl, rfl⟩

theorem reverse_segment_perm (route : Route) (i j : Nat) (hij : i ≤ j) :
    (reverse_segment route i j).Perm route := by
  unfold reverse_segment
  have h1 : route.drop (j + 1) = (route.drop (i + 1)).drop (j - i) := by
    rw [List.drop_drop]; congr 1; omega
  have h2 : (route.take (i + 1) ++ ((route.drop (i + 1)).take (j - i)).reverse
      ++ route.drop (j + 1)).Perm
      (route.take (i + 1) ++ (route.drop (i + 1)).take (j - i) ++ route.drop (j + 1)) :=
    List.Perm.append_right _ (List.Perm.append_left _ (List.reverse_perm _))
  refine h2.trans ?_
  rw [h1, List.append_assoc, List.take_append_drop, List.take_append_drop]

theorem two_opt_scan_some (inst : Instance) (route new_route : Route)
    (h : two_opt_scan inst route = some new_route) :
    ∃ i j, (i, j) ∈ two_opt_pairs route.length ∧ new_route = reverse_segment route i j
      ∧ is_feasible_route inst new_route = true
      ∧ calculate_route_cost inst new_route < calculate_route_cost inst route := by
  unfold two_opt_scan at h
  obtain ⟨⟨i, j⟩, hm, hf⟩ := List.exists_of_findSome?_eq_some h
  dsimp only at hf
  split at hf
  · rename_i hc
    simp only [Bool.and_eq_true, decide_eq_true_eq] at hc
    simp only [Option.some.injEq] at hf
    subst hf
    exact ⟨i, j, hm, rfl, hc.1, hc.2⟩
  · cases hf

theorem two_opt_scan_perm (inst : Instance) (route new_route : Route)
    (h : two_opt_scan inst route = some new_route) : new_route.Perm route := by
  obtain ⟨i, j, hm, rfl, _, _⟩ := two_opt_scan_some inst route new_route h
  have := (mem_two_opt_pairs _ _ _).mp hm
  exact reverse_segment_perm route i j (by omega)

theorem le_foldr_max (l : List Nat) (x : Nat) (h : x ∈ l) : x ≤ l.foldr max 0 := by
  induction l with
  | nil => cases h
  | cons a l ih =>
    simp only [List.foldr_cons]
    rcases List.mem_cons.mp h with rfl | h
    · exact le_max_left _ _
    · exact le_trans (ih h) (le_max_right _ _)

theorem travel_le_bound (inst : Instance) (route : Route) (a b : Int)
    (ha : a ∈ (0 :: route)) (hb : b ∈ (0 :: route)) :
    (inst.travel a b).natAbs ≤ travel_bound inst route := by
  unfold travel_bound
  refine le_trans ?_ (le_foldr_max _ _ (List.mem_map.mpr ⟨a, ha, rfl⟩))
  exact le_foldr_max _ _ (List.mem_map.mpr ⟨b, hb, rfl⟩)

theorem consecutive_sum_cons_cons (inst : Instance) (a b : Int) (rest : Route) :
    consecutive_sum inst (a :: b :: rest)
      = inst.travel a b + consecutive_sum inst (b :: rest) := by
  simp [consecutive_sum]

theorem consecutive_sum_bound (inst : Instance) (M : Int)
    (S : List Int) (hM : ∀ a ∈ S, ∀ b ∈ S, -M ≤ inst.travel a b ∧ inst.travel a b ≤ M) :
    ∀ l : Route, (∀ x ∈ l, x ∈ S) →
      -((l.length : Int) * M) ≤ consecutive_sum inst l - M
        ∧ consecutive_sum inst l + M ≤ (l.length : Int) * M ∨ l = [] := by
  intro l
  induction l with
  | nil => intro _; exact Or.inr rfl
  | cons a l ih =>
    intro hl
    left
    cases l with
    | nil =>
      simp [consecutive_sum]
    | cons b rest =>
      rw [consecutive_sum_cons_cons]
      have h1 := hM a (hl a (by simp)) b (hl b (by simp))
      rcases ih (fun x hx => hl x (List.mem_cons_of_mem _ hx)) with h2 | h2
      · simp only [List.length_cons, Nat.cast_add, Nat.cast_one] at h2 ⊢
        constructor <;> nlinarith [h1.1, h1.2, h2.1, h2.2]
      · cases h2

theorem cost_bound (inst : Instance) (M : Int)
    (S : List Int) (hM : ∀ a ∈ S, ∀ b ∈ S, -M ≤ inst.travel a b ∧ inst.travel a b ≤ M)
    (h0 : (0 : Int) ∈ S) (hM0 : 0 ≤ M) (l : Route) (hl : ∀ x ∈ l, x ∈ S) :
    -(((l.length : Int) + 1) * M) ≤ calculate_route_cost inst l
      ∧ calculate_route_cost inst l ≤ ((l.length : Int) + 1) * M := by
  cases l with
  | nil =>
    simp only [calculate_route_cost, List.length_nil]
    constructor <;> nlinarith
  | cons a rest =>
    rw [cost_cons]
    have h1 := hM 0 h0 a (hl a (by simp))
    have hlast : (a :: rest).getLastD 0 ∈ S := by
      apply hl
      rw [List.getLastD_eq_getLast?, List.getLast?_eq_getLast _ (List.cons_ne_nil a rest)]
      exact List.getLast_mem _
    have h2 := hM _ hlast 0 h0
    rcases consecutive_sum_bound inst M S hM (a :: rest) hl with h3 | h3
    · constructor <;> nlinarith [h1.1, h1.2, h2.1, h2.2, h3.1, h3.2]
    · cases h3

theorem cost_bound_perm (inst : Instance) (route0 route : Route) (hp : route.Perm route0) :
    -((((route0.length + 1) * travel_bound inst route0 : Nat) : Int))
        ≤ calculate_route_cost inst route := by
  have hM : ∀ a ∈ (0 :: route0), ∀ b ∈ (0 :: route0),
      -(travel_bound inst route0 : Int) ≤ inst.travel a b
        ∧ inst.travel a b ≤ (travel_bound inst route0 : Int) := by
    intro a ha b hb
    have := travel_le_bound inst route0 a b ha hb
    omega
  have := (cost_bound inst _ (0 :: route0) hM (by simp) (by omega) route
    (fun x hx => List.mem_cons_of_mem _ (hp.mem_iff.mp hx))).1
  rw [hp.length_eq] at this
  push_cast
  linarith

theorem two_opt_loop_terminates (inst : Instance) (route0 : Route) :
    ∀ (fuel : Nat) (route : Route), route.Perm route0 →
      (calculate_route_cost inst route
        + (((route0.length + 1) * travel_bound inst route0 : Nat) : Int)).toNat < fuel →
      ∃ r, two_opt_loop inst fuel route = some r := by
  intro fuel
  induction fuel with
  | zero => intro route _ h; omega
  | succ fuel ih =>
    intro route hp hlt
    simp only [two_opt_loop]
    cases hs : two_opt_scan inst route with
    | none => exact ⟨route, rfl⟩
    | some new_route =>
      obtain ⟨_, _, _, _, _, hc⟩ := two_opt_scan_some inst route new_route hs
      have hp' := (two_opt_scan_perm inst route new_route hs).trans hp
      apply ih new_route hp'
      have h1 := cost_bound_perm inst route0 new_route hp'
      have h2 := cost_bound_perm inst route0 route hp
      omega

theorem two_opt_loop_spec (inst : Instance) :
    ∀ (fuel : Nat) (route r : Route), two_opt_loop inst fuel route = some r →
      two_opt_scan inst r = none ∧ r.Perm route
        ∧ (is_feasible_route inst route = true → is_feasible_route inst r = true)
        ∧ calculate_route_cost inst r ≤ calculate_route_cost inst route := by
  intro fuel
  induction fuel with
  | zero => intro route r h; simp [two_opt_loop] at h
  | succ fuel ih =>
    intro route r h
    simp only [two_opt_loop] at h
    cases hs : two_opt_scan inst route with
    | none =>
      rw [hs] at h
      simp only [Option.some.injEq] at h
      subst h
      exact ⟨hs, List.Perm.refl _, id, le_rfl⟩
    | some new_route =>
      rw [hs] at h
      obtain ⟨h1, h2, h3, h4⟩ := ih new_route r h
      obtain ⟨_, _, _, _, hf, hc⟩ := two_opt_scan_some inst route new_route hs
      exact ⟨h1, h2.trans (two_opt_scan_perm inst route new_route hs), fun _ => h3 hf,
        by omega⟩

theorem two_opt_route_run (inst : Instance) (route : Route) (h4 : 4 ≤ route.length) :
    two_opt_loop inst (two_opt_fuel inst route) route = some (two_opt_route inst route) := by
  obtain ⟨r, hr⟩ := two_opt_loop_terminates inst route (two_opt_fuel inst route) route
    (List.Perm.refl _) (by unfold two_opt_fuel; omega)
  unfold two_opt_route
  rw [if_neg (by omega), hr]
  rfl

theorem two_opt_route_fixed (inst : Instance) (route : Route)
    (h : two_opt_scan inst route = none) : two_opt_route inst route = route := by
  unfold two_opt_route
  split
  · rfl
  · have : two_opt_loop inst (two_opt_fuel inst route) route = some route := by
      unfold two_opt_fuel
      simp only [two_opt_loop, h]
    rw [this]; rfl

theorem two_opt_route_spec (inst : Instance) (route : Route) :
    (two_opt_route inst route).Perm route
      ∧ (route.length < 4 → two_opt_route inst route = route)
      ∧ (4 ≤ route.length → two_opt_scan inst (two_opt_route inst route) = none)
      ∧ (is_feasible_route inst route = true →
          is_feasible_route inst (two_opt_route inst route) = true)
      ∧ calculate_route_cost inst (two_opt_route inst route)
          ≤ calculate_route_cost inst route := by
  by_cases h : route.length < 4
  · have : two_opt_route inst route = route := by unfold two_opt_route; rw [if_pos h]
    rw [this]
    exact ⟨List.Perm.refl _, fun _ => rfl, fun h' => by omega, id, le_rfl⟩
  · have hrun := two_opt_route_run inst route (by omega)
    obtain ⟨h1, h2, h3, h5⟩ := two_opt_loop_spec inst _ _ _ hrun
    exact ⟨h2, fun h' => absurd h' h, fun _ => h1, h3, h5⟩

theorem two_opt_route_idempotent (inst : Instance) (route : Route) :
    two_opt_route inst (two_opt_route inst route) = two_opt_route inst route := by
  by_cases h : route.length < 4
  · have : two_opt_route inst route = route := by unfold two_opt_route; rw [if_pos h]
    rw [this, this]
  · exact two_opt_route_fixed inst _ ((two_opt_route_spec inst route).2.2.1 (by omega))

theorem foldl_invariant {α σ : Type} (f : σ → α → σ) (P : σ → Prop) (l : List α)
    (h : ∀ s a, a ∈ l → P s → P (f s a)) : ∀ s, P s → P (l.foldl f s) := by
  induction l with
  | nil => intro s hs; exact hs
  | cons a l ih =>
    intro s hs
    exact ih (fun s a ha => h s a (List.mem_cons_of_mem _ ha)) _ (h s a (by simp) hs)

theorem calculate_cost_fold (inst : Instance) (l : List Route) :
    ∀ acc : HybridSolution,
      l.foldl (fun acc route =>
          if route.isEmpty then acc
          else { acc with total_cost := acc.total_cost + calculate_route_cost inst route,
                          used_routes := acc.used_routes + 1 }) acc
        = { routes := acc.routes,
            total_cost := acc.total_cost
              + ((l.filter (fun r => !r.isEmpty)).map (calculate_route_cost inst)).sum,
            used_routes := acc.used_routes + ((l.filter (fun r => !r.isEmpty)).length : Int) } := by
  induction l with
  | nil => intro acc; simp
  | cons a l ih =>
    intro acc
    rw [List.foldl_cons, ih]
    by_cases ha : a.isEmpty = true
    · simp [ha]
    · simp only [Bool.not_eq_true] at ha
      simp [ha, add_assoc]
      omega

theorem calculate_cost_eq (inst : Instance) (s : HybridSolution) :
    HybridSolution.calculate_cost inst s
      = { routes := s.routes,
          total_cost := ((s.routes.filter (fun r => !r.isEmpty)).map
              (calculate_route_cost inst)).sum,
          used_routes := ((s.routes.filter (fun r => !r.isEmpty)).length : Int) } := by
  unfold HybridSolution.calculate_cost
  rw [calculate_cost_fold]
  simp

theorem calculate_cost_routes (inst : Instance) (s : HybridSolution) :
    (HybridSolution.calculate_cost inst s).routes = s.routes := by
  rw [calculate_cost_eq]

theorem local_search_2opt_routes (inst : Instance) (s : HybridSolution) :
    (local_search_2opt inst s).routes = s.routes.map (two_opt_route inst) := by
  unfold local_search_2opt
  rw [calculate_cost_routes]

theorem local_search_twice (inst : Instance) (s : HybridSolution) :
    local_search_2opt inst (local_search_2opt inst s) = local_search_2opt inst s := by
  have h1 : local_search_2opt inst (local_search_2opt inst s)
      = HybridSolution.calculate_cost inst
          { local_search_2opt inst s with
            routes := (local_search_2opt inst s).routes.map (two_opt_route inst) } := rfl
  rw [h1, calculate_cost_eq]
  have h2 : local_search_2opt inst s
      = HybridSolution.calculate_cost inst
          { s with routes := s.routes.map (two_opt_route inst) } := rfl
  conv => rhs; rw [h2, calculate_cost_eq]
  have h3 : (local_search_2opt inst s).routes.map (two_opt_route inst)
      = s.routes.map (two_opt_route inst) := by
    rw [local_search_2opt_routes, List.map_map]
    apply List.map_congr_left
    intro r _
    exact two_opt_route_idempotent inst r
  simp only [h3]

theorem two_opt_scan_none_iff (inst : Instance) (route : Route) :
    two_opt_scan inst route = none
      ↔ ∀ i j, i + 3 < route.length → i + 2 ≤ j → j + 1 < route.length →
          ¬ (is_feasible_route inst (reverse_segment route i j) = true
              ∧ calculate_route_cost inst (reverse_segment route i j)
                  < calculate_route_cost inst route) := by
  unfold two_opt_scan
  rw [List.findSome?_eq_none_iff]
  constructor
  · intro h i j h1 h2 h3 hc
    have := h (i, j) ((mem_two_opt_pairs _ _ _).mpr ⟨h1, h2, h3⟩)
    simp [hc.1, hc.2] at this
  · rintro h ⟨i, j⟩ hm
    obtain ⟨h1, h2, h3⟩ := (mem_two_opt_pairs _ _ _).mp hm
    have := h i j h1 h2 h3
    dsimp only
    split
    · rename_i hc
      simp only [Bool.and_eq_true, decide_eq_true_eq] at hc
      exact absurd hc this
    · rfl

theorem find_best_insertion_some (inst : Instance) (routes : List Route) (pk dl : Int)
    (r p d : Nat) (h : find_best_insertion inst routes pk dl = some (r, p, d)) :
    r < routes.length ∧ p ≤ d ∧ d ≤ (routes.getD r []).length
      ∧ is_feasible_insertion inst (routes.getD r []) pk dl p d = true := by
  unfold find_best_insertion at h
  rw [scan_slots_eq] at h
  have key := foldl_invariant
    (fun (s : Option (Nat × Nat × Nat) × Int) (t : Nat × Nat × Nat) =>
      if is_feasible_insertion inst (routes.getD t.1 []) pk dl t.2.1 t.2.2 then
        if cost_increase inst (routes.getD t.1 []) pk dl t.2.1 t.2.2 < s.2 then
          (some (t.1, t.2.1, t.2.2), cost_increase inst (routes.getD t.1 []) pk dl t.2.1 t.2.2)
        else s
      else s)
    (fun s => ∀ t, s.1 = some t → t ∈ slots routes routes.length
      ∧ is_feasible_insertion inst (routes.getD t.1 []) pk dl t.2.1 t.2.2 = true)
    (slots routes routes.length)
    (by
      intro s a ha hs t ht
      dsimp only at ht
      split at ht
      · rename_i hf
        split at ht
        · simp only [Option.some.injEq] at ht
          subst ht
          exact ⟨ha, hf⟩
        · exact hs t ht
      · exact hs t ht)
    (none, INT_MAX) (by intro t ht; cases ht)
  obtain ⟨hm, hf⟩ := key (r, p, d) h
  obtain ⟨h1, h2, h3⟩ := (mem_slots routes routes.length r p d).mp hm
  exact ⟨h1, h2, h3, hf⟩

theorem select_greedy_pickup_mem (inst : Instance) (cands : List Int) (routes : List Route) :
    select_greedy_pickup inst cands routes = -1
      ∨ select_greedy_pickup inst cands routes ∈ cands := by
  unfold select_greedy_pickup
  split
  · exact Or.inl rfl
  · exact foldl_invariant
      (fun (best : Int × Int) pickup_id =>
        if min_cost_increase inst routes pickup_id (inst.node pickup_id).delivery_pair < best.2
        then (pickup_id,
          min_cost_increase inst routes pickup_id (inst.node pickup_id).delivery_pair)
        else best)
      (fun best => best.1 = -1 ∨ best.1 ∈ cands) cands
      (by
        intro s a ha hs
        dsimp only
        split
        · exact Or.inr ha
        · exact hs)
      (-1, INT_MAX) (Or.inl rfl)

theorem select_aco_pickup_mem (cands : List Int) (k : Nat) (h : cands ≠ []) :
    select_aco_pickup cands k ∈ cands := by
  unfold select_aco_pickup
  have hne : cands.isEmpty = false := by
    cases cands with
    | nil => exact absurd rfl h
    | cons a l => rfl
  simp only [hne, Bool.false_eq_true, if_false]
  rw [List.getD_eq_getElem?_getD]
  cases hk : cands[k]? with
  | none =>
    simp only [Option.getD_none]
    rw [List.getLastD_eq_getLast?, List.getLast?_eq_getLast _ h]
    exact List.getLast_mem h
  | some x =>
    simp only [Option.getD_some]
    exact List.getElem?_mem hk

theorem ant_select_mem (inst : Instance) (params : HybridParams) (draws : AntDraws)
    (step : Nat) (routes : List Route) (unv : List Int) (h : unv ≠ []) :
    ant_select inst params draws step routes unv = -1
      ∨ ant_select inst params draws step routes unv ∈ unv := by
  unfold ant_select
  split
  · exact select_greedy_pickup_mem inst unv routes
  · exact Or.inr (select_aco_pickup_mem unv _ h)

theorem commit_insertion_feasible (inst : Instance) (routes : List Route) (r : Nat)
    (pk dl : Int) (p d : Nat) (hall : ∀ route ∈ routes, is_feasible_route inst route = true)
    (hpd : p ≤ d) (hf : is_feasible_insertion inst (routes.getD r []) pk dl p d = true) :
    ∀ route ∈ commit_insertion routes r pk dl p d, is_feasible_route inst route = true := by
  intro route hr
  rcases mem_set_routes _ _ _ _ hr with rfl | hr
  · unfold is_feasible_insertion at hf
    rw [if_neg (Nat.not_lt.mpr hpd)] at hf
    exact hf
  · exact hall route hr

theorem ant_loop_feasible (inst : Instance) (params : HybridParams) (draws : AntDraws) :
    ∀ (fuel step : Nat) (routes : List Route) (unv : List Int) (res : List Route × List Int),
      (∀ route ∈ routes, is_feasible_route inst route = true) →
      ant_loop inst params draws fuel step routes unv = some res →
      ∀ route ∈ res.1, is_feasible_route inst route = true := by
  intro fuel
  induction fuel with
  | zero =>
    intro step routes unv res hall h
    cases unv with
    | nil =>
      simp only [ant_loop, Option.some.injEq] at h
      subst h; exact hall
    | cons p ps => simp [ant_loop] at h
  | succ fuel ih =>
    intro step routes unv res hall h
    cases unv with
    | nil =>
      simp only [ant_loop, Option.some.injEq] at h
      subst h; exact hall
    | cons p ps =>
      simp only [ant_loop] at h
      split at h
      · simp only [Option.some.injEq] at h
        subst h; exact hall
      · split at h
        · rename_i r pp dp hfb
          obtain ⟨_, h2, _, h4⟩ := find_best_insertion_some inst routes _ _ r pp dp hfb
          exact ih _ _ _ res (commit_insertion_feasible inst routes r _ _ pp dp hall h2 h4) h
        · simp only [Option.some.injEq] at h
          subst h; exact hall

theorem ant_loop_terminates (inst : Instance) (params : HybridParams) (draws : AntDraws) :
    ∀ (fuel step : Nat) (routes : List Route) (unv : List Int), unv.length ≤ fuel →
      ∃ res, ant_loop inst params draws fuel step routes unv = some res := by
  intro fuel
  induction fuel with
  | zero =>
    intro step routes unv hl
    cases unv with
    | nil => exact ⟨(routes, []), by simp [ant_loop]⟩
    | cons p ps => simp at hl
  | succ fuel ih =>
    intro step routes unv hl
    cases unv with
    | nil => exact ⟨(routes, []), by simp [ant_loop]⟩
    | cons p ps =>
      simp only [ant_loop]
      split
      · exact ⟨_, rfl⟩
      · rename_i hsel
        split
        · apply ih
          rcases ant_select_mem inst params draws step routes (p :: ps) (by simp) with h | h
          · exact absurd h hsel
          · unfold set_erase
            rw [List.length_erase_of_mem h]
            simp only [List.length_cons] at hl ⊢
            omega
        · exact ⟨_, rfl⟩

theorem construct_solution_run (inst : Instance) (params : HybridParams) (draws : AntDraws)
    (n : Nat) :
    ∃ unv, ant_loop inst params draws (initial_unvisited inst).length 0 (List.replicate n [])
        (initial_unvisited inst)
      = some ((construct_solution inst params draws n).routes, unv) := by
  obtain ⟨res, h⟩ := ant_loop_terminates inst params draws (initial_unvisited inst).length 0
    (List.replicate n []) (initial_unvisited inst) le_rfl
  refine ⟨res.2, ?_⟩
  unfold construct_solution
  rw [calculate_cost_routes]
  simp only [h]

theorem construct_solution_feasible (inst : Instance) (params : HybridParams)
    (draws : AntDraws) (n : Nat) :
    ∀ route ∈ (construct_solution inst params draws n).routes,
      is_feasible_route inst route = true := by
  obtain ⟨unv, h⟩ := construct_solution_run inst params draws n
  have := ant_loop_feasible inst params draws _ _ _ _ _
    (fun route hr => by rw [List.eq_of_mem_replicate hr]; rfl) h
  exact this

theorem local_search_2opt_feasible (inst : Instance) (s : HybridSolution)
    (hall : ∀ route ∈ s.routes, is_feasible_route inst route = true) :
    ∀ route ∈ (local_search_2opt inst s).routes, is_feasible_route inst route = true := by
  intro route hr
  rw [local_search_2opt_routes, List.mem_map] at hr
  obtain ⟨r0, hr0, rfl⟩ := hr
  exact (two_opt_route_spec inst r0).2.2.2.1 (hall r0 hr0)

theorem iteration_batch_feasible (inst : Instance) (params : HybridParams)
    (draws : SolveDraws) (n iter : Nat) :
    ∀ s ∈ iteration_batch inst params draws n iter,
      ∀ route ∈ s.routes, is_feasible_route inst route = true := by
  intro s hs
  unfold iteration_batch at hs
  rw [List.mem_map] at hs
  obtain ⟨ant, _, rfl⟩ := hs
  dsimp only
  split
  · exact local_search_2opt_feasible inst _ (construct_solution_feasible inst params _ n)
  · exact construct_solution_feasible inst params _ n

theorem sort_solutions_perm (l : List HybridSolution) : (sort_solutions l).Perm l :=
  List.perm_insertionSort _ l

theorem update_best_cases (sorted : List HybridSolution) (best : HybridSolution) (c : Int) :
    (update_best sorted best c).1 = best ∨ (update_best sorted best c).1 ∈ sorted := by
  unfold update_best
  cases sorted with
  | nil => exact Or.inl rfl
  | cons s0 l =>
    dsimp only
    split
    · exact Or.inr (by simp)
    · exact Or.inl rfl

theorem aco_iterations_feasible (inst : Instance) (params : HybridParams)
    (draws : SolveDraws) (n : Nat) :
    ∀ (remaining iter : Nat) (best : HybridSolution) (c : Int),
      (∀ route ∈ best.routes, is_feasible_route inst route = true) →
      ∀ route ∈ (aco_iterations inst params draws n remaining iter best c).routes,
        is_feasible_route inst route = true := by
  intro remaining
  induction remaining with
  | zero => intro iter best c hb; exact hb
  | succ remaining ih =>
    intro iter best c hb
    have hupd : ∀ route ∈ (update_best (sort_solutions
        (iteration_batch inst params draws n iter)) best c).1.routes,
        is_feasible_route inst route = true := by
      rcases update_best_cases (sort_solutions (iteration_batch inst params draws n iter))
        best c with h | h
      · rw [h]; exact hb
      · exact iteration_batch_feasible inst params draws n iter _
          ((sort_solutions_perm _).mem_iff.mp h)
    simp only [aco_iterations]
    split
    · exact hupd
    · exact ih _ _ _ hupd

theorem well_formed_pickup {inst : Instance} (hw : WellFormed inst) (pk : Int)
    (h : pk ∈ initial_unvisited inst) :
    (inst.node pk).is_pickup = true
      ∧ (inst.node (inst.node pk).delivery_pair).is_delivery = true
      ∧ (inst.node (inst.node pk).delivery_pair).pickup_pair = pk := by
  obtain ⟨nd, hnd, rfl⟩ := (mem_initial_unvisited inst pk).mp h
  obtain ⟨h1, h2, h3⟩ := hw nd hnd
  rw [h1]
  refine ⟨?_, h2, h3⟩
  unfold pickup_nodes at hnd
  exact (List.mem_filter.mp hnd).2

theorem well_formed_delivery_not_pickup {inst : Instance} (hw : WellFormed inst) (pk : Int)
    (h : pk ∈ initial_unvisited inst) :
    (inst.node pk).delivery_pair ∉ initial_unvisited inst := by
  intro hd
  have h1 := (well_formed_pickup hw pk h).2.1
  have h2 := (well_formed_pickup hw _ hd).1
  simp only [Node.is_delivery, Node.is_pickup, decide_eq_true_eq] at h1 h2
  omega

theorem well_formed_delivery_inj {inst : Instance} (hw : WellFormed inst) (p q : Int)
    (hp : p ∈ initial_unvisited inst) (hq : q ∈ initial_unvisited inst)
    (h : (inst.node p).delivery_pair = (inst.node q).delivery_pair) : p = q := by
  have h1 := (well_formed_pickup hw p hp).2.2
  have h2 := (well_formed_pickup hw q hq).2.2
  rw [h] at h1
  rw [← h1, h2]

theorem routes_eq_map_getD (routes : List Route) :
    routes = (List.range routes.length).map (fun r => routes.getD r []) := by
  apply List.ext_getElem
  · simp
  · intro i h1 h2
    simp [List.getD_eq_getElem?_getD, List.getElem?_eq_getElem h1]

theorem flatten_eq_flatMap_getD (routes : List Route) :
    routes.flatten = (List.range routes.length).flatMap (fun r => routes.getD r []) := by
  conv => lhs; rw [routes_eq_map_getD routes]
  rw [List.flatMap_def]

theorem mem_routes_iff_getD (routes : List Route) (route : Route) :
    route ∈ routes ↔ ∃ r, r < routes.length ∧ routes.getD r [] = route := by
  constructor
  · intro h
    obtain ⟨r, hr, rfl⟩ := List.mem_iff_getElem.mp h
    exact ⟨r, hr, by simp [List.getD_eq_getElem?_getD, List.getElem?_eq_getElem hr]⟩
  · rintro ⟨r, hr, rfl⟩
    rw [List.getD_eq_getElem _ _ hr]
    exact List.getElem_mem _

theorem pair_sublist_indices (a b : Int) :
    ∀ l : Route, List.Sublist [a, b] l →
      ∃ i j : Nat, i < j ∧ l[i]? = some a ∧ l[j]? = some b := by
  intro l
  induction l with
  | nil => intro h; cases h
  | cons x l ih =>
    intro h
    rcases List.sublist_cons_iff.mp h with h | ⟨r, hr, hs⟩
    · obtain ⟨i, j, hij, hi, hj⟩ := ih h
      exact ⟨i + 1, j + 1, by omega, by simpa using hi, by simpa using hj⟩
    · simp only [List.cons.injEq] at hr
      obtain ⟨rfl, rfl⟩ := hr
      have hb : b ∈ l := hs.subset (by simp)
      obtain ⟨j, hj⟩ := List.mem_iff_getElem?.mp hb
      exact ⟨0, j + 1, by omega, by simp, by simpa using hj⟩

/-- The structure of the routes in a state of the greedy loop. -/
theorem placed_facts {inst : Instance} {n : Nat} {routes : List Route} {unv : List Int}
    (hlen : routes.length = n) (hinv : PlacedInv inst n routes unv) :
    ∃ P : List Int, (P ++ unv).Perm (initial_unvisited inst)
      ∧ routes.flatten.Perm (P ++ P.map (fun pk => (inst.node pk).delivery_pair))
      ∧ ∀ route ∈ routes, ∃ pks : List Int, (∀ pk ∈ pks, pk ∈ P)
          ∧ route.Perm (pks ++ pks.map (fun pk => (inst.node pk).delivery_pair))
          ∧ ∀ pk ∈ pks, List.Sublist [pk, (inst.node pk).delivery_pair] route := by
  obtain ⟨placed, hb, hp⟩ := hinv
  refine ⟨(List.range n).flatMap placed, hp, ?_, ?_⟩
  · rw [flatten_eq_flatMap_getD, hlen, List.map_flatMap]
    refine List.Perm.trans ?_ (List.flatMap_append_perm _ _ _).symm
    exact List.Perm.flatMap_left _ (fun r _ => built_perm (hb r))
  · intro route hr
    obtain ⟨r, hr1, rfl⟩ := (mem_routes_iff_getD routes route).mp hr
    refine ⟨placed r, ?_, built_perm (hb r), built_pair_sublist (hb r)⟩
    intro pk hpk
    exact List.mem_flatMap.mpr ⟨r, List.mem_range.mpr (hlen ▸ hr1), hpk⟩

/-- C5: in every step of `pure_greedy_insertion` (every state at the head of its loop in
which the scan finds an insertion `b`), `b` is a candidate of the step, it is feasible, its
score is its cost increase (new route cost minus old route cost), the loop commits exactly
it, its cost increase is at most that of every feasible candidate of the step, and among
the feasible candidates with the same increase it is the first in scan order (ascending
pickup id, then route index, then `p_pos`, then `d_pos`). -/
theorem greedy_step_commits_first_minimum (inst : Instance) (num_routes : Nat)
    (routes : List Route) (unvisited : List Int) (b : GreedyInsertion)
    (hreach : GreedyReach inst num_routes routes unvisited)
    (hscan : greedy_scan inst num_routes routes unvisited = some b) :
    (b.pickup_id ∈ unvisited ∧ b.delivery_id = (inst.node b.pickup_id).delivery_pair
      ∧ b.route_idx < num_routes ∧ b.pickup_pos ≤ b.delivery_pos
      ∧ b.delivery_pos ≤ (routes.getD b.route_idx []).length)
    ∧ is_feasible_insertion inst (routes.getD b.route_idx []) b.pickup_id b.delivery_id
        b.pickup_pos b.delivery_pos = true
    ∧ b.efficiency_score
        = calculate_route_cost inst
            (insert_pair (routes.getD b.route_idx []) b.pickup_id b.delivery_id
              b.pickup_pos b.delivery_pos)
          - calculate_route_cost inst (routes.getD b.route_idx [])
    ∧ (∀ fuel, greedy_loop inst num_routes (fuel + 1) routes unvisited
        = greedy_loop inst num_routes fuel
            (commit_insertion routes b.route_idx b.pickup_id b.delivery_id b.pickup_pos
              b.delivery_pos)
            (set_erase unvisited b.pickup_id))
    ∧ (∀ (pk : Int) (r p d : Nat), pk ∈ unvisited → r < num_routes → p ≤ d →
        d ≤ (routes.getD r []).length →
        is_feasible_insertion inst (routes.getD r []) pk (inst.node pk).delivery_pair p d
          = true →
        b.efficiency_score
            ≤ calculate_route_cost inst
                (insert_pair (routes.getD r []) pk (inst.node pk).delivery_pair p d)
              - calculate_route_cost inst (routes.getD r [])
        ∧ (calculate_route_cost inst
                (insert_pair (routes.getD r []) pk (inst.node pk).delivery_pair p d)
              - calculate_route_cost inst (routes.getD r []) = b.efficiency_score →
            (pk, r, p, d) = b.key ∨ scan_lt b.key (pk, r, p, d))) := by
  obtain ⟨hmem, hfeas, hmin⟩ :=
    greedy_scan_some inst num_routes routes unvisited (greedy_reach_sorted hreach) b hscan
  obtain ⟨h1, h2, h3, h4, h5⟩ := (mem_greedy_candidates inst num_routes routes unvisited b).mp hmem
  have hdl : b.delivery_id = (inst.node b.pickup_id).delivery_pair := by rw [h5]; rfl
  refine ⟨⟨h1, hdl, h2, h3, h4⟩, hfeas, ?_, ?_, ?_⟩
  · have : b.efficiency_score = cost_increase inst (routes.getD b.route_idx []) b.pickup_id
        (inst.node b.pickup_id).delivery_pair b.pickup_pos b.delivery_pos := by
      conv => lhs; rw [h5]
      rfl
    rw [this, hdl]; rfl
  · intro fuel
    cases unvisited with
    | nil => cases h1
    | cons p ps => simp only [greedy_loop, hscan]
  · intro pk r p d hpk hr hpd hd hf
    have hc : greedy_candidate inst routes pk (r, p, d)
        ∈ greedy_candidates inst num_routes routes unvisited :=
      (mem_greedy_candidates inst num_routes routes unvisited _).mpr ⟨hpk, hr, hpd, hd, rfl⟩
    obtain ⟨hle, hfirst⟩ := hmin _ hc hf
    refine ⟨hle, ?_⟩
    intro he
    rcases hfirst he with h | h
    · left
      rw [← h]; rfl
    · exact Or.inr h

/-- Witness of C5: the first step of the greedy constructor on the one-pair instance. -/
theorem greedy_step_commits_first_minimum_witness :
    greedy_scan inst1 3 (List.replicate 3 []) (initial_unvisited inst1)
        = some ⟨1, 2, 0, 0, 0, 12⟩
    ∧ is_feasible_insertion inst1 ((List.replicate 3 ([] : Route)).getD 0 []) 1 2 0 0 = true :=
  ⟨by decide,
    (greedy_step_commits_first_minimum inst1 3 (List.replicate 3 []) (initial_unvisited inst1)
      ⟨1, 2, 0, 0, 0, 12⟩ GreedyReach.start (by decide)).2.1⟩

/-- C6: `pure_greedy_insertion` leaves its loop after at most one execution of the body per
pickup, and on return every pickup id is either placed in a route or still unvisited, and
either no pickup is unvisited or no unvisited pickup has a route slot and positions
`p_pos ≤ d_pos` at which `is_feasible_insertion` into the returned route is true. -/
theorem pure_greedy_insertion_terminates_maximal (inst : Instance) (num_routes : Nat) :
    ∃ unvisited : List Int,
      greedy_loop inst num_routes (pickup_nodes inst).length (List.replicate num_routes [])
          (initial_unvisited inst)
        = some (pure_greedy_insertion inst num_routes, unvisited)
      ∧ (∀ pk ∈ initial_unvisited inst,
          pk ∈ (pure_greedy_insertion inst num_routes).flatten ∨ pk ∈ unvisited)
      ∧ (unvisited = [] ∨
          ∀ pk ∈ unvisited, ∀ r p d : Nat, r < num_routes → p ≤ d →
            d ≤ ((pure_greedy_insertion inst num_routes).getD r []).length →
            is_feasible_insertion inst ((pure_greedy_insertion inst num_routes).getD r []) pk
              (inst.node pk).delivery_pair p d = false) := by
  obtain ⟨unv, hrun⟩ := pure_greedy_insertion_run inst num_routes
  obtain ⟨hreach, hexit⟩ := greedy_loop_reach inst num_routes _ _ _ _ GreedyReach.start hrun
  refine ⟨unv, greedy_loop_mono inst num_routes _ _ _ _ _ (initial_unvisited_length inst) hrun,
    ?_, ?_⟩
  · intro pk hpk
    obtain ⟨P, hP, _, hroutes⟩ :=
      placed_facts (greedy_reach_length hreach) (greedy_reach_placed hreach)
    obtain ⟨placed, hb, hp⟩ := greedy_reach_placed hreach
    rcases List.mem_append.mp (hp.mem_iff.mpr hpk) with h | h
    · left
      obtain ⟨r, hr, hm⟩ := List.mem_flatMap.mp h
      have hr' : r < (pure_greedy_insertion inst num_routes).length := by
        rw [greedy_reach_length hreach]; exact List.mem_range.mp hr
      have h1 : pk ∈ (pure_greedy_insertion inst num_routes).getD r [] :=
        (built_perm (hb r)).mem_iff.mpr (List.mem_append_left _ hm)
      exact List.mem_flatten.mpr ⟨_, (mem_routes_iff_getD _ _).mpr ⟨r, hr', rfl⟩, h1⟩
    · exact Or.inr h
  · rcases hexit with h | h
    · exact Or.inl h
    · right
      intro pk hpk r p d hr hpd hd
      have := (greedy_scan_none inst num_routes _ _).mp h
        (greedy_candidate inst (pure_greedy_insertion inst num_routes) pk (r, p, d))
        ((mem_greedy_candidates inst num_routes _ _ _).mpr ⟨hpk, hr, hpd, hd, rfl⟩)
      exact this

/-- C7: every route returned by `pure_greedy_insertion` passes `is_feasible_route`; so does
every route of a solution built by `HybridAnt::construct_solution`, for all random draws;
`local_search_2opt` maps a solution whose routes are all feasible to one whose routes are
all feasible; and every route of the solution returned by `hybrid_aco_solve` is feasible.
The bounded loops of the constructors and of the local search exit within their bounds. -/
theorem all_routes_feasible (inst : Instance) (params : HybridParams) (num_routes : Nat) :
    (∀ route ∈ pure_greedy_insertion inst num_routes, is_feasible_route inst route = true)
    ∧ (∀ draws : AntDraws,
        ∀ route ∈ (construct_solution inst params draws num_routes).routes,
          is_feasible_route inst route = true)
    ∧ (∀ s : HybridSolution, (∀ route ∈ s.routes, is_feasible_route inst route = true) →
        ∀ route ∈ (local_search_2opt inst s).routes, is_feasible_route inst route = true)
    ∧ (∀ draws : SolveDraws,
        ∀ route ∈ (hybrid_aco_solve inst params draws num_routes).routes,
          is_feasible_route inst route = true)
    ∧ (∃ unvisited, greedy_loop inst num_routes (initial_unvisited inst).length
          (List.replicate num_routes []) (initial_unvisited inst)
        = some (pure_greedy_insertion inst num_routes, unvisited))
    ∧ (∀ draws : AntDraws, ∃ unvisited,
        ant_loop inst params draws (initial_unvisited inst).length 0
          (List.replicate num_routes []) (initial_unvisited inst)
        = some ((construct_solution inst params draws num_routes).routes, unvisited))
    ∧ (∀ route : Route, 4 ≤ route.length →
        two_opt_loop inst (two_opt_fuel inst route) route
          = some (two_opt_route inst route)) := by
  have hgreedy : ∀ route ∈ pure_greedy_insertion inst num_routes,
      is_feasible_route inst route = true := by
    obtain ⟨unv, hrun⟩ := pure_greedy_insertion_run inst num_routes
    exact greedy_reach_feasible
      (greedy_loop_reach inst num_routes _ _ _ _ GreedyReach.start hrun).1
  refine ⟨hgreedy, fun draws => construct_solution_feasible inst params draws num_routes,
    fun s hs => local_search_2opt_feasible inst s hs, ?_,
    pure_greedy_insertion_run inst num_routes,
    fun draws => construct_solution_run inst params draws num_routes,
    fun route h4 => two_opt_route_run inst route h4⟩
  intro draws
  unfold hybrid_aco_solve
  apply aco_iterations_feasible
  unfold initial_solution
  rw [calculate_cost_routes]
  exact hgreedy

/-- C8: for a well-formed instance, in the routes returned by `pure_greedy_insertion` no
node occurs twice over all routes, so every pickup id occurs at most once; a route contains
a pickup exactly when it contains the pickup's paired delivery; the delivery then occurs
exactly once, at a later index of the same route; and the total number of nodes over all
routes is twice the number of placed pairs. -/
theorem greedy_routes_pair_structure (inst : Instance) (num_routes : Nat)
    (hw : WellFormed inst) :
    (pure_greedy_insertion inst num_routes).flatten.Nodup
    ∧ (∀ pk ∈ initial_unvisited inst,
        (pure_greedy_insertion inst num_routes).flatten.count pk ≤ 1)
    ∧ (∀ route ∈ pure_greedy_insertion inst num_routes, ∀ pk ∈ initial_unvisited inst,
        (pk ∈ route ↔ (inst.node pk).delivery_pair ∈ route))
    ∧ (∀ route ∈ pure_greedy_insertion inst num_routes, ∀ pk ∈ initial_unvisited inst,
        pk ∈ route →
          (pure_greedy_insertion inst num_routes).flatten.count (inst.node pk).delivery_pair = 1
          ∧ route.count (inst.node pk).delivery_pair = 1
          ∧ ∃ i j : Nat, i < j ∧ route[i]? = some pk
              ∧ route[j]? = some (inst.node pk).delivery_pair)
    ∧ ((pure_greedy_insertion inst num_routes).map List.length).sum
        = 2 * ((initial_unvisited inst).filter
            (fun pk => decide (pk ∈ (pure_greedy_insertion inst num_routes).flatten))).length := by
  obtain ⟨unv, hrun⟩ := pure_greedy_insertion_run inst num_routes
  obtain ⟨hreach, _⟩ := greedy_loop_reach inst num_routes _ _ _ _ GreedyReach.start hrun
  obtain ⟨P, hP, hflat, hroutes⟩ :=
    placed_facts (greedy_reach_length hreach) (greedy_reach_placed hreach)
  dsimp only at hP hflat hroutes
  generalize pure_greedy_insertion inst num_routes = routes at hflat hroutes ⊢
  have hnd0 : (initial_unvisited inst).Nodup :=
    (initial_unvisited_sorted inst).imp (fun h => ne_of_lt h)
  have hndPU : (P ++ unv).Nodup := hP.nodup_iff.mpr hnd0
  have hPsub : ∀ pk ∈ P, pk ∈ initial_unvisited inst :=
    fun pk h => hP.mem_iff.mp (List.mem_append_left _ h)
  have hndP : P.Nodup := (List.nodup_append.mp hndPU).1
  have hndD : (P.map (fun pk => (inst.node pk).delivery_pair)).Nodup :=
    List.Nodup.map_on
      (fun x hx y hy h => well_formed_delivery_inj hw x y (hPsub x hx) (hPsub y hy) h) hndP
  have hnotD : ∀ x ∈ initial_unvisited inst,
      ∀ q ∈ initial_unvisited inst, x ≠ (inst.node q).delivery_pair := by
    intro x hx q hq h
    exact well_formed_delivery_not_pickup hw q hq (h ▸ hx)
  have hdisj : List.Disjoint P (P.map (fun pk => (inst.node pk).delivery_pair)) := by
    intro x hx hx'
    obtain ⟨q, hq, rfl⟩ := List.mem_map.mp hx'
    exact hnotD _ (hPsub _ hx) q (hPsub q hq) rfl
  have hnd : routes.flatten.Nodup := hflat.nodup_iff.mpr (List.Nodup.append hndP hndD hdisj)
  have hmemroute : ∀ route ∈ routes, ∀ pk ∈ initial_unvisited inst,
      (pk ∈ route ↔ (inst.node pk).delivery_pair ∈ route)
      ∧ (pk ∈ route → List.Sublist [pk, (inst.node pk).delivery_pair] route) := by
    intro route hr pk hpk
    obtain ⟨pks, hsub, hperm, hsl⟩ := hroutes route hr
    have h1 : pk ∈ route ↔ pk ∈ pks := by
      rw [hperm.mem_iff, List.mem_append]
      constructor
      · rintro (h | h)
        · exact h
        · obtain ⟨q, hq, hqe⟩ := List.mem_map.mp h
          exact absurd hqe.symm (hnotD pk hpk q (hPsub q (hsub q hq)))
      · exact Or.inl
    have h2 : (inst.node pk).delivery_pair ∈ route ↔ pk ∈ pks := by
      rw [hperm.mem_iff, List.mem_append]
      constructor
      · rintro (h | h)
        · exact absurd rfl (hnotD _ (hPsub _ (hsub _ h)) pk hpk)
        · obtain ⟨q, hq, hqe⟩ := List.mem_map.mp h
          have := well_formed_delivery_inj hw q pk (hPsub q (hsub q hq)) hpk hqe
          exact this ▸ hq
      · intro h
        exact Or.inr (List.mem_map.mpr ⟨pk, h, rfl⟩)
    exact ⟨h1.trans h2.symm, fun h => hsl pk (h1.mp h)⟩
  refine ⟨hnd, fun pk _ => List.nodup_iff_count_le_one.mp hnd pk,
    fun route hr pk hpk => (hmemroute route hr pk hpk).1, ?_, ?_⟩
  · intro route hr pk hpk hin
    have hd : (inst.node pk).delivery_pair ∈ route := ((hmemroute route hr pk hpk).1).mp hin
    have hndr : route.Nodup := by
      have := List.nodup_flatten.mp hnd
      exact this.1 route hr
    exact ⟨List.count_eq_one_of_mem hnd (List.mem_flatten.mpr ⟨route, hr, hd⟩),
      List.count_eq_one_of_mem hndr hd,
      pair_sublist_indices _ _ route ((hmemroute route hr pk hpk).2 hin)⟩
  · rw [← List.length_flatten, hflat.length_eq]
    have hfil : ((initial_unvisited inst).filter
        (fun pk => decide (pk ∈ routes.flatten))).Perm P := by
      refine (hP.filter _).symm.trans ?_
      rw [List.filter_append]
      have h1 : P.filter (fun pk => decide (pk ∈ routes.flatten)) = P := by
        rw [List.filter_eq_self]
        intro x hx
        simp only [decide_eq_true_eq]
        exact hflat.mem_iff.mpr (List.mem_append_left _ hx)
      have h2 : unv.filter (fun pk => decide (pk ∈ routes.flatten)) = [] := by
        rw [List.filter_eq_nil_iff]
        intro x hx
        simp only [decide_eq_true_eq]
        intro hin
        rcases List.mem_append.mp (hflat.mem_iff.mp hin) with h | h
        · exact (List.nodup_append.mp hndPU).2.2 h hx
        · obtain ⟨q, hq, hqe⟩ := List.mem_map.mp h
          exact hnotD x (hP.mem_iff.mp (List.mem_append_right _ hx)) q (hPsub q hq) hqe.symm
      rw [h1, h2, List.append_nil]
    rw [hfil.length_eq]
    simp
    omega

/-- Witness of C8 on the two-pair instance with one route. -/
theorem greedy_routes_pair_structure_witness :
    WellFormed inst2 ∧ (pure_greedy_insertion inst2 1).flatten.Nodup :=
  ⟨by decide, (greedy_routes_pair_structure inst2 1 (by decide)).1⟩

/-- C10: `local_search_2opt` is idempotent: applying it to its own result gives the same
routes, `total_cost` and `used_routes`; a route on which a full scan finds no feasible
strictly improving reversal is returned unchanged; and the restart loop on a route always
stops within its bound, at such a route. -/
theorem local_search_2opt_idempotent (inst : Instance) :
    (∀ s : HybridSolution,
        (local_search_2opt inst (local_search_2opt inst s)).routes
            = (local_search_2opt inst s).routes
        ∧ (local_search_2opt inst (local_search_2opt inst s)).total_cost
            = (local_search_2opt inst s).total_cost
        ∧ (local_search_2opt inst (local_search_2opt inst s)).used_routes
            = (local_search_2opt inst s).used_routes)
    ∧ (∀ route : Route,
        (∀ i j, i + 3 < route.length → i + 2 ≤ j → j + 1 < route.length →
          ¬ (is_feasible_route inst (reverse_segment route i j) = true
              ∧ calculate_route_cost inst (reverse_segment route i j)
                  < calculate_route_cost inst route)) →
        two_opt_route inst route = route)
    ∧ (∀ route : Route, 4 ≤ route.length →
        two_opt_loop inst (two_opt_fuel inst route) route = some (two_opt_route inst route)
        ∧ ∀ i j, i + 3 < route.length → i + 2 ≤ j → j + 1 < route.length →
          ¬ (is_feasible_route inst (reverse_segment (two_opt_route inst route) i j) = true
              ∧ calculate_route_cost inst (reverse_segment (two_opt_route inst route) i j)
                  < calculate_route_cost inst (two_opt_route inst route))) := by
  refine ⟨fun s => ?_, fun route h => ?_, fun route h4 => ⟨two_opt_route_run inst route h4, ?_⟩⟩
  · rw [local_search_twice]
    exact ⟨rfl, rfl, rfl⟩
  · exact two_opt_route_fixed inst route ((two_opt_scan_none_iff inst route).mpr h)
  · have h1 := (two_opt_route_spec inst route).2.2.1 h4
    have h2 := (two_opt_route_spec inst route).1.length_eq
    have h3 := (two_opt_scan_none_iff inst _).mp h1
    intro i j hi hij hj
    exact h3 i j (by omega) hij (by omega)

/-! ## Theorems on the pheromone model -/

theorem vec_get_set {α : Type} (v : List α) (i q : Int) (x d : α) :
    vec_get (vec_set v i x) q d
      = if q = i ∧ 0 ≤ i ∧ i < v.length then x else vec_get v q d := by
  unfold vec_get vec_set
  by_cases hq : q < 0
  · have : ¬ (q = i ∧ 0 ≤ i ∧ i < (v.length : Int)) := by omega
    simp [hq, this]
  · by_cases hi : i < 0
    · have : ¬ (q = i ∧ 0 ≤ i ∧ i < (v.length : Int)) := by omega
      simp [hq, hi, this]
    · simp only [hq, hi, if_false]
      simp only [List.getD_eq_getElem?_getD, List.getElem?_set]
      by_cases h : i.toNat = q.toNat
      · have hqi : q = i := by omega
        subst hqi
        by_cases hl : q.toNat < v.length
        · have : (q = q ∧ 0 ≤ q ∧ q < (v.length : Int)) := ⟨rfl, by omega, by omega⟩
          simp [hl, this]
        · have h1 : ¬ (q = q ∧ 0 ≤ q ∧ q < (v.length : Int)) := by omega
          have h2 : v[q.toNat]? = none := by simp; omega
          rw [if_neg h1]
          simp [hl, h2]
      · have : ¬ (q = i ∧ 0 ≤ i ∧ i < (v.length : Int)) := by omega
        simp [h, this]

theorem vec_set_len {α : Type} (v : List α) (i : Int) (x : α) :
    (vec_set v i x).length = v.length := by
  unfold vec_set; split <;> simp

theorem mat_get_set (m : Pheromone) (i j a b : Int) (x : ℚ) :
    mat_get (mat_set m i j x) a b
      = if a = i ∧ b = j ∧ InBounds m i j then x else mat_get m a b := by
  unfold mat_get mat_set InBounds
  rw [vec_get_set]
  by_cases h1 : a = i ∧ 0 ≤ i ∧ i < (m.length : Int)
  · rw [if_pos h1, vec_get_set]
    obtain ⟨rfl, h2, h3⟩ := h1
    by_cases h4 : b = j ∧ 0 ≤ j ∧ j < ((vec_get m a []).length : Int)
    · rw [if_pos h4, if_pos ⟨rfl, h4.1, h2, h3, h4.2.1, h4.2.2⟩]
    · rw [if_neg h4, if_neg (fun h => h4 ⟨h.2.1, h.2.2.2.2⟩)]
  · rw [if_neg h1, if_neg (fun h => h1 ⟨h.1, h.2.2.1, h.2.2.2.1⟩)]

theorem vec_get_set_length (m : Pheromone) (i a : Int) (row : List ℚ)
    (h : row.length = (vec_get m i []).length) :
    (vec_get (vec_set m i row) a []).length = (vec_get m a []).length := by
  rw [vec_get_set]
  split
  · rename_i h1
    rw [h, h1.1]
  · rfl

theorem inBounds_mat_set (m : Pheromone) (i j a b : Int) (x : ℚ) :
    InBounds (mat_set m i j x) a b ↔ InBounds m a b := by
  unfold InBounds mat_set
  rw [vec_set_len, vec_get_set_length m i a _ (vec_set_len _ _ _)]

theorem inBounds_mat_add (m : Pheromone) (i j a b : Int) (x : ℚ) :
    InBounds (mat_add m i j x) a b ↔ InBounds m a b :=
  inBounds_mat_set m i j a b _

theorem mat_get_add (m : Pheromone) (i j a b : Int) (x : ℚ) (h : InBounds m a b) :
    mat_get (mat_add m i j x) a b
      = mat_get m a b + (if (i, j) = (a, b) then x else 0) := by
  unfold mat_add
  rw [mat_get_set]
  by_cases h1 : a = i ∧ b = j
  · obtain ⟨rfl, rfl⟩ := h1
    simp [h]
  · have h2 : ¬ (a = i ∧ b = j ∧ InBounds m i j) := fun h' => h1 ⟨h'.1, h'.2.1⟩
    have h3 : ¬ ((i, j) = (a, b)) := by
      intro h'
      simp only [Prod.mk.injEq] at h'
      exact h1 ⟨h'.1.symm, h'.2.symm⟩
    rw [if_neg h2, if_neg h3, add_zero]

/-- Adding `delta` along a list of arcs raises an existing entry by `delta` times the
number of occurrences of its arc. -/
theorem mat_get_foldl_add (delta : ℚ) (a b : Int) (arcs : List (Int × Int)) :
    ∀ m : Pheromone, InBounds m a b →
      mat_get (arcs.foldl (fun m ab => mat_add m ab.1 ab.2 delta) m) a b
          = mat_get m a b + delta * (arcs.count (a, b) : ℚ)
        ∧ InBounds (arcs.foldl (fun m ab => mat_add m ab.1 ab.2 delta) m) a b := by
  induction arcs with
  | nil => intro m h; simp [h]
  | cons ab arcs ih =>
    intro m h
    obtain ⟨h1, h2⟩ := ih (mat_add m ab.1 ab.2 delta) ((inBounds_mat_add m _ _ a b _).mpr h)
    rw [List.foldl_cons]
    refine ⟨?_, h2⟩
    rw [h1, mat_get_add m _ _ a b _ h, List.count_cons]
    by_cases he : (ab.1, ab.2) = (a, b)
    · have : (ab == (a, b)) = true := by
        rw [beq_iff_eq]; exact he
      rw [if_pos he, this]
      push_cast
      simp only [if_true]
      ring
    · have : (ab == (a, b)) = false := by
        rw [beq_eq_false_iff_ne]; exact he
      rw [if_neg he, this]
      simp

theorem zip_cons_snoc (x y : Int) (r : Route) :
    (x :: r).zip (r ++ [y]) = (x :: r).zip r ++ [((x :: r).getLastD 0, y)] := by
  induction r generalizing x with
  | nil => simp
  | cons a r ih =>
    have := ih a
    simp only [List.cons_append, List.zip_cons_cons] at this ⊢
    rw [this]
    simp

theorem deposit_consecutive_eq (delta : ℚ) (route : Route) :
    ∀ m : Pheromone, deposit_consecutive m route delta
      = (route.zip route.tail).foldl (fun m ab => mat_add m ab.1 ab.2 delta) m := by
  induction route with
  | nil => intro m; simp [deposit_consecutive]
  | cons a rest ih =>
    intro m
    cases rest with
    | nil => simp [deposit_consecutive]
    | cons b rest =>
      rw [deposit_consecutive, ih]
      simp

theorem deposit_route_eq (m : Pheromone) (route : Route) (delta : ℚ) :
    deposit_route m route delta
      = (route_arcs route).foldl (fun m ab => mat_add m ab.1 ab.2 delta) m := by
  cases route with
  | nil => simp [deposit_route, route_arcs]
  | cons r0 rest =>
    have h : route_arcs (r0 :: rest)
        = (0, r0) :: ((r0 :: rest).zip rest ++ [((r0 :: rest).getLastD 0, 0)]) := by
      unfold route_arcs
      simp only [List.isEmpty_cons, Bool.false_eq_true, if_false, List.cons_append,
        List.zip_cons_cons]
      rw [zip_cons_snoc]
    rw [h, deposit_route, deposit_consecutive_eq, List.foldl_cons, List.foldl_append]
    simp

theorem foldl_deposit_eq (delta : ℚ) (routes : List Route) :
    ∀ m : Pheromone, routes.foldl (fun m route => deposit_route m route delta) m
      = (solution_arcs routes).foldl (fun m ab => mat_add m ab.1 ab.2 delta) m := by
  induction routes with
  | nil => intro m; simp [solution_arcs]
  | cons r routes ih =>
    intro m
    rw [List.foldl_cons, ih, deposit_route_eq]
    simp [solution_arcs, List.foldl_append]

theorem square_covers (n : Nat) (m : Pheromone) (h : Square n m) : Covers n m := by
  intro i j hi hj
  obtain ⟨h1, h2⟩ := h
  have hrow : vec_get m (i : Int) [] ∈ m := by
    unfold vec_get
    have : ¬ ((i : Int) < 0) := by omega
    rw [if_neg this, Int.toNat_ofNat, List.getD_eq_getElem _ _ (by omega)]
    exact List.getElem_mem _
  refine ⟨by omega, by omega, by omega, ?_⟩
  rw [h2 _ hrow]
  omega

theorem square_replicate (n : Nat) (x : ℚ) :
    Square n (List.replicate n (List.replicate n x)) := by
  refine ⟨by simp, fun row hr => ?_⟩
  rw [List.eq_of_mem_replicate hr]
  simp

theorem mat_get_replicate (n : Nat) (x : ℚ) (i j : Nat) (hi : i < n) (hj : j < n) :
    mat_get (List.replicate n (List.replicate n x)) i j = x := by
  unfold mat_get vec_get
  have h1 : ¬ ((i : Int) < 0) := by omega
  have h2 : ¬ ((j : Int) < 0) := by omega
  simp [h1, h2, List.getD_eq_getElem?_getD, List.getElem?_replicate, hi, hj]

theorem evaporate_keys_eq (n : Nat) (c : ℚ) (m : Pheromone) :
    (List.range n).foldl (fun (m : Pheromone) (i : Nat) =>
        (List.range n).foldl (fun (m : Pheromone) (j : Nat) =>
          mat_set m i j (c * mat_get m i j)) m) m
      = ((List.range n).flatMap (fun (i : Nat) => (List.range n).map
            (fun (j : Nat) => ((i : Int), (j : Int))))).foldl
          (fun m k => mat_set m k.1 k.2 (c * mat_get m k.1 k.2)) m := by
  rw [foldl_flatMap_eq]
  congr 1
  funext m i
  rw [List.foldl_map]

theorem evaporate_keys_nodup (n : Nat) :
    ((List.range n).flatMap (fun (i : Nat) => (List.range n).map
        (fun (j : Nat) => ((i : Int), (j : Int))))).Nodup := by
  have h : ((List.range n).flatMap (fun (i : Nat) => (List.range n).map
      (fun (j : Nat) => ((i : Int), (j : Int))))).Pairwise
      (fun x y => x.1 < y.1 ∨ (x.1 = y.1 ∧ x.2 < y.2)) := by
    rw [List.pairwise_flatMap]
    constructor
    · intro i _
      rw [List.pairwise_map]
      exact (List.pairwise_lt_range n).imp (fun h => Or.inr ⟨rfl, by simpa using h⟩)
    · refine (List.pairwise_lt_range n).imp ?_
      intro i1 i2 h x hx y hy
      simp only [List.mem_map] at hx hy
      obtain ⟨_, _, rfl⟩ := hx
      obtain ⟨_, _, rfl⟩ := hy
      exact Or.inl (by simpa using h)
  refine h.imp ?_
  intro x y hxy he
  subst he
  omega

theorem mem_evaporate_keys (n : Nat) (i j : Nat) (hi : i < n) (hj : j < n) :
    ((i : Int), (j : Int)) ∈ (List.range n).flatMap (fun (i : Nat) => (List.range n).map
        (fun (j : Nat) => ((i : Int), (j : Int)))) := by
  simp only [List.mem_flatMap, List.mem_range, List.mem_map]
  exact ⟨i, hi, j, hj, rfl⟩

theorem mat_get_scale_keys (c : ℚ) (a b : Int) (ks : List (Int × Int)) (hn : ks.Nodup) :
    ∀ m : Pheromone, InBounds m a b →
      mat_get (ks.foldl (fun m k => mat_set m k.1 k.2 (c * mat_get m k.1 k.2)) m) a b
        = if (a, b) ∈ ks then c * mat_get m a b else mat_get m a b := by
  induction ks with
  | nil => intro m _; simp
  | cons k ks ih =>
    intro m h
    rw [List.nodup_cons] at hn
    rw [List.foldl_cons, ih hn.2 _ ((inBounds_mat_set m _ _ a b _).mpr h), mat_get_set]
    by_cases hk : (a, b) = k
    · subst hk
      have h1 : (a, b) ∉ ks := hn.1
      simp [h1, h]
    · have h1 : ¬ (a = k.1 ∧ b = k.2 ∧ InBounds m k.1 k.2) := by
        intro h'
        exact hk (Prod.ext h'.1 h'.2.1)
      rw [if_neg h1]
      simp only [List.mem_cons, hk, false_or]

theorem inBounds_scale_keys (c : ℚ) (a b : Int) (ks : List (Int × Int)) :
    ∀ m : Pheromone,
      InBounds (ks.foldl (fun m k => mat_set m k.1 k.2 (c * mat_get m k.1 k.2)) m) a b
        ↔ InBounds m a b := by
  induction ks with
  | nil => intro m; rfl
  | cons k ks ih =>
    intro m
    rw [List.foldl_cons, ih, inBounds_mat_set]

theorem mat_get_evaporate (n : Nat) (rho : ℚ) (m : Pheromone) (i j : Nat) (hi : i < n)
    (hj : j < n) (h : InBounds m i j) :
    mat_get (evaporate n rho m) i j = (1 - rho) * mat_get m i j := by
  unfold evaporate
  rw [evaporate_keys_eq, mat_get_scale_keys _ _ _ _ (evaporate_keys_nodup n) m h,
    if_pos (mem_evaporate_keys n i j hi hj)]

theorem inBounds_evaporate (n : Nat) (rho : ℚ) (m : Pheromone) (a b : Int) :
    InBounds (evaporate n rho m) a b ↔ InBounds m a b := by
  unfold evaporate
  rw [evaporate_keys_eq, inBounds_scale_keys]

theorem mat_get_deposit_routes (delta : ℚ) (routes : List Route) (m : Pheromone) (a b : Int)
    (h : InBounds m a b) :
    mat_get (routes.foldl (fun m route => deposit_route m route delta) m) a b
        = mat_get m a b + delta * ((solution_arcs routes).count (a, b) : ℚ)
      ∧ InBounds (routes.foldl (fun m route => deposit_route m route delta) m) a b := by
  rw [foldl_deposit_eq]
  exact mat_get_foldl_add delta a b _ m h

theorem mat_get_reinforce (a b : Int) (sols : List HybridSolution) :
    ∀ m : Pheromone, InBounds m a b →
      mat_get (sols.foldl (fun m solution =>
          solution.routes.foldl
            (fun m route => deposit_route m route (10 / ((solution.total_cost : ℚ) + 1))) m)
          m) a b
        = mat_get m a b + (sols.map (fun s =>
            10 / ((s.total_cost : ℚ) + 1) * ((solution_arcs s.routes).count (a, b) : ℚ))).sum
      ∧ InBounds (sols.foldl (fun m solution =>
          solution.routes.foldl
            (fun m route => deposit_route m route (10 / ((solution.total_cost : ℚ) + 1))) m)
          m) a b := by
  induction sols with
  | nil => intro m h; simp [h]
  | cons s sols ih =>
    intro m h
    obtain ⟨h1, h2⟩ := mat_get_deposit_routes (10 / ((s.total_cost : ℚ) + 1)) s.routes m a b h
    obtain ⟨h3, h4⟩ := ih _ h2
    rw [List.foldl_cons]
    refine ⟨?_, h4⟩
    rw [h3, h1, List.map_cons, List.sum_cons]
    ring

theorem mat_get_update (inst : Instance) (params : HybridParams)
    (solutions : List HybridSolution) (m : Pheromone) (i j : Nat) (hi : i < inst.size)
    (hj : j < inst.size) (h : InBounds m i j) :
    mat_get (update_pheromone inst params solutions m) i j
      = (1 - params.rho) * mat_get m i j + reinforcement params solutions i j := by
  unfold update_pheromone reinforcement
  rw [(mat_get_reinforce i j _ _ ((inBounds_evaporate _ _ m i j).mpr h)).1,
    mat_get_evaporate _ _ m i j hi hj h]

theorem inBounds_update (inst : Instance) (params : HybridParams)
    (solutions : List HybridSolution) (m : Pheromone) (a b : Int) (h : InBounds m a b) :
    InBounds (update_pheromone inst params solutions m) a b := by
  unfold update_pheromone
  exact (mat_get_reinforce a b _ _ ((inBounds_evaporate _ _ m a b).mpr h)).2

theorem mat_get_initialized (inst : Instance) (old : Pheromone) (i j : Nat)
    (hi : i < inst.size) (hj : j < inst.size) :
    mat_get (initialize_pheromone inst old) i j
        = 1 + 2 * ((solution_arcs (pure_greedy_insertion inst 3)).count ((i : Int), (j : Int)) : ℚ)
      ∧ InBounds (initialize_pheromone inst old) i j := by
  unfold initialize_pheromone
  have h := mat_get_deposit_routes 2 (pure_greedy_insertion inst 3)
    (List.replicate inst.size (List.replicate inst.size 1)) i j
    (square_covers _ _ (square_replicate _ _) i j hi hj)
  rw [mat_get_replicate _ _ i j hi hj] at h
  exact h

theorem aco_iterations_state_fst (inst : Instance) (params : HybridParams)
    (draws : SolveDraws) (n : Nat) :
    ∀ (remaining iter : Nat) (best : HybridSolution) (c : Int) (ph : Pheromone),
      (aco_iterations_state inst params draws n remaining iter best c ph).1
        = aco_iterations inst params draws n remaining iter best c := by
  intro remaining
  induction remaining with
  | zero => intro iter best c ph; rfl
  | succ remaining ih =>
    intro iter best c ph
    simp only [aco_iterations_state, aco_iterations]
    split
    · rfl
    · exact ih _ _ _ _

theorem greedy_served (inst : Instance) (n : Nat) :
    (pure_greedy_insertion inst n).length = n
      ∧ ∃ P unv, Served inst (pure_greedy_insertion inst n) P unv := by
  obtain ⟨unv, hrun⟩ := pure_greedy_insertion_run inst n
  obtain ⟨hreach, _⟩ := greedy_loop_reach inst n _ _ _ _ GreedyReach.start hrun
  obtain ⟨P, hP, hflat, _⟩ :=
    placed_facts (greedy_reach_length hreach) (greedy_reach_placed hreach)
  exact ⟨greedy_reach_length hreach, P, unv, hP, hflat⟩

theorem served_mem_cases {inst : Instance} {routes : List Route} {P unv : List Int}
    (h : Served inst routes P unv) (x : Int) (hx : x ∈ routes.flatten) :
    (x ∈ P ∧ x ∈ initial_unvisited inst)
      ∨ ∃ q ∈ P, q ∈ initial_unvisited inst ∧ x = (inst.node q).delivery_pair := by
  rcases List.mem_append.mp (h.2.mem_iff.mp hx) with h1 | h1
  · exact Or.inl ⟨h1, h.1.mem_iff.mp (List.mem_append_left _ h1)⟩
  · obtain ⟨q, hq, rfl⟩ := List.mem_map.mp h1
    exact Or.inr ⟨q, hq, h.1.mem_iff.mp (List.mem_append_left _ hq), rfl⟩

theorem served_nodup {inst : Instance} (hw : WellFormed inst) {routes : List Route}
    {P unv : List Int} (h : Served inst routes P unv) : routes.flatten.Nodup := by
  have hnd0 : (initial_unvisited inst).Nodup :=
    (initial_unvisited_sorted inst).imp (fun h => ne_of_lt h)
  have hPsub : ∀ pk ∈ P, pk ∈ initial_unvisited inst :=
    fun pk hp => h.1.mem_iff.mp (List.mem_append_left _ hp)
  have hndP : P.Nodup := (List.nodup_append.mp (h.1.nodup_iff.mpr hnd0)).1
  refine h.2.nodup_iff.mpr (List.Nodup.append hndP ?_ ?_)
  · exact List.Nodup.map_on
      (fun x hx y hy he => well_formed_delivery_inj hw x y (hPsub x hx) (hPsub y hy) he) hndP
  · intro x hx hx'
    obtain ⟨q, hq, rfl⟩ := List.mem_map.mp hx'
    exact well_formed_delivery_not_pickup hw q (hPsub q hq) (hPsub _ hx)

theorem served_depot_not_mem {inst : Instance} (hw : WellFormed inst)
    (hd : (inst.node 0).demand = 0) {routes : List Route} {P unv : List Int}
    (h : Served inst routes P unv) : (0 : Int) ∉ routes.flatten := by
  intro h0
  rcases served_mem_cases h 0 h0 with ⟨_, h1⟩ | ⟨q, _, hq, he⟩
  · have := (well_formed_pickup hw 0 h1).1
    simp only [Node.is_pickup, decide_eq_true_eq] at this
    omega
  · have := (well_formed_pickup hw q hq).2.1
    rw [← he] at this
    simp only [Node.is_delivery, decide_eq_true_eq] at this
    omega

theorem route_arcs_cons (r0 : Int) (rest : Route) :
    route_arcs (r0 :: rest)
      = (0 :: r0 :: rest).zip (r0 :: rest) ++ [((r0 :: rest).getLastD 0, 0)] := by
  unfold route_arcs
  simp only [List.isEmpty_cons, Bool.false_eq_true, if_false]
  rw [zip_cons_snoc]
  simp

theorem count_route_arcs_le (a b : Int) (r : Route) (h0 : (0 : Int) ∉ r) :
    (route_arcs r).count (a, b) ≤ r.count (if b = 0 then a else b) := by
  cases r with
  | nil => simp [route_arcs]
  | cons r0 rest =>
    rw [route_arcs_cons, List.count_append]
    have h1 : ((0 :: r0 :: rest).zip (r0 :: rest)).count (a, b) ≤ (r0 :: rest).count b := by
      have := List.count_le_count_map ((0 :: r0 :: rest).zip (r0 :: rest)) Prod.snd (a, b)
      rwa [List.map_snd_zip _ _ (by simp)] at this
    by_cases hb : b = 0
    · subst hb
      have h2 : (r0 :: rest).count 0 = 0 := List.count_eq_zero.mpr h0
      have h3 : ([((r0 :: rest).getLastD 0, (0 : Int))]).count (a, 0) ≤ (r0 :: rest).count a := by
        by_cases hl : (r0 :: rest).getLastD 0 = a
        · have hm : a ∈ r0 :: rest := by
            rw [← hl, List.getLastD_eq_getLast?,
              List.getLast?_eq_getLast _ (List.cons_ne_nil r0 rest)]
            exact List.getLast_mem _
          have := List.one_le_count_iff.mpr hm
          have hle := List.count_le_length (a, (0 : Int)) [((r0 :: rest).getLastD 0, (0 : Int))]
          simp only [List.length_singleton] at hle
          omega
        · have : ([((r0 :: rest).getLastD 0, (0 : Int))]).count (a, 0) = 0 := by
            rw [List.count_eq_zero]
            simp only [List.mem_singleton, Prod.mk.injEq, and_true]
            exact fun h => hl h.symm
          omega
      simp only [if_true]
      omega
    · have h3 : ([((r0 :: rest).getLastD 0, (0 : Int))]).count (a, b) = 0 := by
        rw [List.count_eq_zero]
        simp only [List.mem_singleton, Prod.mk.injEq, not_and]
        exact fun _ h => hb h
      simp only [hb, if_false]
      omega

theorem count_solution_arcs_le (a b : Int) (routes : List Route)
    (h0 : (0 : Int) ∉ routes.flatten) :
    (solution_arcs routes).count (a, b) ≤ routes.flatten.count (if b = 0 then a else b) := by
  induction routes with
  | nil => simp [solution_arcs]
  | cons r routes ih =>
    have h1 : (0 : Int) ∉ r := fun h => h0 (by simp [h])
    have h2 : (0 : Int) ∉ routes.flatten := fun h => h0 (by simp [h])
    have := count_route_arcs_le a b r h1
    have := ih h2
    simp only [solution_arcs, List.flatMap_cons, List.count_append, List.flatten_cons] at *
    omega

theorem square_mat_set (n : Nat) (m : Pheromone) (i j : Int) (x : ℚ) (h : Square n m) :
    Square n (mat_set m i j x) := by
  obtain ⟨h1, h2⟩ := h
  unfold mat_set
  refine ⟨by rw [vec_set_len, h1], ?_⟩
  intro row hrow
  unfold vec_set at hrow
  by_cases hi : i < 0
  · rw [if_pos hi] at hrow
    exact h2 row hrow
  · rw [if_neg hi] at hrow
    by_cases hl : i.toNat < m.length
    · rcases List.mem_or_eq_of_mem_set hrow with h | h
      · exact h2 row h
      · rw [h]
        have hx : vec_get m i [] ∈ m := by
          unfold vec_get
          rw [if_neg hi, List.getD_eq_getElem _ _ hl]
          exact List.getElem_mem _
        by_cases hj : j < 0
        · rw [if_pos hj]; exact h2 _ hx
        · rw [if_neg hj, List.length_set]; exact h2 _ hx
    · rw [List.set_eq_of_length_le (by omega)] at hrow
      exact h2 row hrow

theorem square_foldl_add (n : Nat) (delta : ℚ) (arcs : List (Int × Int)) :
    ∀ m : Pheromone, Square n m →
      Square n (arcs.foldl (fun m ab => mat_add m ab.1 ab.2 delta) m) := by
  induction arcs with
  | nil => intro m h; exact h
  | cons ab arcs ih =>
    intro m h
    exact ih _ (square_mat_set n m _ _ _ h)

theorem square_initialized (inst : Instance) (old : Pheromone) :
    Square inst.size (initialize_pheromone inst old) := by
  unfold initialize_pheromone
  rw [foldl_deposit_eq]
  exact square_foldl_add _ _ _ _ (square_replicate _ _)

/-- Counterexample to C12, on the one-pair instance after `initialize_pheromone`: with
`rho = 2` one call of `update_pheromone` on the empty batch leaves the entry `(1, 1)`
negative; and with the default `rho` one call on a batch whose solution has the
`total_cost` −2 leaves the entry `(1, 2)` negative. -/
theorem pheromone_can_go_negative :
    mat_get (update_pheromone inst1 { default_params with rho := 2 } []
      (initialize_pheromone inst1 [])) 1 1 < 0
    ∧ mat_get (update_pheromone inst1 default_params
        [{ routes := [[1, 2]], total_cost := -2, used_routes := 1 }]
        (initialize_pheromone inst1 [])) 1 2 < 0 := by
  have e1 : (((1 : Nat) : Int)) = 1 := rfl
  have e2 : (((2 : Nat) : Int)) = 2 := rfl
  constructor
  · have h1 := mat_get_initialized inst1 [] 1 1 (by decide) (by decide)
    have h2 := mat_get_update inst1 { default_params with rho := 2 } []
      (initialize_pheromone inst1 []) 1 1 (by decide) (by decide) h1.2
    have h3 : (solution_arcs (pure_greedy_insertion inst1 3)).count
        (((1 : Nat) : Int), ((1 : Nat) : Int)) = 0 := by decide
    have h4 : reinforcement { default_params with rho := 2 } []
        ((1 : Nat) : Int) ((1 : Nat) : Int) = 0 := by
      simp [reinforcement]
    rw [h4, h1.1, h3, e1] at h2
    rw [h2]
    norm_num
  · have h1 := mat_get_initialized inst1 [] 1 2 (by decide) (by decide)
    have h2 := mat_get_update inst1 default_params
      [{ routes := [[1, 2]], total_cost := -2, used_routes := 1 }]
      (initialize_pheromone inst1 []) 1 2 (by decide) (by decide) h1.2
    have h3 : (solution_arcs (pure_greedy_insertion inst1 3)).count
        (((1 : Nat) : Int), ((2 : Nat) : Int)) = 1 := by decide
    have h4 : reinforcement default_params
        [{ routes := [[1, 2]], total_cost := -2, used_routes := 1 }]
        ((1 : Nat) : Int) ((2 : Nat) : Int) = -10 := by
      have hc : (solution_arcs [[1, 2]]).count (((1 : Nat) : Int), ((2 : Nat) : Int)) = 1 := by
        decide
      have ht : (min default_params.elite_solutions
          ([{ routes := [[1, 2]], total_cost := -2, used_routes := 1 }] :
            List HybridSolution).length).toNat = 1 := by decide
      unfold reinforcement
      rw [ht]
      simp only [List.take_succ_cons, List.take_zero, List.map_cons, List.map_nil,
        List.sum_cons, List.sum_nil, hc]
      norm_num
    have h6 : default_params.rho = 1 / 10 := by
      simp [default_params, Rat.mkRat_eq_div]
    rw [h4, h1.1, h3, h6, e1, e2] at h2
    rw [h2]
    norm_num

/-- C12, amended: when `rho ≤ 1` and every solution of every batch has a non-negative
`total_cost`, no entry of the matrix is negative in any state reachable by
`initialize_pheromone` followed by any number of calls of `update_pheromone`. -/
theorem pheromone_nonneg (inst : Instance) (params : HybridParams) (m : Pheromone)
    (hrho : params.rho ≤ 1)
    (hreach : PheromoneReach inst params (fun s => 0 ≤ s.total_cost) m) :
    ∀ i j : Nat, i < inst.size → j < inst.size → 0 ≤ mat_get m i j := by
  have key : ∀ i j : Nat, i < inst.size → j < inst.size →
      InBounds m i j ∧ 0 ≤ mat_get m i j := by
    induction hreach with
    | init old =>
      intro i j hi hj
      obtain ⟨h1, h2⟩ := mat_get_initialized inst old i j hi hj
      refine ⟨h2, ?_⟩
      rw [h1]
      positivity
    | @update m batch _ hok ih =>
      intro i j hi hj
      obtain ⟨hb, hn⟩ := ih i j hi hj
      refine ⟨inBounds_update inst params batch m i j hb, ?_⟩
      rw [mat_get_update inst params batch m i j hi hj hb]
      have h1 : 0 ≤ (1 - params.rho) * mat_get m i j :=
        mul_nonneg (by linarith) hn
      have h2 : 0 ≤ reinforcement params batch i j := by
        unfold reinforcement
        apply List.sum_nonneg
        intro x hx
        obtain ⟨s, hs, rfl⟩ := List.mem_map.mp hx
        have hc : (0 : ℚ) ≤ (s.total_cost : ℚ) := by
          exact_mod_cast hok s (List.mem_of_mem_take hs)
        positivity
      linarith
  intro i j hi hj
  exact (key i j hi hj).2

/-- Witness of the amended C12: the initial matrix of the one-pair instance under the
default parameters. -/
theorem pheromone_nonneg_witness :
    default_params.rho ≤ 1
    ∧ 0 ≤ mat_get (initialize_pheromone inst1 []) ((1 : Nat) : Int) ((2 : Nat) : Int) :=
  ⟨by decide,
    pheromone_nonneg inst1 default_params (initialize_pheromone inst1 []) (by decide)
      (PheromoneReach.init []) 1 2 (by decide) (by decide)⟩

/-- C20: after `initialize_pheromone` every entry `(i, j)` of the matrix equals 1 plus 2
times the number of occurrences of the arc `(i, j)` among the arcs of the routes of
`pure_greedy_insertion(3)`; the result depends neither on the previous contents of the
matrix nor on the route count of the call of `hybrid_aco_solve` that makes it; and for a
well-formed instance whose node 0 has demand 0 every entry is 1 or 3. -/
theorem initialize_pheromone_spec (inst : Instance) :
    (∀ (old : Pheromone) (i j : Nat), i < inst.size → j < inst.size →
        InBounds (initialize_pheromone inst old) i j
        ∧ mat_get (initialize_pheromone inst old) i j
          = 1 + 2 * ((solution_arcs (pure_greedy_insertion inst 3)).count
              ((i : Int), (j : Int)) : ℚ))
    ∧ Square inst.size (initialize_pheromone inst [])
    ∧ (∀ old old' : Pheromone, initialize_pheromone inst old = initialize_pheromone inst old')
    ∧ (∀ (params : HybridParams) (draws : SolveDraws) (num_routes : Nat) (old : Pheromone),
        hybrid_aco_solve_state inst params draws num_routes old
          = aco_iterations_state inst params draws num_routes params.max_iterations.toNat 0
              (initial_solution inst num_routes) 0 (initialize_pheromone inst []))
    ∧ (WellFormed inst → (inst.node 0).demand = 0 →
        ∀ (old : Pheromone) (i j : Nat), i < inst.size → j < inst.size →
          mat_get (initialize_pheromone inst old) i j = 1
            ∨ mat_get (initialize_pheromone inst old) i j = 3) := by
  refine ⟨fun old i j hi hj => ⟨(mat_get_initialized inst old i j hi hj).2,
    (mat_get_initialized inst old i j hi hj).1⟩, ?_, fun _ _ => rfl, fun _ _ _ _ => rfl, ?_⟩
  · exact square_initialized inst []
  · intro hw hd old i j hi hj
    rw [(mat_get_initialized inst old i j hi hj).1]
    obtain ⟨_, P, unv, hs⟩ := greedy_served inst 3
    have h0 := served_depot_not_mem hw hd hs
    have hnd := served_nodup hw hs
    have h1 := count_solution_arcs_le (i : Int) (j : Int) _ h0
    have h2 := List.nodup_iff_count_le_one.mp hnd (if (j : Int) = 0 then (i : Int) else (j : Int))
    have h3 : (solution_arcs (pure_greedy_insertion inst 3)).count ((i : Int), (j : Int)) = 0
        ∨ (solution_arcs (pure_greedy_insertion inst 3)).count ((i : Int), (j : Int)) = 1 := by
      omega
    rcases h3 with h3 | h3
    · left; rw [h3]; norm_num
    · right; rw [h3]; norm_num

/-! ## Theorems on the escalation loop -/

theorem total_nodes_visited_eq (s : HybridSolution) :
    total_nodes_visited s = s.routes.flatten.length := by
  unfold total_nodes_visited
  have : ∀ (l : List Route) (acc : Nat),
      l.foldl (fun total route => total + route.length) acc = acc + l.flatten.length := by
    intro l
    induction l with
    | nil => intro acc; simp
    | cons a l ih => intro acc; rw [List.foldl_cons, ih]; simp; omega
  rw [this]; simp

theorem solve_loop_terminates (inst : Instance) (params : HybridParams)
    (draws : Nat → SolveDraws) :
    ∀ (fuel c : Nat) (b : HybridSolution) (att : List Nat),
      (pickup_nodes inst).length * 2 + 1 - c ≤ fuel →
      ∃ r, solve_loop inst params draws fuel c b att = some r := by
  intro fuel
  induction fuel with
  | zero =>
    intro c b att h
    have : ¬ c ≤ (pickup_nodes inst).length * 2 := by omega
    exact ⟨⟨b, false, c, att⟩, by simp [solve_loop, this]⟩
  | succ fuel ih =>
    intro c b att h
    simp only [solve_loop]
    split
    · split
      · exact ⟨_, rfl⟩
      · exact ih _ _ _ (by omega)
    · exact ⟨_, rfl⟩

/-- What the escalation loop returns, from a state with route count `c`. -/
theorem solve_loop_spec (inst : Instance) (params : HybridParams) (draws : Nat → SolveDraws) :
    ∀ (fuel c : Nat) (b : HybridSolution) (att : List Nat) (r : SolveResult),
      solve_loop inst params draws fuel c b att = some r →
      (∃ k, r.attempts = att ++ List.range' c k
          ∧ (∀ x ∈ (List.range' c k).dropLast,
              total_nodes_visited (hybrid_aco_solve inst params (draws x) x) / 2
                ≠ (pickup_nodes inst).length)
          ∧ (k = 0 → r.best_solution = b)
          ∧ (0 < k → r.best_solution
              = hybrid_aco_solve inst params (draws (c + k - 1)) (c + k - 1))
          ∧ (r.all_pairs_served = true →
              0 < k ∧ r.current_routes = c + k - 1
                ∧ r.current_routes ≤ (pickup_nodes inst).length * 2
                ∧ total_nodes_visited r.best_solution / 2 = (pickup_nodes inst).length)
          ∧ (r.all_pairs_served = false →
              r.current_routes = c + k
                ∧ c + k = max c ((pickup_nodes inst).length * 2 + 1)
                ∧ ∀ x ∈ List.range' c k,
                    total_nodes_visited (hybrid_aco_solve inst params (draws x) x) / 2
                      ≠ (pickup_nodes inst).length)) := by
  intro fuel
  induction fuel with
  | zero =>
    intro c b att r h
    simp only [solve_loop] at h
    split at h
    · cases h
    · rename_i hc
      simp only [Option.some.injEq] at h
      subst h
      refine ⟨0, by simp, by simp, fun _ => rfl, fun h => absurd h (by omega),
        (fun h => by cases h), fun _ => ⟨rfl, by omega, by simp⟩⟩
  | succ fuel ih =>
    intro c b att r h
    simp only [solve_loop] at h
    split at h
    · rename_i hc
      split at h
      · rename_i hserved
        simp only [Option.some.injEq] at h
        subst h
        refine ⟨1, by simp, by simp, fun h => absurd h (by omega), fun _ => by simp,
          fun _ => ⟨by omega, by simp, hc, hserved⟩, (fun h => by cases h)⟩
      · rename_i hserved
        obtain ⟨k, h1, h2, h3, h4, h5, h6⟩ := ih _ _ _ r h
        refine ⟨k + 1, ?_, ?_, fun h => absurd h (by omega), ?_, ?_, ?_⟩
        · rw [h1, List.range'_succ, List.append_assoc]; rfl
        · intro x hx
          rw [List.range'_succ] at hx
          cases k with
          | zero => simp at hx
          | succ k =>
            rw [List.range'_succ, List.dropLast_cons₂] at hx
            rcases List.mem_cons.mp hx with rfl | hx
            · exact hserved
            · exact h2 x (by rw [List.range'_succ]; exact hx)
        · intro _
          rcases Nat.eq_zero_or_pos k with hk | hk
          · subst hk
            rw [h3 rfl]; simp
          · rw [h4 hk]
            have : c + 1 + k - 1 = c + (k + 1) - 1 := by omega
            rw [this]
        · intro ha
          obtain ⟨h7, h8, h9, h10⟩ := h5 ha
          exact ⟨by omega, by omega, h9, h10⟩
        · intro ha
          obtain ⟨h7, h8, h9⟩ := h6 ha
          refine ⟨by omega, by omega, ?_⟩
          intro x hx
          rw [List.range'_succ] at hx
          rcases List.mem_cons.mp hx with rfl | hx
          · exact hserved
          · exact h9 x hx
    · rename_i hc
      simp only [Option.some.injEq] at h
      subst h
      refine ⟨0, by simp, by simp, fun _ => rfl, fun h => absurd h (by omega),
        (fun h => by cases h), fun _ => ⟨rfl, by omega, by simp⟩⟩

theorem solve_escalation_run (inst : Instance) (params : HybridParams)
    (draws : Nat → SolveDraws) (n : Nat) :
    solve_loop inst params draws ((pickup_nodes inst).length * 2 + 1 - n) n
      (HybridSolution.new n) [] = some (solve_escalation inst params draws n) := by
  obtain ⟨r, hr⟩ := solve_loop_terminates inst params draws _ n (HybridSolution.new n) []
    le_rfl
  unfold solve_escalation
  rw [hr]

theorem placed_start (inst : Instance) (n : Nat) :
    PlacedInv inst n (List.replicate n []) (initial_unvisited inst) :=
  greedy_reach_placed GreedyReach.start

theorem placed_closed (inst : Instance) (n : Nat) :
    InsertionClosed inst (fun routes unv => routes.length = n ∧ PlacedInv inst n routes unv) := by
  intro routes unv pk r p d hP hpk hr hpd hd _
  obtain ⟨hlen, placed, hb, hp⟩ := hP
  refine ⟨by simpa [commit_insertion] using hlen, ?_⟩
  refine ⟨fun r' => if r' = r then pk :: placed r' else placed r', fun r' => ?_, ?_⟩
  · unfold commit_insertion
    rw [getD_set_routes]
    by_cases hrr : r' = r
    · subst hrr
      simp only [true_and, hr, if_true]
      exact Built.ins _ _ _ (hb _) hpd hd
    · have : ¬ (r = r' ∧ r < routes.length) := fun h => hrr h.1.symm
      simp only [this, hrr, if_false]
      exact hb r'
  · have h1 := flatMap_update_perm (List.range n) placed r pk
      (List.nodup_range n) (List.mem_range.mpr (hlen ▸ hr))
    have h2 : unv.Perm (pk :: set_erase unv pk) := List.perm_cons_erase hpk
    refine (List.Perm.append_right _ h1).trans ?_
    refine List.Perm.trans ?_ hp
    simp only [List.cons_append]
    exact List.perm_middle.symm.trans (List.Perm.append_left _ h2.symm)

theorem insertionClosed_and (inst : Instance) (P Q : List Route → List Int → Prop)
    (hP : InsertionClosed inst P) (hQ : InsertionClosed inst Q) :
    InsertionClosed inst (fun routes unv => P routes unv ∧ Q routes unv) :=
  fun routes unv pk r p d h hpk hr hpd hd hf =>
    ⟨hP routes unv pk r p d h.1 hpk hr hpd hd hf, hQ routes unv pk r p d h.2 hpk hr hpd hd hf⟩

theorem greedy_reach_closed (inst : Instance) (n : Nat) (P : List Route → List Int → Prop)
    (hc : InsertionClosed inst P) (h0 : P (List.replicate n []) (initial_unvisited inst))
    {routes : List Route} {unv : List Int} (h : GreedyReach inst n routes unv) :
    P routes unv := by
  induction h with
  | start => exact h0
  | @step routes unv b hreach hscan ih =>
    have hsome := greedy_scan_some inst n routes unv (greedy_reach_sorted hreach) b hscan
    obtain ⟨hpk, hr, hpd, hd, hbeq⟩ := (mem_greedy_candidates inst n routes unv b).mp hsome.1
    have hdl : b.delivery_id = (inst.node b.pickup_id).delivery_pair := by rw [hbeq]; rfl
    have hf := hsome.2.1
    unfold GreedyInsertion.feasible at hf
    rw [hdl] at hf ⊢
    exact hc routes unv b.pickup_id b.route_idx b.pickup_pos b.delivery_pos ih hpk
      (by rw [greedy_reach_length hreach]; exact hr) hpd hd hf

theorem ant_loop_closed (inst : Instance) (params : HybridParams) (draws : AntDraws)
    (P : List Route → List Int → Prop) (hc : InsertionClosed inst P) :
    ∀ (fuel step : Nat) (routes : List Route) (unv : List Int) (res : List Route × List Int),
      P routes unv → ant_loop inst params draws fuel step routes unv = some res →
      P res.1 res.2 := by
  intro fuel
  induction fuel with
  | zero =>
    intro step routes unv res hP h
    cases unv with
    | nil =>
      simp only [ant_loop, Option.some.injEq] at h
      subst h; exact hP
    | cons p ps => simp [ant_loop] at h
  | succ fuel ih =>
    intro step routes unv res hP h
    cases unv with
    | nil =>
      simp only [ant_loop, Option.some.injEq] at h
      subst h; exact hP
    | cons p ps =>
      simp only [ant_loop] at h
      split at h
      · simp only [Option.some.injEq] at h
        subst h; exact hP
      · rename_i hsel
        split at h
        · rename_i r pp dp hfb
          obtain ⟨h1, h2, h3, h4⟩ := find_best_insertion_some inst routes _ _ r pp dp hfb
          have hmem : ant_select inst params draws step routes (p :: ps) ∈ p :: ps := by
            rcases ant_select_mem inst params draws step routes (p :: ps) (by simp) with h' | h'
            · exact absurd h' hsel
            · exact h'
          exact ih _ _ _ res (hc routes (p :: ps) _ r pp dp hP hmem h1 h2 h3 h4) h
        · simp only [Option.some.injEq] at h
          subst h; exact hP

/-- Every property kept by committed insertions holds of the final state of the greedy
constructor. -/
theorem greedy_final_closed (inst : Instance) (n : Nat) (P : List Route → List Int → Prop)
    (hc : InsertionClosed inst P) (h0 : P (List.replicate n []) (initial_unvisited inst)) :
    ∃ unv, P (pure_greedy_insertion inst n) unv := by
  obtain ⟨unv, hrun⟩ := pure_greedy_insertion_run inst n
  obtain ⟨hreach, _⟩ := greedy_loop_reach inst n _ _ _ _ GreedyReach.start hrun
  exact ⟨unv, greedy_reach_closed inst n P hc h0 hreach⟩

/-- Every property kept by committed insertions holds of the final state of an ant. -/
theorem ant_final_closed (inst : Instance) (params : HybridParams) (draws : AntDraws)
    (n : Nat) (P : List Route → List Int → Prop)
    (hc : InsertionClosed inst P) (h0 : P (List.replicate n []) (initial_unvisited inst)) :
    ∃ unv, P (construct_solution inst params draws n).routes unv := by
  obtain ⟨unv, hrun⟩ := construct_solution_run inst params draws n
  exact ⟨unv, ant_loop_closed inst params draws P hc _ _ _ _ _ h0 hrun⟩

theorem placed_served {inst : Instance} {n : Nat} {routes : List Route} {unv : List Int}
    (h : routes.length = n ∧ PlacedInv inst n routes unv) :
    ∃ P, Served inst routes P unv := by
  obtain ⟨P, hP, hflat, _⟩ := placed_facts h.1 h.2
  exact ⟨P, hP, hflat⟩

theorem flatten_map_perm (f : Route → Route) (hf : ∀ r, (f r).Perm r) (routes : List Route) :
    (routes.map f).flatten.Perm routes.flatten := by
  induction routes with
  | nil => simp
  | cons r routes ih =>
    simp only [List.map_cons, List.flatten_cons]
    exact (hf r).append ih

/-- A property of the routes that the greedy constructor and every ant establish and the
local search keeps holds of the routes returned by `hybrid_aco_solve`. -/
theorem hybrid_invariant (inst : Instance) (params : HybridParams) (n : Nat)
    (Q : List Route → Prop) (hg : Q (pure_greedy_insertion inst n))
    (ha : ∀ draws : AntDraws, Q (construct_solution inst params draws n).routes)
    (hl : ∀ routes : List Route, Q routes → Q (routes.map (two_opt_route inst)))
    (draws : SolveDraws) : Q (hybrid_aco_solve inst params draws n).routes := by
  have hbatch : ∀ iter, ∀ s ∈ iteration_batch inst params draws n iter, Q s.routes := by
    intro iter s hs
    unfold iteration_batch at hs
    rw [List.mem_map] at hs
    obtain ⟨ant, _, rfl⟩ := hs
    dsimp only
    split
    · rw [local_search_2opt_routes]
      exact hl _ (ha _)
    · exact ha _
  have hiter : ∀ (remaining iter : Nat) (best : HybridSolution) (c : Int), Q best.routes →
      Q (aco_iterations inst params draws n remaining iter best c).routes := by
    intro remaining
    induction remaining with
    | zero => intro iter best c hb; exact hb
    | succ remaining ih =>
      intro iter best c hb
      have hupd : Q (update_best (sort_solutions
          (iteration_batch inst params draws n iter)) best c).1.routes := by
        rcases update_best_cases (sort_solutions (iteration_batch inst params draws n iter))
          best c with h | h
        · rw [h]; exact hb
        · exact hbatch iter _ ((sort_solutions_perm _).mem_iff.mp h)
      simp only [aco_iterations]
      split
      · exact hupd
      · exact ih _ _ _ hupd
  unfold hybrid_aco_solve
  apply hiter
  unfold initial_solution
  rw [calculate_cost_routes]
  exact hg

/-- The routes returned by `hybrid_aco_solve` are as many as asked for, all feasible, and
hold exactly the pairs of some set of placed pickups; a pickup without any feasible
insertion is not among them. -/
theorem hybrid_served (inst : Instance) (params : HybridParams) (n : Nat) (draws : SolveDraws)
    (keep : List Int → Prop)
    (hk : InsertionClosed inst (fun _ unv => keep unv)) (hk0 : keep (initial_unvisited inst)) :
    (hybrid_aco_solve inst params draws n).routes.length = n
      ∧ (∀ route ∈ (hybrid_aco_solve inst params draws n).routes,
          is_feasible_route inst route = true)
      ∧ ∃ P unv, Served inst (hybrid_aco_solve inst params draws n).routes P unv ∧ keep unv := by
  have hc := insertionClosed_and inst _ _ (placed_closed inst n) hk
  have h0 : (fun routes unv => (routes.length = n ∧ PlacedInv inst n routes unv) ∧ keep unv)
      (List.replicate n []) (initial_unvisited inst) :=
    ⟨⟨by simp, placed_start inst n⟩, hk0⟩
  apply hybrid_invariant inst params n
    (fun routes => routes.length = n
      ∧ (∀ route ∈ routes, is_feasible_route inst route = true)
      ∧ ∃ P unv, Served inst routes P unv ∧ keep unv)
  · obtain ⟨unv, h1, h2⟩ := greedy_final_closed inst n _ hc h0
    obtain ⟨P, hP⟩ := placed_served h1
    obtain ⟨unv', hrun⟩ := pure_greedy_insertion_run inst n
    exact ⟨h1.1, greedy_reach_feasible
      (greedy_loop_reach inst n _ _ _ _ GreedyReach.start hrun).1, P, unv, hP, h2⟩
  · intro adraws
    obtain ⟨unv, h1, h2⟩ := ant_final_closed inst params adraws n _ hc h0
    obtain ⟨P, hP⟩ := placed_served h1
    exact ⟨h1.1, construct_solution_feasible inst params adraws n, P, unv, hP, h2⟩
  · rintro routes ⟨h1, h2, P, unv, hs, h3⟩
    refine ⟨by simpa using h1, ?_, P, unv, ⟨hs.1, ?_⟩, h3⟩
    · intro route hr
      obtain ⟨r0, hr0, rfl⟩ := List.mem_map.mp hr
      exact (two_opt_route_spec inst r0).2.2.2.1 (h2 r0 hr0)
    · exact (flatten_map_perm _ (fun r => (two_opt_route_spec inst r).1) routes).trans hs.2

theorem trivial_closed (inst : Instance) : InsertionClosed inst (fun _ _ => True) :=
  fun _ _ _ _ _ _ _ _ _ _ _ _ => trivial

theorem served_total {inst : Instance} {routes : List Route} {P unv : List Int}
    (h : Served inst routes P unv) :
    routes.flatten.length = 2 * P.length
      ∧ P.length + unv.length = (initial_unvisited inst).length := by
  have h1 := h.2.length_eq
  have h2 := h.1.length_eq
  simp only [List.length_append, List.length_map] at h1 h2
  exact ⟨by omega, h2⟩

theorem feasible_loop_demand_le (inst : Instance) :
    ∀ (rest : Route) (prev t load : Int) (vis : List Bool), 0 ≤ load →
      feasible_loop inst rest prev t load vis = true →
      ∀ x ∈ rest, (inst.node x).demand ≤ inst.capacity := by
  intro rest
  induction rest with
  | nil => intro _ _ _ _ _ _ x hx; cases hx
  | cons a rest ih =>
    intro prev t load vis hl h x hx
    simp only [feasible_loop] at h
    split at h
    · cases h
    · split at h
      · cases h
      · split at h
        · cases h
        · rename_i hload
          simp only [Bool.or_eq_true, decide_eq_true_eq, not_or, not_lt] at hload
          rcases List.mem_cons.mp hx with rfl | hx
          · omega
          · exact ih _ _ _ _ (by omega) h x hx

/-- A route that holds a node asking for more than the capacity is not feasible. -/
theorem infeasible_of_overload (inst : Instance) (route : Route) (x : Int) (hx : x ∈ route)
    (hd : inst.capacity < (inst.node x).demand) : is_feasible_route inst route = false := by
  cases hf : is_feasible_route inst route with
  | false => rfl
  | true =>
    unfold is_feasible_route at hf
    cases route with
    | nil => cases hx
    | cons a rest =>
      simp only [List.isEmpty_cons, Bool.false_eq_true, if_false] at hf
      have := feasible_loop_demand_le inst _ _ _ _ _ le_rfl hf x hx
      omega

theorem mem_insert_pair (route : Route) (pk dl : Int) (p d : Nat) :
    pk ∈ insert_pair route pk dl p d :=
  (insert_pair_perm route pk dl p d).mem_iff.mpr (by simp)

/-- C13: whenever the escalation loop of `solve` reports full coverage, the sum of the
lengths of all routes of the returned solution is exactly twice `required_pairs`, for every
instance, starting route count and random draws. -/
theorem full_coverage_total_exact (inst : Instance) (params : HybridParams)
    (draws : Nat → SolveDraws) (num_routes : Nat) :
    (solve_escalation inst params draws num_routes).all_pairs_served = true →
      total_nodes_visited (solve_escalation inst params draws num_routes).best_solution
          = 2 * (pickup_nodes inst).length
        ∧ ((solve_escalation inst params draws num_routes).best_solution.routes.map
            List.length).sum = 2 * (pickup_nodes inst).length := by
  intro hserved
  obtain ⟨k, _, _, _, h4, h5, _⟩ :=
    solve_loop_spec inst params draws _ _ _ _ _ (solve_escalation_run inst params draws num_routes)
  obtain ⟨hk, _, _, htot⟩ := h5 hserved
  have hbest := h4 hk
  obtain ⟨_, _, P, unv, hs, _⟩ := hybrid_served inst params (num_routes + k - 1)
    (draws (num_routes + k - 1)) (fun _ => True) (trivial_closed inst) trivial
  rw [← hbest] at hs
  have heven := (served_total hs).1
  rw [← total_nodes_visited_eq] at heven
  have h1 : total_nodes_visited (solve_escalation inst params draws num_routes).best_solution
      = 2 * (pickup_nodes inst).length := by omega
  refine ⟨h1, ?_⟩
  rw [← List.length_flatten, ← total_nodes_visited_eq]
  exact h1

/-- Witness of C13: the one-pair instance started with one route, one ant and one
iteration reports full coverage. -/
theorem full_coverage_total_exact_witness :
    (solve_escalation inst1 { default_params with num_ants := 1, max_iterations := 1 }
        (fun _ => greedy_draws) 1).all_pairs_served = true
    ∧ total_nodes_visited (solve_escalation inst1
        { default_params with num_ants := 1, max_iterations := 1 }
        (fun _ => greedy_draws) 1).best_solution = 2 * (pickup_nodes inst1).length :=
  ⟨by decide,
    (full_coverage_total_exact inst1 { default_params with num_ants := 1, max_iterations := 1 }
      (fun _ => greedy_draws) 1 (by decide)).1⟩

/-- Above twice the number of pairs the escalation loop of `solve` makes no attempt. -/
theorem solve_escalation_above_bound (inst : Instance) (params : HybridParams)
    (draws : Nat → SolveDraws) (num_routes : Nat)
    (h : (pickup_nodes inst).length * 2 < num_routes) :
    solve_escalation inst params draws num_routes
      = ⟨HybridSolution.new num_routes, false, num_routes, []⟩ := by
  unfold solve_escalation
  have h0 : (pickup_nodes inst).length * 2 + 1 - num_routes = 0 := by omega
  have h1 : ¬ num_routes ≤ (pickup_nodes inst).length * 2 := by omega
  rw [h0]
  simp only [solve_loop, h1, if_false]

/-- C14 on the code: for the one-pair instance and the default starting route count 3 the
escalation loop of `solve` does not execute its body, since 3 exceeds twice the number of
pairs: for all parameters and draws no attempt is made and the solution returned has three
empty routes, where the claim asks for the route 1, 2. Started with one route, the
one-pair instance is solved by the route 1, 2 of cost 12. -/
theorem one_pair_default_start_returns_nothing :
    (∀ (params : HybridParams) (draws : Nat → SolveDraws),
        solve_escalation inst1 params draws 3
          = ⟨{ routes := [[], [], []], total_cost := 0, used_routes := 0 }, false, 3, []⟩)
    ∧ (solve_escalation inst1 { default_params with num_ants := 1, max_iterations := 1 }
          (fun _ => greedy_draws) 1).best_solution
        = { routes := [[1, 2]], total_cost := 12, used_routes := 1 } :=
  ⟨fun params draws => solve_escalation_above_bound inst1 params draws 3 (by decide), by decide⟩

theorem flatten_filter_nonempty (routes : List Route) :
    routes.flatten = (routes.filter (fun r => !r.isEmpty)).flatten := by
  induction routes with
  | nil => rfl
  | cons r routes ih =>
    cases r with
    | nil => simpa using ih
    | cons a r => simp [List.filter_cons, ih]

/-- C16: for an instance with exactly two pairs of which no route holding all four nodes
passes `is_feasible_route`, and a starting route count of 1, for all random draws: the
attempt with one route does not report full coverage, and a run of the escalation loop
that reports full coverage does so at a route count of at least 2 with at least two
non-empty routes in the returned solution. -/
theorem two_pairs_need_two_routes (inst : Instance)
    (h2 : (pickup_nodes inst).length = 2)
    (H : ∀ route ∈ (initial_unvisited inst
        ++ (initial_unvisited inst).map (fun pk => (inst.node pk).delivery_pair)).permutations',
      is_feasible_route inst route = false)
    (params : HybridParams) (draws : Nat → SolveDraws) :
    total_nodes_visited (hybrid_aco_solve inst params (draws 1) 1) / 2
        ≠ (pickup_nodes inst).length
    ∧ ((solve_escalation inst params draws 1).all_pairs_served = true →
        2 ≤ (solve_escalation inst params draws 1).current_routes
        ∧ 2 ≤ ((solve_escalation inst params draws 1).best_solution.routes.filter
            (fun r => !r.isEmpty)).length) := by
  have key : ∀ (sdraws : SolveDraws) (n : Nat),
      total_nodes_visited (hybrid_aco_solve inst params sdraws n) / 2
          = (pickup_nodes inst).length →
      2 ≤ ((hybrid_aco_solve inst params sdraws n).routes.filter (fun r => !r.isEmpty)).length := by
    intro sdraws n htot
    obtain ⟨_, hfeas, P, unv, hs, _⟩ :=
      hybrid_served inst params n sdraws (fun _ => True) (trivial_closed inst) trivial
    have h1 := served_total hs
    have h3 := initial_unvisited_length inst
    rw [total_nodes_visited_eq] at htot
    have hunv : unv = [] := List.eq_nil_of_length_eq_zero (by omega)
    subst hunv
    have hP : P.Perm (initial_unvisited inst) := by simpa using hs.1
    have hflat : (hybrid_aco_solve inst params sdraws n).routes.flatten.Perm
        (initial_unvisited inst
          ++ (initial_unvisited inst).map (fun pk => (inst.node pk).delivery_pair)) :=
      hs.2.trans (hP.append (hP.map _))
    by_contra hlt
    have hle : ((hybrid_aco_solve inst params sdraws n).routes.filter
        (fun r => !r.isEmpty)).length ≤ 1 := by omega
    have hfl := flatten_filter_nonempty (hybrid_aco_solve inst params sdraws n).routes
    cases hfilt : (hybrid_aco_solve inst params sdraws n).routes.filter (fun r => !r.isEmpty) with
    | nil =>
      rw [hfilt] at hfl
      have hlen0 : (hybrid_aco_solve inst params sdraws n).routes.flatten.length = 0 := by
        rw [hfl]; rfl
      omega
    | cons r rest =>
      rw [hfilt] at hle
      have hrest : rest = [] := List.eq_nil_of_length_eq_zero (by simpa using hle)
      subst hrest
      rw [hfilt] at hfl
      simp only [List.flatten_cons, List.flatten_nil, List.append_nil] at hfl
      have hr : r ∈ (hybrid_aco_solve inst params sdraws n).routes :=
        (List.mem_filter.mp (hfilt ▸ List.mem_singleton.mpr rfl)).1
      have hbad := H r (List.mem_permutations'.mpr (hfl ▸ hflat))
      rw [hfeas r hr] at hbad
      cases hbad
  have hone : total_nodes_visited (hybrid_aco_solve inst params (draws 1) 1) / 2
      ≠ (pickup_nodes inst).length := by
    intro htot
    have := key (draws 1) 1 htot
    obtain ⟨hlen, _⟩ :=
      hybrid_served inst params 1 (draws 1) (fun _ => True) (trivial_closed inst) trivial
    have hle := List.length_filter_le (fun r : Route => !r.isEmpty)
      (hybrid_aco_solve inst params (draws 1) 1).routes
    omega
  obtain ⟨k, h1, hfail, h3, h4, h5, h6⟩ :=
    solve_loop_spec inst params draws _ _ _ _ _ (solve_escalation_run inst params draws 1)
  have hcur : (solve_escalation inst params draws 1).all_pairs_served = true →
      2 ≤ (solve_escalation inst params draws 1).current_routes := by
    intro hb
    obtain ⟨hk0, hc, _, htot⟩ := h5 hb
    by_contra hlt
    have hk1 : k = 1 := by omega
    subst hk1
    rw [h4 hk0] at htot
    exact hone htot
  refine ⟨hone, fun hb => ⟨hcur hb, ?_⟩⟩
  obtain ⟨hk0, _, _, htot⟩ := h5 hb
  rw [h4 hk0] at htot ⊢
  exact key _ _ htot

/-- Witness of C16: the two pairs whose pickups both close at time 5. -/
theorem two_pairs_need_two_routes_witness :
    (pickup_nodes inst_split).length = 2
    ∧ total_nodes_visited (hybrid_aco_solve inst_split default_params greedy_draws 1) / 2
        ≠ (pickup_nodes inst_split).length :=
  ⟨by decide,
    (two_pairs_need_two_routes inst_split (by decide) (by decide) default_params
      (fun _ => greedy_draws)).1⟩

/-! ## Best-solution bookkeeping and the 2-opt move -/

theorem solution_lt_iff (a b : HybridSolution) :
    HybridSolution.lt a b = true ↔
      (a.used_routes < b.used_routes
        ∨ (a.used_routes = b.used_routes ∧ a.total_cost < b.total_cost)) := by
  unfold HybridSolution.lt
  by_cases h : a.used_routes = b.used_routes
  · simp [h]
  · simp only [ne_eq, h, not_false_eq_true, if_true, decide_eq_true_eq]
    constructor
    · intro h'; exact Or.inl h'
    · rintro (h' | h')
      · exact h'
      · exact absurd (by simpa using h'.1) h

theorem solution_not_lt_iff (a b : HybridSolution) :
    HybridSolution.lt a b = false ↔
      ¬ (a.used_routes < b.used_routes
        ∨ (a.used_routes = b.used_routes ∧ a.total_cost < b.total_cost)) := by
  rw [← solution_lt_iff, Bool.not_eq_true]

theorem solution_le_trans (a b c : HybridSolution) (h1 : HybridSolution.lt b a = false)
    (h2 : HybridSolution.lt c b = false) : HybridSolution.lt c a = false := by
  rw [solution_not_lt_iff] at *
  omega

theorem solution_le_total (a b : HybridSolution) :
    HybridSolution.lt b a = false ∨ HybridSolution.lt a b = false := by
  rw [solution_not_lt_iff, solution_not_lt_iff]
  omega

theorem solution_lt_irrefl (a : HybridSolution) : HybridSolution.lt a a = false := by
  rw [solution_not_lt_iff]; omega

theorem sort_solutions_head_min (l : List HybridSolution) (s0 : HybridSolution)
    (rest : List HybridSolution) (h : sort_solutions l = s0 :: rest) :
    s0 ∈ l ∧ ∀ s ∈ l, HybridSolution.lt s s0 = false := by
  haveI : IsTotal HybridSolution (fun a b => HybridSolution.lt b a = false) :=
    ⟨fun a b => solution_le_total a b⟩
  haveI : IsTrans HybridSolution (fun a b => HybridSolution.lt b a = false) :=
    ⟨fun a b c h1 h2 => solution_le_trans a b c h1 h2⟩
  have hsorted := List.sorted_insertionSort (fun a b => HybridSolution.lt b a = false) l
  have hperm := sort_solutions_perm l
  unfold sort_solutions at h
  rw [h] at hsorted
  rw [sort_solutions, h] at hperm
  refine ⟨hperm.mem_iff.mp (by simp), fun s hs => ?_⟩
  rcases List.mem_cons.mp (hperm.mem_iff.mpr hs) with rfl | hm
  · exact solution_lt_irrefl _
  · exact List.rel_of_sorted_cons hsorted s hm

/-- The update of the global best: it stays, or is replaced by the head of the sorted
batch, which is then strictly better; the new best is not beaten by the old one nor by any
solution of the batch. -/
theorem update_best_spec (batch : List HybridSolution) (best : HybridSolution) (c : Int) :
    ((update_best (sort_solutions batch) best c).1 = best
      ∨ ((update_best (sort_solutions batch) best c).1 ∈ batch
          ∧ HybridSolution.lt (update_best (sort_solutions batch) best c).1 best = true))
    ∧ HybridSolution.lt best (update_best (sort_solutions batch) best c).1 = false
    ∧ ∀ s ∈ batch, HybridSolution.lt s (update_best (sort_solutions batch) best c).1 = false := by
  unfold update_best
  cases hsort : sort_solutions batch with
  | nil =>
    have hb : batch = [] := by
      have := (sort_solutions_perm batch).length_eq
      rw [hsort] at this
      exact List.eq_nil_of_length_eq_zero this.symm
    subst hb
    exact ⟨Or.inl rfl, solution_lt_irrefl _, fun s hs => by cases hs⟩
  | cons s0 rest =>
    obtain ⟨hmem, hmin⟩ := sort_solutions_head_min batch s0 rest hsort
    dsimp only
    by_cases hlt : HybridSolution.lt s0 best = true
    · rw [if_pos hlt]
      refine ⟨Or.inr ⟨hmem, hlt⟩, ?_, hmin⟩
      rw [solution_lt_iff] at hlt
      rw [solution_not_lt_iff]
      dsimp only
      omega
    · rw [if_neg hlt]
      simp only [Bool.not_eq_true] at hlt
      refine ⟨Or.inl rfl, solution_lt_irrefl _, fun s hs => ?_⟩
      exact solution_le_trans _ _ _ hlt (hmin s hs)

theorem aco_iterations_min (inst : Instance) (params : HybridParams) (draws : SolveDraws)
    (n : Nat) :
    ∀ (remaining iter : Nat) (best : HybridSolution) (c : Int),
      HybridSolution.lt best (aco_iterations inst params draws n remaining iter best c) = false
      ∧ (∀ batch ∈ executed_batches inst params draws n remaining iter best c, ∀ s ∈ batch,
          HybridSolution.lt s (aco_iterations inst params draws n remaining iter best c) = false)
      ∧ (aco_iterations inst params draws n remaining iter best c = best
          ∨ ∃ batch ∈ executed_batches inst params draws n remaining iter best c,
              aco_iterations inst params draws n remaining iter best c ∈ batch) := by
  intro remaining
  induction remaining with
  | zero =>
    intro iter best c
    refine ⟨solution_lt_irrefl _, fun batch hb => ?_, Or.inl rfl⟩
    simp [executed_batches] at hb
  | succ remaining ih =>
    intro iter best c
    obtain ⟨h1, h2, h3⟩ := update_best_spec (iteration_batch inst params draws n iter) best c
    simp only [aco_iterations, executed_batches]
    split
    · refine ⟨h2, ?_, ?_⟩
      · intro batch hb s hs
        simp only [List.mem_singleton] at hb
        subst hb
        exact h3 s hs
      · rcases h1 with h | ⟨h, _⟩
        · exact Or.inl h
        · exact Or.inr ⟨_, by simp, h⟩
    · obtain ⟨i1, i2, i3⟩ := ih (iter + 1)
        (update_best (sort_solutions (iteration_batch inst params draws n iter)) best c).1
        (update_best (sort_solutions (iteration_batch inst params draws n iter)) best c).2
      refine ⟨solution_le_trans _ _ _ i1 h2, ?_, ?_⟩
      · intro batch hb s hs
        rcases List.mem_cons.mp hb with rfl | hb
        · exact solution_le_trans _ _ _ i1 (h3 s hs)
        · exact i2 batch hb s hs
      · rcases i3 with h | ⟨batch, hb, h⟩
        · rw [h]
          rcases h1 with h' | ⟨h', _⟩
          · exact Or.inl h'
          · exact Or.inr ⟨_, by simp, h'⟩
        · exact Or.inr ⟨batch, List.mem_cons_of_mem _ hb, h⟩

/-- C17: the solution returned by `hybrid_aco_solve` is the initial greedy solution or an
ant solution of an executed iteration, and neither the initial greedy solution nor any ant
solution of any executed iteration compares strictly less than it; the global best is
replaced only by a strictly better solution, so the old best never beats the new one. -/
theorem hybrid_aco_solve_minimum (inst : Instance) (params : HybridParams)
    (draws : SolveDraws) (num_routes : Nat) :
    HybridSolution.lt (initial_solution inst num_routes)
        (hybrid_aco_solve inst params draws num_routes) = false
    ∧ (∀ batch ∈ executed_batches inst params draws num_routes params.max_iterations.toNat 0
          (initial_solution inst num_routes) 0,
        ∀ s ∈ batch,
          HybridSolution.lt s (hybrid_aco_solve inst params draws num_routes) = false)
    ∧ (hybrid_aco_solve inst params draws num_routes = initial_solution inst num_routes
        ∨ ∃ batch ∈ executed_batches inst params draws num_routes
              params.max_iterations.toNat 0 (initial_solution inst num_routes) 0,
            hybrid_aco_solve inst params draws num_routes ∈ batch)
    ∧ (∀ (batch : List HybridSolution) (best : HybridSolution) (c : Int),
        ((update_best (sort_solutions batch) best c).1 = best
          ∨ HybridSolution.lt (update_best (sort_solutions batch) best c).1 best = true)
        ∧ HybridSolution.lt best (update_best (sort_solutions batch) best c).1 = false) := by
  obtain ⟨h1, h2, h3⟩ := aco_iterations_min inst params draws num_routes
    params.max_iterations.toNat 0 (initial_solution inst num_routes) 0
  refine ⟨h1, h2, h3, fun batch best c => ?_⟩
  obtain ⟨h4, h5, _⟩ := update_best_spec batch best c
  refine ⟨?_, h5⟩
  rcases h4 with h | ⟨_, h⟩
  · exact Or.inl h
  · exact Or.inr h

theorem reverse_closed_eq (route : Route) (i j : Nat) :
    reverse_closed route (i + 1) j = reverse_segment route i j := by
  unfold reverse_closed reverse_segment
  rw [Nat.add_sub_add_right]

theorem two_opt_pairs_sorted (n : Nat) :
    (two_opt_pairs n).Pairwise (fun a b => a.1 < b.1 ∨ (a.1 = b.1 ∧ a.2 < b.2)) := by
  unfold two_opt_pairs
  rw [List.pairwise_flatMap]
  constructor
  · intro i _
    rw [List.pairwise_map]
    exact (List.pairwise_lt_range' _ _).imp (fun h => Or.inr ⟨rfl, h⟩)
  · refine (List.pairwise_lt_range _).imp ?_
    intro a b hab x hx y hy
    simp only [List.mem_map] at hx hy
    obtain ⟨_, _, rfl⟩ := hx
    obtain ⟨_, _, rfl⟩ := hy
    exact Or.inl hab

theorem two_opt_scan_first (inst : Instance) (route new_route : Route)
    (h : two_opt_scan inst route = some new_route) :
    ∃ i j, i + 2 ≤ j ∧ j + 2 ≤ route.length
      ∧ new_route = reverse_segment route i j
      ∧ is_feasible_route inst new_route = true
      ∧ calculate_route_cost inst new_route < calculate_route_cost inst route
      ∧ ∀ i2 j2, i2 + 2 ≤ j2 → j2 + 2 ≤ route.length → (i2 < i ∨ (i2 = i ∧ j2 < j)) →
          ¬ (is_feasible_route inst (reverse_segment route i2 j2) = true
              ∧ calculate_route_cost inst (reverse_segment route i2 j2)
                  < calculate_route_cost inst route) := by
  unfold two_opt_scan at h
  rw [List.findSome?_eq_some_iff] at h
  obtain ⟨l₁, ⟨i, j⟩, l₂, hl, hf, hnone⟩ := h
  have hsorted := two_opt_pairs_sorted route.length
  have hmem : (i, j) ∈ two_opt_pairs route.length := by rw [hl]; simp
  obtain ⟨m1, m2, m3⟩ := (mem_two_opt_pairs _ _ _).mp hmem
  dsimp only at hf
  split at hf
  · rename_i hc
    simp only [Bool.and_eq_true, decide_eq_true_eq] at hc
    have hnew : new_route = reverse_segment route i j := by
      simpa using hf.symm
    refine ⟨i, j, m2, by omega, hnew, by rw [hnew]; exact hc.1, by rw [hnew]; exact hc.2, ?_⟩
    intro i2 j2 h1 h2 hlex hcontra
    have hmem2 : (i2, j2) ∈ two_opt_pairs route.length :=
      (mem_two_opt_pairs _ _ _).mpr ⟨by omega, h1, by omega⟩
    rw [hl] at hmem2 hsorted
    rcases List.mem_append.mp hmem2 with hin | hin
    · have := hnone _ hin
      dsimp only at this
      rw [if_pos (by simp [hcontra.1, hcontra.2])] at this
      cases this
    · rw [List.pairwise_append] at hsorted
      rcases List.mem_cons.mp hin with heq | hin
      · cases heq; omega
      · have := List.rel_of_pairwise_cons hsorted.2.1 hin
        dsimp only at this
        omega
  · cases hf

/-- Counterexample to C18 as stated, on the route 1, 3, 2, 4 of the two-pair instance: the
scan has the single index pair (0, 2) and the route becomes 1, 2, 3, 4, which is the route
with the positions 1 and 2 reversed; reversing the positions 1 to 3 gives 1, 4, 2, 3, which
is not the new route and is not even feasible. -/
theorem two_opt_reverses_through_j_not_j_plus_one :
    two_opt_pairs ([1, 3, 2, 4] : Route).length = [(0, 2)]
    ∧ two_opt_scan inst2 [1, 3, 2, 4] = some [1, 2, 3, 4]
    ∧ two_opt_route inst2 [1, 3, 2, 4] = [1, 2, 3, 4]
    ∧ reverse_closed [1, 3, 2, 4] (0 + 1) (2 + 1) = [1, 4, 2, 3]
    ∧ reverse_closed [1, 3, 2, 4] (0 + 1) 2 = [1, 2, 3, 4]
    ∧ is_feasible_route inst2 [1, 4, 2, 3] = false := by
  decide

/-- C18 (amended): in `local_search_2opt` a route of length below 4 is returned unchanged;
for a longer route every scan that accepts a move accepts the one for the first index pair
(i, j) in scan order (i ascending, and for each i, j ascending from i+2 up to length−2)
whose reversal is feasible and strictly cheaper, the new route is the route with the closed
sub-segment at the positions i+1 through j (both inclusive) reversed, and the loop goes on
from that new route; a scan that accepts nothing ends the loop. -/
theorem two_opt_accepts_first_improvement (inst : Instance) (route : Route) :
    (route.length < 4 → two_opt_route inst route = route)
    ∧ (4 ≤ route.length →
        two_opt_loop inst (two_opt_fuel inst route) route = some (two_opt_route inst route))
    ∧ (∀ fuel, two_opt_scan inst route = none →
        two_opt_loop inst (fuel + 1) route = some route)
    ∧ (∀ new_route, two_opt_scan inst route = some new_route →
        (∀ fuel, two_opt_loop inst (fuel + 1) route = two_opt_loop inst fuel new_route)
        ∧ ∃ i j, i + 2 ≤ j ∧ j + 2 ≤ route.length
          ∧ new_route = reverse_closed route (i + 1) j
          ∧ is_feasible_route inst new_route = true
          ∧ calculate_route_cost inst new_route < calculate_route_cost inst route
          ∧ ∀ i2 j2, i2 + 2 ≤ j2 → j2 + 2 ≤ route.length → (i2 < i ∨ (i2 = i ∧ j2 < j)) →
              ¬ (is_feasible_route inst (reverse_closed route (i2 + 1) j2) = true
                  ∧ calculate_route_cost inst (reverse_closed route (i2 + 1) j2)
                      < calculate_route_cost inst route)) := by
  refine ⟨fun h => ?_, fun h => two_opt_route_run inst route h, fun fuel h => ?_,
    fun new_route h => ⟨fun fuel => ?_, ?_⟩⟩
  · unfold two_opt_route; rw [if_pos h]
  · simp only [two_opt_loop, h]
  · simp only [two_opt_loop, h]
  · obtain ⟨i, j, h1, h2, h3, h4, h5, h6⟩ := two_opt_scan_first inst route new_route h
    refine ⟨i, j, h1, h2, by rw [reverse_closed_eq]; exact h3, h4, h5, ?_⟩
    intro i2 j2 a b c
    rw [reverse_closed_eq]
    exact h6 i2 j2 a b c

/-- The amended C18 on the route 1, 3, 2, 4 of the two-pair instance, whose scan accepts
the route 1, 2, 3, 4. -/
theorem two_opt_accepts_first_improvement_witness :
    two_opt_scan inst2 [1, 3, 2, 4] = some [1, 2, 3, 4]
    ∧ ∃ i j, i + 2 ≤ j ∧ j + 2 ≤ ([1, 3, 2, 4] : Route).length
        ∧ ([1, 2, 3, 4] : Route) = reverse_closed [1, 3, 2, 4] (i + 1) j :=
  ⟨by decide,
    let ⟨i, j, h1, h2, h3, _⟩ :=
      ((two_opt_accepts_first_improvement inst2 [1, 3, 2, 4]).2.2.2 [1, 2, 3, 4]
        (by decide)).2
    ⟨i, j, h1, h2, h3⟩⟩

theorem filter_nonempty_map_length (f : Route → Route) (l : List Route)
    (hf : ∀ r ∈ l, (f r).length = r.length) :
    ((l.map f).filter (fun r => !r.isEmpty)).length
      = (l.filter (fun r => !r.isEmpty)).length := by
  induction l with
  | nil => rfl
  | cons a l ih =>
    have ha := hf a (by simp)
    have hl := ih (fun r hr => hf r (List.mem_cons_of_mem _ hr))
    have hiff : (f a).isEmpty = a.isEmpty := by
      cases hfa : f a <;> cases haa : a <;> simp_all
    simp only [List.map_cons, List.filter_cons, hiff]
    split <;> simp [hl]

theorem calculate_route_cost_nil (inst : Instance) : calculate_route_cost inst [] = 0 :=
  rfl

theorem sum_filter_nonempty_cost (inst : Instance) (l : List Route) :
    ((l.filter (fun r => !r.isEmpty)).map (calculate_route_cost inst)).sum
      = (l.map (calculate_route_cost inst)).sum := by
  induction l with
  | nil => rfl
  | cons a l ih =>
    cases a with
    | nil => simp [ih, calculate_route_cost_nil]
    | cons x xs => simp [ih]

theorem sum_map_le_of_forall (f g : Route → Int) (l : List Route)
    (h : ∀ r ∈ l, f r ≤ g r) : (l.map f).sum ≤ (l.map g).sum := by
  induction l with
  | nil => simp
  | cons a l ih =>
    have h1 := h a (by simp)
    have h2 := ih (fun r hr => h r (List.mem_cons_of_mem _ hr))
    simp only [List.map_cons, List.sum_cons]
    omega

/-- C19: for every solution, `local_search_2opt` keeps the number of routes; the route in
every slot is a permutation of the input route of that slot (so it has the same length) and
costs no more than it; the recomputed `used_routes` is the number of non-empty input routes,
which is what `calculate_cost` gives on the input, and the recomputed `total_cost` is at
most the sum of the costs of the input routes. -/
theorem local_search_2opt_slotwise (inst : Instance) (s : HybridSolution) :
    (local_search_2opt inst s).routes.length = s.routes.length
    ∧ (∀ k, ((local_search_2opt inst s).routes.getD k []).Perm (s.routes.getD k [])
        ∧ ((local_search_2opt inst s).routes.getD k []).length = (s.routes.getD k []).length
        ∧ calculate_route_cost inst ((local_search_2opt inst s).routes.getD k [])
            ≤ calculate_route_cost inst (s.routes.getD k []))
    ∧ (local_search_2opt inst s).used_routes
        = ((s.routes.filter (fun r => !r.isEmpty)).length : Int)
    ∧ (local_search_2opt inst s).used_routes
        = (HybridSolution.calculate_cost inst s).used_routes
    ∧ (local_search_2opt inst s).total_cost
        ≤ (s.routes.map (calculate_route_cost inst)).sum
    ∧ (local_search_2opt inst s).total_cost
        ≤ (HybridSolution.calculate_cost inst s).total_cost := by
  have hroutes := local_search_2opt_routes inst s
  have hk : ∀ k, (s.routes.map (two_opt_route inst)).getD k []
      = two_opt_route inst (s.routes.getD k []) := by
    intro k
    by_cases hlt : k < s.routes.length
    · simp [List.getD_eq_getElem?_getD, List.getElem?_map, List.getElem?_eq_getElem hlt]
    · have h1 : s.routes[k]? = none := List.getElem?_eq_none (by omega)
      have h2 : (s.routes.map (two_opt_route inst))[k]? = none :=
        List.getElem?_eq_none (by simp; omega)
      simp only [List.getD_eq_getElem?_getD, h1, h2, Option.getD_none]
      exact ((two_opt_route_spec inst []).2.1 (by simp)).symm
  have hused : (local_search_2opt inst s).used_routes
      = ((s.routes.filter (fun r => !r.isEmpty)).length : Int) := by
    have : (local_search_2opt inst s).used_routes
        = (((s.routes.map (two_opt_route inst)).filter (fun r => !r.isEmpty)).length : Int) := by
      unfold local_search_2opt
      rw [calculate_cost_eq]
    rw [this, filter_nonempty_map_length]
    intro r _
    exact (two_opt_route_spec inst r).1.length_eq
  have htotal : (local_search_2opt inst s).total_cost
      ≤ (s.routes.map (calculate_route_cost inst)).sum := by
    have : (local_search_2opt inst s).total_cost
        = (((s.routes.map (two_opt_route inst)).filter (fun r => !r.isEmpty)).map
            (calculate_route_cost inst)).sum := by
      unfold local_search_2opt
      rw [calculate_cost_eq]
    rw [this, sum_filter_nonempty_cost, List.map_map]
    exact sum_map_le_of_forall _ _ _ (fun r _ => (two_opt_route_spec inst r).2.2.2.2)
  refine ⟨by rw [hroutes, List.length_map], fun k => ?_, hused, ?_, htotal, ?_⟩
  · rw [hroutes, hk]
    exact ⟨(two_opt_route_spec inst _).1, (two_opt_route_spec inst _).1.length_eq,
      (two_opt_route_spec inst _).2.2.2.2⟩
  · rw [hused, calculate_cost_eq]
  · rw [calculate_cost_eq, sum_filter_nonempty_cost]
    exact htotal

/-! ## Early termination of hybrid_aco_solve -/

theorem aco_body_eq (inst : Instance) (params : HybridParams) (draws : SolveDraws)
    (n iter : Nat) (st : HybridSolution × Int × Pheromone) :
    aco_body inst params draws n iter st
      = if iteration_improves inst params draws n iter st.1 = true then
          ((sort_solutions (iteration_batch inst params draws n iter)).headD st.1, 0,
            update_pheromone inst params
              (sort_solutions (iteration_batch inst params draws n iter)) st.2.2)
        else
          (st.1, st.2.1 + 1,
            update_pheromone inst params
              (sort_solutions (iteration_batch inst params draws n iter)) st.2.2) := by
  unfold aco_body iteration_improves update_best
  cases sort_solutions (iteration_batch inst params draws n iter) with
  | nil => simp
  | cons s0 rest =>
    dsimp only
    by_cases h : HybridSolution.lt s0 st.1 = true
    · simp [h]
    · simp [h]

theorem aco_trace_length (inst : Instance) (params : HybridParams) (draws : SolveDraws)
    (n : Nat) :
    ∀ (remaining iter : Nat) (st : HybridSolution × Int × Pheromone),
      (aco_trace inst params draws n remaining iter st).length ≤ remaining := by
  intro remaining
  induction remaining with
  | zero => intro iter st; simp [aco_trace]
  | succ remaining ih =>
    intro iter st
    simp only [aco_trace]
    split
    · simp
    · simp only [List.length_cons]
      have := ih (iter + 1) (aco_body inst params draws n iter st)
      omega

theorem aco_trace_result (inst : Instance) (params : HybridParams) (draws : SolveDraws)
    (n : Nat) :
    ∀ (remaining iter : Nat) (st : HybridSolution × Int × Pheromone),
      aco_iterations_state inst params draws n remaining iter st.1 st.2.1 st.2.2
        = (aco_trace inst params draws n remaining iter st).getLastD st := by
  intro remaining
  induction remaining with
  | zero => intro iter st; rfl
  | succ remaining ih =>
    intro iter st
    simp only [aco_trace, aco_iterations_state]
    by_cases h : (aco_body inst params draws n iter st).2.1 ≥ params.restart_threshold
    · have h' : (update_best (sort_solutions (iteration_batch inst params draws n iter))
          st.1 st.2.1).2 ≥ params.restart_threshold := h
      rw [if_pos h, if_pos h']
      rfl
    · have h' : ¬ (update_best (sort_solutions (iteration_batch inst params draws n iter))
          st.1 st.2.1).2 ≥ params.restart_threshold := h
      rw [if_neg h, if_neg h']
      have := ih (iter + 1) (aco_body inst params draws n iter st)
      rw [List.getLastD_cons]
      exact this

theorem aco_trace_chain (inst : Instance) (params : HybridParams) (draws : SolveDraws)
    (n : Nat) :
    ∀ (remaining iter : Nat) (st x : HybridSolution × Int × Pheromone) (k : Nat),
      (aco_trace inst params draws n remaining iter st)[k]? = some x →
      ∃ prev, (st :: aco_trace inst params draws n remaining iter st)[k]? = some prev
        ∧ x = aco_body inst params draws n (iter + k) prev
        ∧ (params.restart_threshold ≤ x.2.1 →
            (aco_trace inst params draws n remaining iter st).length = k + 1)
        ∧ ((aco_trace inst params draws n remaining iter st).length = k + 1 →
            k + 1 < remaining → params.restart_threshold ≤ x.2.1) := by
  intro remaining
  induction remaining with
  | zero => intro iter st x k h; simp [aco_trace] at h
  | succ remaining ih =>
    intro iter st x k h
    simp only [aco_trace] at h ⊢
    cases k with
    | zero =>
      simp only [List.getElem?_cons_zero, Option.some.injEq] at h
      subst h
      refine ⟨st, rfl, rfl, ?_, ?_⟩
      · intro hge
        rw [if_pos hge]
        rfl
      · intro hlen hlt
        by_contra hc
        rw [if_neg hc] at hlen
        simp only [List.length_cons, zero_add, add_left_eq_self, List.length_eq_zero] at hlen
        cases remaining with
        | zero => omega
        | succ r => simp [aco_trace] at hlen
    | succ k =>
      rw [List.getElem?_cons_succ] at h
      split at h
      · simp at h
      · rename_i hc
        obtain ⟨prev, h1, h2, h3, h4⟩ := ih (iter + 1) _ x k h
        refine ⟨prev, ?_, ?_, ?_, ?_⟩
        · rw [List.getElem?_cons_succ, if_neg hc]
          exact h1
        · rw [h2]
          congr 1
          omega
        · intro hge
          rw [if_neg hc]
          simp only [List.length_cons]
          rw [h3 hge]
        · intro hlen hlt
          rw [if_neg hc] at hlen
          simp only [List.length_cons, add_left_inj] at hlen
          exact h4 hlen (by omega)

theorem trailing_failures_zero (f : Nat → Bool) :
    trailing_failures f 0 = if f 0 = true then 0 else 1 := by
  unfold trailing_failures
  by_cases h : f 0 = true <;> simp [List.range_succ, List.takeWhile_cons, h]

theorem trailing_failures_succ (f : Nat → Bool) (k : Nat) :
    trailing_failures f (k + 1)
      = if f (k + 1) = true then 0 else trailing_failures f k + 1 := by
  unfold trailing_failures
  rw [List.range_succ, List.reverse_append, List.reverse_singleton, List.singleton_append,
    List.takeWhile_cons]
  by_cases h : f (k + 1) = true <;> simp [h]

theorem aco_trace_counter (inst : Instance) (params : HybridParams) (draws : SolveDraws)
    (n : Nat) (st0 : HybridSolution × Int × Pheromone) (h0 : st0.2.1 = 0) (remaining : Nat) :
    ∀ (k : Nat) (x : HybridSolution × Int × Pheromone),
      (aco_trace inst params draws n remaining 0 st0)[k]? = some x →
      x.2.1 = (trailing_failures (fun j => iteration_improves inst params draws n j
        ((st0 :: aco_trace inst params draws n remaining 0 st0).getD j st0).1) k : Int) := by
  intro k
  induction k with
  | zero =>
    intro x hx
    obtain ⟨prev, h1, h2, _⟩ := aco_trace_chain inst params draws n remaining 0 st0 x 0 hx
    simp only [List.getElem?_cons_zero, Option.some.injEq] at h1
    subst h1
    rw [trailing_failures_zero, h2, aco_body_eq]
    simp only [List.getD_cons_zero, zero_add]
    split
    · simp
    · simp [h0]
  | succ k ih =>
    intro x hx
    obtain ⟨prev, h1, h2, _⟩ := aco_trace_chain inst params draws n remaining 0 st0 x (k + 1) hx
    rw [List.getElem?_cons_succ] at h1
    have hprev := ih prev h1
    have hget : (st0 :: aco_trace inst params draws n remaining 0 st0).getD (k + 1) st0
        = prev := by
      rw [List.getD_cons_succ, List.getD_eq_getElem?_getD, h1]
      rfl
    rw [trailing_failures_succ, h2, aco_body_eq]
    simp only [hget, zero_add]
    split
    · simp
    · simp only [Nat.cast_add, Nat.cast_one]
      rw [hprev]

theorem ant_loop_threshold (inst : Instance) (params : HybridParams) (threshold : Int)
    (draws : AntDraws) :
    ∀ (fuel step : Nat) (routes : List Route) (unv : List Int),
      ant_loop inst { params with restart_threshold := threshold } draws fuel step routes unv
        = ant_loop inst params draws fuel step routes unv := by
  intro fuel
  induction fuel with
  | zero =>
    intro step routes unv
    cases unv <;> rfl
  | succ fuel ih =>
    intro step routes unv
    cases unv with
    | nil => rfl
    | cons p ps =>
      simp only [ant_loop]
      have hsel : ant_select inst { params with restart_threshold := threshold } draws step
          routes (p :: ps) = ant_select inst params draws step routes (p :: ps) := rfl
      rw [hsel]
      split
      · rfl
      · split
        · rw [ih]
        · rfl

theorem aco_body_threshold (inst : Instance) (params : HybridParams) (threshold : Int)
    (draws : SolveDraws) (n iter : Nat) (st : HybridSolution × Int × Pheromone) :
    aco_body inst { params with restart_threshold := threshold } draws n iter st
      = aco_body inst params draws n iter st := by
  have hc : ∀ adraws : AntDraws,
      construct_solution inst { params with restart_threshold := threshold } adraws n
        = construct_solution inst params adraws n := by
    intro adraws
    unfold construct_solution
    rw [ant_loop_threshold]
  have hb : iteration_batch inst { params with restart_threshold := threshold } draws n iter
      = iteration_batch inst params draws n iter := by
    unfold iteration_batch
    simp only [hc]
  unfold aco_body
  rw [hb]
  rfl

/-- C21: the loop of `hybrid_aco_solve` executes at most `max_iterations` iterations; the
counter at the end of iteration `k` is the number of consecutive iterations, ending with
`k`, whose best ant solution did not strictly beat the global best; the loop stops right
after an iteration before `max_iterations` is reached exactly when that counter is at least
`restart_threshold`; and the values of the global best and of the pheromone matrix that
the call leaves are those at the end of the body of the last executed iteration, which does
not depend on `restart_threshold`: reaching the threshold only halts the loop. -/
theorem restart_threshold_only_halts (inst : Instance) (params : HybridParams)
    (draws : SolveDraws) (num_routes : Nat) (old : Pheromone) :
    (hybrid_aco_trace inst params draws num_routes old).length ≤ params.max_iterations.toNat
    ∧ hybrid_aco_solve_state inst params draws num_routes old
        = (hybrid_aco_trace inst params draws num_routes old).getLastD
            (aco_start inst num_routes old)
    ∧ hybrid_aco_solve inst params draws num_routes
        = ((hybrid_aco_trace inst params draws num_routes old).getLastD
            (aco_start inst num_routes old)).1
    ∧ (∀ (k : Nat) (x : HybridSolution × Int × Pheromone),
        (hybrid_aco_trace inst params draws num_routes old)[k]? = some x →
        (∃ prev, (aco_start inst num_routes old
              :: hybrid_aco_trace inst params draws num_routes old)[k]? = some prev
            ∧ x = aco_body inst params draws num_routes k prev)
        ∧ x.2.1 = (trailing_failures (fun j =>
              iteration_improves inst params draws num_routes j
                ((aco_start inst num_routes old
                  :: hybrid_aco_trace inst params draws num_routes old).getD j
                    (aco_start inst num_routes old)).1) k : Int)
        ∧ (params.restart_threshold ≤ x.2.1 →
            (hybrid_aco_trace inst params draws num_routes old).length = k + 1)
        ∧ ((hybrid_aco_trace inst params draws num_routes old).length = k + 1 →
            k + 1 < params.max_iterations.toNat → params.restart_threshold ≤ x.2.1))
    ∧ (∀ (iter : Nat) (st : HybridSolution × Int × Pheromone),
        aco_body inst params draws num_routes iter st
          = if iteration_improves inst params draws num_routes iter st.1 = true then
              ((sort_solutions (iteration_batch inst params draws num_routes iter)).headD st.1,
                0,
                update_pheromone inst params
                  (sort_solutions (iteration_batch inst params draws num_routes iter)) st.2.2)
            else
              (st.1, st.2.1 + 1,
                update_pheromone inst params
                  (sort_solutions (iteration_batch inst params draws num_routes iter)) st.2.2))
    ∧ (∀ (threshold : Int) (iter : Nat) (st : HybridSolution × Int × Pheromone),
        aco_body inst { params with restart_threshold := threshold } draws num_routes iter st
          = aco_body inst params draws num_routes iter st) := by
  refine ⟨aco_trace_length inst params draws num_routes _ _ _, ?_, ?_, ?_,
    fun iter st => aco_body_eq inst params draws num_routes iter st,
    fun threshold iter st => aco_body_threshold inst params threshold draws num_routes iter st⟩
  · exact aco_trace_result inst params draws num_routes _ 0 (aco_start inst num_routes old)
  · have h := aco_trace_result inst params draws num_routes params.max_iterations.toNat 0
      (aco_start inst num_routes old)
    have h2 := aco_iterations_state_fst inst params draws num_routes
      params.max_iterations.toNat 0 (initial_solution inst num_routes) 0
      (initialize_pheromone inst old)
    unfold hybrid_aco_solve hybrid_aco_trace
    rw [← h2, ← h]
    rfl
  · intro k x hx
    obtain ⟨prev, h1, h2, h3, h4⟩ := aco_trace_chain inst params draws num_routes
      params.max_iterations.toNat 0 (aco_start inst num_routes old) x k hx
    refine ⟨⟨prev, h1, by rw [h2, zero_add]⟩, ?_, h3, h4⟩
    exact aco_trace_counter inst params draws num_routes (aco_start inst num_routes old) rfl
      params.max_iterations.toNat k x hx

/-! ## Greedy ant and greedy constructor -/

theorem foldl_min_spec {γ : Type} (feas : γ → Bool) (cost : γ → Int) (L : List γ) :
    ∀ init : Int,
      L.foldl (fun m t => if feas t then min m (cost t) else m) init ≤ init
      ∧ (∀ t ∈ L, feas t = true →
          L.foldl (fun m t => if feas t then min m (cost t) else m) init ≤ cost t)
      ∧ (L.foldl (fun m t => if feas t then min m (cost t) else m) init = init
          ∨ ∃ t ∈ L, feas t = true
              ∧ cost t = L.foldl (fun m t => if feas t then min m (cost t) else m) init) := by
  induction L with
  | nil => intro init; simp
  | cons c L ih =>
    intro init
    rw [List.foldl_cons]
    by_cases hf : feas c = true
    · rw [if_pos hf]
      obtain ⟨h1, h2, h3⟩ := ih (min init (cost c))
      refine ⟨le_trans h1 (min_le_left _ _), ?_, ?_⟩
      · intro t ht hft
        rcases List.mem_cons.mp ht with rfl | ht
        · exact le_trans h1 (min_le_right _ _)
        · exact h2 t ht hft
      · rcases h3 with h3 | ⟨t, ht, hft, hc⟩
        · rcases min_choice init (cost c) with hm | hm
          · left; rw [h3, hm]
          · right
            exact ⟨c, by simp, hf, by rw [h3, hm]⟩
        · right
          exact ⟨t, List.mem_cons_of_mem _ ht, hft, hc⟩
    · rw [if_neg hf]
      obtain ⟨h1, h2, h3⟩ := ih init
      refine ⟨h1, ?_, ?_⟩
      · intro t ht hft
        rcases List.mem_cons.mp ht with rfl | ht
        · exact absurd hft hf
        · exact h2 t ht hft
      · rcases h3 with h3 | ⟨t, ht, hft, hc⟩
        · left; exact h3
        · right
          exact ⟨t, List.mem_cons_of_mem _ ht, hft, hc⟩

theorem foldl_sentinel {γ α : Type} (feas : γ → Bool) (cost : γ → Int) (lab : γ → α)
    (a0 : α) (S : Int) (L : List γ) :
    ∀ (s : α × Int) (o : Option γ),
      ((o = none ∧ s = (a0, S)) ∨ (∃ b, o = some b ∧ s = (lab b, cost b) ∧ cost b < S)) →
      ((L.foldl (pick_first_min (fun t => feas t && decide (cost t < S)) cost) o = none
          ∧ L.foldl (fun s t => if feas t then (if cost t < s.2 then (lab t, cost t) else s)
              else s) s = (a0, S))
        ∨ (∃ b, L.foldl (pick_first_min (fun t => feas t && decide (cost t < S)) cost) o
              = some b
            ∧ L.foldl (fun s t => if feas t then (if cost t < s.2 then (lab t, cost t) else s)
                else s) s = (lab b, cost b)
            ∧ cost b < S)) := by
  induction L with
  | nil => intro s o h; exact h
  | cons c L ih =>
    intro s o h
    rw [List.foldl_cons, List.foldl_cons]
    apply ih
    unfold pick_first_min
    rcases h with ⟨rfl, rfl⟩ | ⟨b, rfl, rfl, hb⟩
    · by_cases hf : feas c = true
      · by_cases hc : cost c < S
        · right
          exact ⟨c, by simp [hf, hc], by simp [hf, hc], hc⟩
        · left
          simp [hf, hc]
      · left
        simp [hf]
    · by_cases hf : feas c = true
      · by_cases hc : cost c < cost b
        · right
          have hcS : cost c < S := lt_trans hc hb
          exact ⟨c, by simp [hf, hc, hcS], by simp [hf, hc], hcS⟩
        · right
          refine ⟨b, ?_, by simp [hf, hc], hb⟩
          by_cases hcS : cost c < S <;> simp [hf, hc, hcS]
      · right
        exact ⟨b, by simp [hf], by simp [hf], hb⟩

theorem min_cost_increase_spec (inst : Instance) (routes : List Route) (pk dl : Int) :
    min_cost_increase inst routes pk dl ≤ INT_MAX
    ∧ (∀ t ∈ slots routes routes.length,
        is_feasible_insertion inst (routes.getD t.1 []) pk dl t.2.1 t.2.2 = true →
        min_cost_increase inst routes pk dl
          ≤ cost_increase inst (routes.getD t.1 []) pk dl t.2.1 t.2.2)
    ∧ (min_cost_increase inst routes pk dl = INT_MAX
        ∨ ∃ t ∈ slots routes routes.length,
            is_feasible_insertion inst (routes.getD t.1 []) pk dl t.2.1 t.2.2 = true
            ∧ cost_increase inst (routes.getD t.1 []) pk dl t.2.1 t.2.2
                = min_cost_increase inst routes pk dl) := by
  unfold min_cost_increase
  rw [scan_slots_eq]
  exact foldl_min_spec
    (fun (t : Nat × Nat × Nat) =>
      is_feasible_insertion inst (routes.getD t.1 []) pk dl t.2.1 t.2.2)
    (fun (t : Nat × Nat × Nat) =>
      cost_increase inst (routes.getD t.1 []) pk dl t.2.1 t.2.2) _ INT_MAX

theorem find_best_insertion_eq (inst : Instance) (routes : List Route) (pk dl : Int) :
    find_best_insertion inst routes pk dl
      = (slots routes routes.length).foldl
          (pick_first_min
            (fun t => is_feasible_insertion inst (routes.getD t.1 []) pk dl t.2.1 t.2.2
              && decide (cost_increase inst (routes.getD t.1 []) pk dl t.2.1 t.2.2 < INT_MAX))
            (fun t => cost_increase inst (routes.getD t.1 []) pk dl t.2.1 t.2.2)) none := by
  unfold find_best_insertion
  rw [scan_slots_eq]
  rcases foldl_sentinel
      (fun (t : Nat × Nat × Nat) =>
        is_feasible_insertion inst (routes.getD t.1 []) pk dl t.2.1 t.2.2)
      (fun t => cost_increase inst (routes.getD t.1 []) pk dl t.2.1 t.2.2)
      (fun t => some t) none INT_MAX (slots routes routes.length) (none, INT_MAX) none
      (Or.inl ⟨rfl, rfl⟩) with ⟨h1, h2⟩ | ⟨b, h1, h2, _⟩
  · rw [h1]
    exact congrArg Prod.fst h2
  · rw [h1]
    exact congrArg Prod.fst h2

theorem select_greedy_pickup_eq (inst : Instance) (cands : List Int) (routes : List Route)
    (hne : cands ≠ []) :
    select_greedy_pickup inst cands routes
      = (cands.foldl
          (pick_first_min
            (fun pk => true && decide
              (min_cost_increase inst routes pk (inst.node pk).delivery_pair < INT_MAX))
            (fun pk => min_cost_increase inst routes pk (inst.node pk).delivery_pair))
          none).getD (-1) := by
  unfold select_greedy_pickup
  have he : cands.isEmpty = false := by
    cases cands with
    | nil => exact absurd rfl hne
    | cons a l => rfl
  rw [he]
  simp only [Bool.false_eq_true, if_false]
  have hfun : (fun (best : Int × Int) (pickup_id : Int) =>
        if min_cost_increase inst routes pickup_id (inst.node pickup_id).delivery_pair < best.2
        then (pickup_id,
          min_cost_increase inst routes pickup_id (inst.node pickup_id).delivery_pair)
        else best)
      = (fun (s : Int × Int) (t : Int) =>
        if (fun _ => true) t = true then
          (if (fun pk => min_cost_increase inst routes pk (inst.node pk).delivery_pair) t < s.2
           then ((fun pk => pk) t,
             (fun pk => min_cost_increase inst routes pk (inst.node pk).delivery_pair) t)
           else s)
        else s) := by
    funext s t
    simp
  rw [hfun]
  rcases foldl_sentinel (fun (_ : Int) => true)
      (fun pk => min_cost_increase inst routes pk (inst.node pk).delivery_pair)
      (fun pk => pk) (-1) INT_MAX cands (-1, INT_MAX) none
      (Or.inl ⟨rfl, rfl⟩) with ⟨h1, h2⟩ | ⟨b, h1, h2, _⟩
  · rw [h1, h2]
    rfl
  · rw [h1, h2]
    rfl

theorem greedy_candidate_mem (inst : Instance) (n : Nat) (routes : List Route)
    (unv : List Int) (pk : Int) (t : Nat × Nat × Nat) (hpk : pk ∈ unv)
    (ht : t ∈ slots routes n) :
    greedy_candidate inst routes pk t ∈ greedy_candidates inst n routes unv := by
  unfold greedy_candidates
  simp only [List.mem_flatMap, List.mem_map]
  exact ⟨pk, hpk, t, ht, rfl⟩

theorem greedy_none_select (inst : Instance) (n : Nat) (routes : List Route)
    (unv : List Int) (hlen : routes.length = n)
    (h : greedy_scan inst n routes unv = none) :
    select_greedy_pickup inst unv routes = -1 := by
  by_cases hne : unv = []
  · subst hne
    rfl
  · rw [select_greedy_pickup_eq inst unv routes hne]
    have hnone := (greedy_scan_none inst n routes unv).mp h
    have hfold : unv.foldl
        (pick_first_min
          (fun pk => true && decide
            (min_cost_increase inst routes pk (inst.node pk).delivery_pair < INT_MAX))
          (fun pk => min_cost_increase inst routes pk (inst.node pk).delivery_pair))
        none = none := by
      rw [foldl_pick_first_min_none]
      refine ⟨rfl, fun pk hpk => ?_⟩
      rcases (min_cost_increase_spec inst routes pk (inst.node pk).delivery_pair).2.2
        with hm | ⟨t, ht, hf, _⟩
      · simp [hm]
      · rw [hlen] at ht
        have := hnone _ (greedy_candidate_mem inst n routes unv pk t hpk ht)
        have hf2 : (greedy_candidate inst routes pk t).feasible inst routes = true := hf
        rw [hf2] at this
        cases this
    rw [hfold]
    rfl

theorem greedy_some_select (inst : Instance) (n : Nat) (routes : List Route)
    (unv : List Int) (b : GreedyInsertion) (hlen : routes.length = n)
    (hs : unv.Pairwise (fun x y => x < y))
    (h : greedy_scan inst n routes unv = some b) (hb : b.efficiency_score < INT_MAX) :
    b.pickup_id ∈ unv
    ∧ b.delivery_id = (inst.node b.pickup_id).delivery_pair
    ∧ select_greedy_pickup inst unv routes = b.pickup_id
    ∧ find_best_insertion inst routes b.pickup_id (inst.node b.pickup_id).delivery_pair
        = some (b.route_idx, b.pickup_pos, b.delivery_pos) := by
  obtain ⟨hbmem, hbf, hmin⟩ := greedy_scan_some inst n routes unv hs b h
  obtain ⟨hpk, hr, hpd, hd, hbeq⟩ := (mem_greedy_candidates inst n routes unv b).mp hbmem
  have htb : (b.route_idx, b.pickup_pos, b.delivery_pos) ∈ slots routes n :=
    (mem_slots routes n _ _ _).mpr ⟨hr, hpd, hd⟩
  have hdl : b.delivery_id = (inst.node b.pickup_id).delivery_pair := by
    have := congrArg GreedyInsertion.delivery_id hbeq
    exact this
  have hscore : b.efficiency_score
      = cost_increase inst (routes.getD b.route_idx []) b.pickup_id
          (inst.node b.pickup_id).delivery_pair b.pickup_pos b.delivery_pos := by
    have := congrArg GreedyInsertion.efficiency_score hbeq
    exact this
  have hfeas : is_feasible_insertion inst (routes.getD b.route_idx []) b.pickup_id
      (inst.node b.pickup_id).delivery_pair b.pickup_pos b.delivery_pos = true := by
    have : b.feasible inst routes = true := hbf
    unfold GreedyInsertion.feasible at this
    rw [hdl] at this
    exact this
  have hmb : min_cost_increase inst routes b.pickup_id (inst.node b.pickup_id).delivery_pair
      ≤ b.efficiency_score := by
    rw [hscore]
    exact (min_cost_increase_spec inst routes b.pickup_id _).2.1
      (b.route_idx, b.pickup_pos, b.delivery_pos) (by rw [hlen]; exact htb) hfeas
  have hne : unv ≠ [] := List.ne_nil_of_mem hpk
  refine ⟨hpk, hdl, ?_, ?_⟩
  · rw [select_greedy_pickup_eq inst unv routes hne]
    cases hG : unv.foldl
        (pick_first_min
          (fun pk => true && decide
            (min_cost_increase inst routes pk (inst.node pk).delivery_pair < INT_MAX))
          (fun pk => min_cost_increase inst routes pk (inst.node pk).delivery_pair))
        none with
    | none =>
      have := ((foldl_pick_first_min_none _ _ _ _).mp hG).2 b.pickup_id hpk
      simp only [Bool.true_and, decide_eq_false_iff_not, not_lt] at this
      omega
    | some q =>
      rcases foldl_pick_first_min_some _ _ _ _ _ hG with ⟨h1, _⟩ | ⟨pre, post, hL, hq, _, hpre, hpost⟩
      · cases h1
      · simp only [Bool.true_and, decide_eq_true_eq] at hq hpre hpost
        have hqmem : q ∈ unv := by rw [hL]; simp
        rcases (min_cost_increase_spec inst routes q (inst.node q).delivery_pair).2.2
          with hm | ⟨t, ht, hf, hc⟩
        · omega
        · rw [hlen] at ht
          have hcq := hmin _ (greedy_candidate_mem inst n routes unv q t hqmem ht) hf
          have hcqs : (greedy_candidate inst routes q t).efficiency_score
              = min_cost_increase inst routes q (inst.node q).delivery_pair := hc
          rw [hcqs] at hcq
          show q = b.pickup_id
          have hmem2 : b.pickup_id ∈ pre ++ q :: post := hL ▸ hpk
          rcases List.mem_append.mp hmem2 with hin | hin
          · have := hpre _ hin (by omega)
            omega
          · rcases List.mem_cons.mp hin with heq | hin
            · exact heq.symm
            · have h1 := hpost _ hin (by omega)
              have hord : q < b.pickup_id := by
                rw [hL, List.pairwise_append] at hs
                exact List.rel_of_pairwise_cons hs.2.1 hin
              rcases hcq.2 (by omega) with he | hlt
              · have := congrArg GreedyInsertion.pickup_id he
                exact this
              · unfold scan_lt GreedyInsertion.key greedy_candidate at hlt
                dsimp only at hlt
                omega
  · rw [find_best_insertion_eq, hlen]
    cases hF : (slots routes n).foldl
        (pick_first_min
          (fun t => is_feasible_insertion inst (routes.getD t.1 []) b.pickup_id
              (inst.node b.pickup_id).delivery_pair t.2.1 t.2.2
            && decide (cost_increase inst (routes.getD t.1 []) b.pickup_id
              (inst.node b.pickup_id).delivery_pair t.2.1 t.2.2 < INT_MAX))
          (fun t => cost_increase inst (routes.getD t.1 []) b.pickup_id
            (inst.node b.pickup_id).delivery_pair t.2.1 t.2.2)) none with
    | none =>
      have := ((foldl_pick_first_min_none _ _ _ _).mp hF).2 _ htb
      simp only [hfeas, Bool.true_and, decide_eq_false_iff_not, not_lt] at this
      omega
    | some t =>
      rcases foldl_pick_first_min_some _ _ _ _ _ hF with ⟨h1, _⟩ | ⟨pre, post, hL, ht, _, hpre, hpost⟩
      · cases h1
      · simp only [Bool.and_eq_true, decide_eq_true_eq] at ht hpre hpost
        have htmem : t ∈ slots routes n := by rw [hL]; simp
        have hct : b.efficiency_score
              ≤ cost_increase inst (routes.getD t.1 []) b.pickup_id
                  (inst.node b.pickup_id).delivery_pair t.2.1 t.2.2
            ∧ (cost_increase inst (routes.getD t.1 []) b.pickup_id
                  (inst.node b.pickup_id).delivery_pair t.2.1 t.2.2 = b.efficiency_score →
                greedy_candidate inst routes b.pickup_id t = b
                  ∨ scan_lt b.key (greedy_candidate inst routes b.pickup_id t).key) :=
          hmin _ (greedy_candidate_mem inst n routes unv b.pickup_id t hpk htmem) ht.1
        have hblt : cost_increase inst (routes.getD b.route_idx []) b.pickup_id
            (inst.node b.pickup_id).delivery_pair b.pickup_pos b.delivery_pos < INT_MAX :=
          hscore ▸ hb
        have hmem2 : (b.route_idx, b.pickup_pos, b.delivery_pos) ∈ pre ++ t :: post := hL ▸ htb
        rcases List.mem_append.mp hmem2 with hin | hin
        · have h1 : cost_increase inst (routes.getD t.1 []) b.pickup_id
              (inst.node b.pickup_id).delivery_pair t.2.1 t.2.2
              < cost_increase inst (routes.getD b.route_idx []) b.pickup_id
                  (inst.node b.pickup_id).delivery_pair b.pickup_pos b.delivery_pos :=
            hpre _ hin ⟨hfeas, hblt⟩
          omega
        · rcases List.mem_cons.mp hin with heq | hin
          · rw [heq]
          · have h1 : cost_increase inst (routes.getD t.1 []) b.pickup_id
                (inst.node b.pickup_id).delivery_pair t.2.1 t.2.2
                ≤ cost_increase inst (routes.getD b.route_idx []) b.pickup_id
                    (inst.node b.pickup_id).delivery_pair b.pickup_pos b.delivery_pos :=
              hpost _ hin ⟨hfeas, hblt⟩
            have hord := slots_pairwise routes n
            rw [hL, List.pairwise_append] at hord
            have hord2 : t.1 < b.route_idx ∨ (t.1 = b.route_idx
                ∧ (t.2.1 < b.pickup_pos ∨ (t.2.1 = b.pickup_pos ∧ t.2.2 < b.delivery_pos))) :=
              List.rel_of_pairwise_cons hord.2.1 hin
            rcases hct.2 (by omega) with he | hlt
            · have e1 : t.1 = b.route_idx := congrArg GreedyInsertion.route_idx he
              have e2 : t.2.1 = b.pickup_pos := congrArg GreedyInsertion.pickup_pos he
              have e3 : t.2.2 = b.delivery_pos := congrArg GreedyInsertion.delivery_pos he
              congr 1
              exact Prod.ext e1 (Prod.ext e2 e3)
            · have hlt2 : b.pickup_id < b.pickup_id ∨ (b.pickup_id = b.pickup_id
                  ∧ (b.route_idx < t.1 ∨ (b.route_idx = t.1
                    ∧ (b.pickup_pos < t.2.1 ∨ (b.pickup_pos = t.2.1
                      ∧ b.delivery_pos < t.2.2))))) := hlt
              omega

theorem ant_loop_eq_greedy_loop (inst : Instance) (params : HybridParams) (draws : AntDraws)
    (n : Nat) (hcoin : ∀ step, draws.coin step < params.greedy_bias) :
    ∀ (fuel step : Nat) (routes : List Route) (unv : List Int),
      routes.length = n → unv.Pairwise (fun x y => x < y) → (-1 : Int) ∉ unv →
      (∀ b ∈ greedy_commits inst n fuel routes unv, b.efficiency_score < INT_MAX) →
      ant_loop inst params draws fuel step routes unv = greedy_loop inst n fuel routes unv := by
  intro fuel
  induction fuel with
  | zero =>
    intro step routes unv _ _ _ _
    cases unv <;> rfl
  | succ fuel ih =>
    intro step routes unv hlen hs hneg hcom
    cases unv with
    | nil => rfl
    | cons p ps =>
      simp only [ant_loop, greedy_loop]
      have hsel : ant_select inst params draws step routes (p :: ps)
          = select_greedy_pickup inst (p :: ps) routes := by
        unfold ant_select
        rw [if_pos (hcoin step)]
      rw [hsel]
      cases hscan : greedy_scan inst n routes (p :: ps) with
      | none =>
        rw [greedy_none_select inst n routes (p :: ps) hlen hscan]
        simp
      | some b =>
        have hcom' : ∀ c ∈ b :: greedy_commits inst n fuel
            (commit_insertion routes b.route_idx b.pickup_id b.delivery_id
              b.pickup_pos b.delivery_pos)
            (set_erase (p :: ps) b.pickup_id), c.efficiency_score < INT_MAX := by
          have := hcom
          simp only [greedy_commits, hscan] at this
          exact this
        obtain ⟨hpk, hdl, hselb, hfind⟩ := greedy_some_select inst n routes (p :: ps) b hlen hs
          hscan (hcom' b (by simp))
        have hne : b.pickup_id ≠ -1 := fun h => hneg (h ▸ hpk)
        rw [hselb, if_neg hne, hfind]
        dsimp only
        rw [← hdl]
        apply ih
        · simpa [commit_insertion] using hlen
        · exact List.Pairwise.erase _ hs
        · intro h
          exact hneg (List.mem_of_mem_erase h)
        · intro c hc
          exact hcom' c (List.mem_cons_of_mem _ hc)

/-- C22 on the code. An ant all of whose selection steps take the greedy branch builds
exactly the routes of `pure_greedy_insertion` for the same route count, slot by slot and
node by node, as long as every insertion committed by `pure_greedy_insertion` has a cost
increase below `INT_MAX` (and `-1` is not a pickup identifier): in every state of the loop
`select_greedy_pickup` followed by `find_best_insertion` selects the pair, route and
positions of the single scan of the greedy constructor, ties included, and selects nothing
when that scan finds nothing. On the instance `inst_sentinel`, whose only insertion is
feasible with cost increase exactly `INT_MAX`, the greedy constructor returns the route
1, 2 while the ant, whose comparisons against the initial value `INT_MAX` are strict,
selects nothing and returns an empty route. -/
theorem greedy_ant_matches_pure_greedy (inst : Instance) (params : HybridParams)
    (draws : AntDraws) (num_routes : Nat) :
    ((∀ step, draws.coin step < params.greedy_bias) →
      (-1 : Int) ∉ initial_unvisited inst →
      (∀ b ∈ pure_greedy_commits inst num_routes, b.efficiency_score < INT_MAX) →
      (construct_solution inst params draws num_routes).routes
        = pure_greedy_insertion inst num_routes)
    ∧ (∀ (routes : List Route) (unvisited : List Int),
        routes.length = num_routes → unvisited.Pairwise (fun x y => x < y) →
        (greedy_scan inst num_routes routes unvisited = none →
          select_greedy_pickup inst unvisited routes = -1)
        ∧ (∀ b, greedy_scan inst num_routes routes unvisited = some b →
            b.efficiency_score < INT_MAX →
            select_greedy_pickup inst unvisited routes = b.pickup_id
            ∧ find_best_insertion inst routes b.pickup_id (inst.node b.pickup_id).delivery_pair
                = some (b.route_idx, b.pickup_pos, b.delivery_pos)
            ∧ b.delivery_id = (inst.node b.pickup_id).delivery_pair))
    ∧ (pure_greedy_insertion inst_sentinel 1 = [[1, 2]]
        ∧ (pure_greedy_commits inst_sentinel 1).map GreedyInsertion.efficiency_score
            = [INT_MAX]
        ∧ select_greedy_pickup inst_sentinel [1] [[]] = -1
        ∧ (construct_solution inst_sentinel default_params
            { coin := fun _ => 0, wheel := fun _ => 0 } 1).routes = [[]]) := by
  refine ⟨fun hcoin hneg hcom => ?_, fun routes unv hlen hs => ⟨fun h => ?_, fun b h hb => ?_⟩,
    by decide⟩
  · have h := ant_loop_eq_greedy_loop inst params draws num_routes hcoin
      (initial_unvisited inst).length 0 (List.replicate num_routes [])
      (initial_unvisited inst) (by simp) (initial_unvisited_sorted inst) hneg hcom
    unfold construct_solution pure_greedy_insertion
    rw [calculate_cost_routes, h]
  · exact greedy_none_select inst num_routes routes unv hlen h
  · obtain ⟨_, h1, h2, h3⟩ := greedy_some_select inst num_routes routes unv b hlen hs h hb
    exact ⟨h2, h3, h1⟩

/-- C22 on the two-pair instance `inst2` with one route: the two insertions committed by the
greedy constructor cost 4 each, and the ant that always takes the greedy branch builds the
route 1, 3, 4, 2 of `pure_greedy_insertion`. -/
theorem greedy_ant_matches_pure_greedy_witness :
    (construct_solution inst2 default_params (greedy_draws.ant 0 0) 1).routes
        = pure_greedy_insertion inst2 1
    ∧ pure_greedy_insertion inst2 1 = [[1, 3, 4, 2]] :=
  ⟨(greedy_ant_matches_pure_greedy inst2 default_params (greedy_draws.ant 0 0) 1).1
      (fun _ => (by decide : (0 : ℚ) < default_params.greedy_bias)) (by decide) (by decide),
    by decide⟩

/-! ## Termination and frame of the local search, loss of coverage -/

theorem two_opt_count_fst (inst : Instance) :
    ∀ (fuel : Nat) (route : Route),
      (two_opt_count inst fuel route).map Prod.fst = two_opt_loop inst fuel route := by
  intro fuel
  induction fuel with
  | zero => intro route; rfl
  | succ fuel ih =>
    intro route
    simp only [two_opt_count, two_opt_loop]
    cases two_opt_scan inst route with
    | none => rfl
    | some new_route =>
      dsimp only
      rw [← ih new_route, Option.map_map]
      rfl

theorem two_opt_count_bound (inst : Instance) (route0 : Route) :
    ∀ (fuel : Nat) (route r : Route) (k : Nat), route.Perm route0 →
      two_opt_count inst fuel route = some (r, k) →
      (k : Int) ≤ calculate_route_cost inst route
          + (((route0.length + 1) * travel_bound inst route0 : Nat) : Int)
        ∧ calculate_route_cost inst r + (k : Int) ≤ calculate_route_cost inst route := by
  intro fuel
  induction fuel with
  | zero => intro route r k _ h; simp [two_opt_count] at h
  | succ fuel ih =>
    intro route r k hp h
    simp only [two_opt_count] at h
    cases hs : two_opt_scan inst route with
    | none =>
      rw [hs] at h
      simp only [Option.some.injEq, Prod.mk.injEq] at h
      obtain ⟨rfl, rfl⟩ := h
      have := cost_bound_perm inst route0 route hp
      constructor
      · push_cast at this ⊢; linarith
      · simp
    | some new_route =>
      rw [hs] at h
      simp only [Option.map_eq_some', Prod.mk.injEq] at h
      obtain ⟨⟨r', k'⟩, hrec, rfl, rfl⟩ := h
      obtain ⟨_, _, _, _, _, hc⟩ := two_opt_scan_some inst route new_route hs
      have hp' := (two_opt_scan_perm inst route new_route hs).trans hp
      obtain ⟨h1, h2⟩ := ih new_route r' k' hp' hrec
      push_cast at h1 ⊢
      constructor <;> omega

theorem two_opt_loop_mono (inst : Instance) :
    ∀ (fuel fuel' : Nat) (route r : Route), fuel ≤ fuel' →
      two_opt_loop inst fuel route = some r → two_opt_loop inst fuel' route = some r := by
  intro fuel
  induction fuel with
  | zero => intro fuel' route r _ h; simp [two_opt_loop] at h
  | succ fuel ih =>
    intro fuel' route r hle h
    obtain ⟨f, rfl⟩ : ∃ f, fuel' = f + 1 := ⟨fuel' - 1, by omega⟩
    simp only [two_opt_loop] at h ⊢
    cases hs : two_opt_scan inst route with
    | none => rw [hs] at h; exact h
    | some new_route =>
      rw [hs] at h
      exact ih f new_route r (by omega) h

/-- C23: `local_search_2opt` terminates on every input solution. For every route the loop
`while (improved_route)` leaves after finitely many scans: run with the bound
`two_opt_fuel` on the number of scans, or any larger bound, it returns the same route; the
number of accepted moves is at most the cost of the input route minus the cost of the
result, because every accepted move yields a permutation of the route whose integer cost is
strictly lower, and the cost of every permutation of the route is bounded below. The
routes of the result of `local_search_2opt` are the results of these loops. -/
theorem local_search_2opt_terminates (inst : Instance) :
    (∀ route : Route, ∃ (r : Route) (k : Nat),
        two_opt_count inst (two_opt_fuel inst route) route = some (r, k)
        ∧ (∀ fuel, two_opt_fuel inst route ≤ fuel → two_opt_loop inst fuel route = some r)
        ∧ two_opt_scan inst r = none
        ∧ calculate_route_cost inst r + (k : Int) ≤ calculate_route_cost inst route
        ∧ (k : Int) ≤ calculate_route_cost inst route
            + (((route.length + 1) * travel_bound inst route : Nat) : Int)
        ∧ (4 ≤ route.length → two_opt_route inst route = r))
    ∧ (∀ route new_route : Route, two_opt_scan inst route = some new_route →
        new_route.Perm route
        ∧ calculate_route_cost inst new_route < calculate_route_cost inst route)
    ∧ (∀ route0 route : Route, route.Perm route0 →
        -((((route0.length + 1) * travel_bound inst route0 : Nat) : Int))
          ≤ calculate_route_cost inst route)
    ∧ (∀ s : HybridSolution,
        (local_search_2opt inst s).routes = s.routes.map (two_opt_route inst)) := by
  refine ⟨fun route => ?_, fun route new_route h => ?_,
    fun route0 route hp => cost_bound_perm inst route0 route hp,
    fun s => local_search_2opt_routes inst s⟩
  · obtain ⟨r, hr⟩ := two_opt_loop_terminates inst route (two_opt_fuel inst route) route
      (List.Perm.refl _) (by unfold two_opt_fuel; omega)
    have hc := two_opt_count_fst inst (two_opt_fuel inst route) route
    rw [hr] at hc
    obtain ⟨⟨r', k⟩, hk, hfst⟩ := Option.map_eq_some'.mp hc
    dsimp only at hfst
    subst hfst
    obtain ⟨b1, b2⟩ := two_opt_count_bound inst route _ route r' k (List.Perm.refl _) hk
    refine ⟨r', k, hk, fun fuel hle => two_opt_loop_mono inst _ fuel route r' hle hr,
      (two_opt_loop_spec inst _ _ _ hr).1, b2, b1, fun h4 => ?_⟩
    have := two_opt_route_run inst route h4
    rw [hr] at this
    exact (Option.some.inj this).symm
  · obtain ⟨_, _, _, _, _, hc⟩ := two_opt_scan_some inst route new_route h
    exact ⟨two_opt_scan_perm inst route new_route h, hc⟩

theorem reverse_segment_ends (route : Route) (i j : Nat) (h1 : i + 2 ≤ j)
    (h2 : j + 2 ≤ route.length) :
    (reverse_segment route i j).length = route.length
    ∧ (reverse_segment route i j).take 1 = route.take 1
    ∧ (reverse_segment route i j).drop (route.length - 1) = route.drop (route.length - 1) := by
  have hlen : (reverse_segment route i j).length = route.length :=
    (reverse_segment_perm route i j (by omega)).length_eq
  refine ⟨hlen, ?_, ?_⟩
  · unfold reverse_segment
    rw [List.append_assoc, List.take_append_of_le_length (by simp; omega), List.take_take]
    congr 1
    omega
  · unfold reverse_segment
    have hA : (route.take (i + 1) ++ ((route.drop (i + 1)).take (j - i)).reverse).length
        = j + 1 := by
      simp only [List.length_append, List.length_take, List.length_reverse, List.length_drop]
      omega
    have hk : route.length - 1 = (route.take (i + 1)
        ++ ((route.drop (i + 1)).take (j - i)).reverse).length + (route.length - 1 - (j + 1)) := by
      rw [hA]; omega
    rw [hk, List.drop_append, List.drop_drop, hA]

theorem two_opt_loop_invariant (inst : Instance) (P : Route → Prop)
    (hstep : ∀ route new_route, P route → two_opt_scan inst route = some new_route →
      P new_route) :
    ∀ (fuel : Nat) (route r : Route), P route → two_opt_loop inst fuel route = some r →
      P r := by
  intro fuel
  induction fuel with
  | zero => intro route r _ h; simp [two_opt_loop] at h
  | succ fuel ih =>
    intro route r hP h
    simp only [two_opt_loop] at h
    cases hs : two_opt_scan inst route with
    | none =>
      rw [hs] at h
      cases h
      exact hP
    | some new_route =>
      rw [hs] at h
      exact ih new_route r (hstep route new_route hP hs) h

theorem two_opt_route_ends (inst : Instance) (route : Route) :
    (two_opt_route inst route).length = route.length
    ∧ (two_opt_route inst route).take 1 = route.take 1
    ∧ (two_opt_route inst route).drop (route.length - 1) = route.drop (route.length - 1) := by
  by_cases h : route.length < 4
  · have : two_opt_route inst route = route := by unfold two_opt_route; rw [if_pos h]
    rw [this]
    exact ⟨rfl, rfl, rfl⟩
  · have hrun := two_opt_route_run inst route (by omega)
    refine two_opt_loop_invariant inst
      (fun r => r.length = route.length ∧ r.take 1 = route.take 1
        ∧ r.drop (route.length - 1) = route.drop (route.length - 1))
      ?_ _ route _ ⟨rfl, rfl, rfl⟩ hrun
    intro r new_route ⟨hl, ht, hd⟩ hs
    obtain ⟨i, j, hm, rfl, _, _⟩ := two_opt_scan_some inst r new_route hs
    obtain ⟨m1, m2, m3⟩ := (mem_two_opt_pairs _ _ _).mp hm
    obtain ⟨e1, e2, e3⟩ := reverse_segment_ends r i j m2 (by omega)
    refine ⟨e1.trans hl, e2.trans ht, ?_⟩
    rw [← hl, e3, hl, hd]

theorem interior_split (l : Route) (h : 2 ≤ l.length) :
    l = l.take 1 ++ ((l.drop 1).take (l.length - 2) ++ l.drop (l.length - 1)) := by
  have h1 : l.drop (l.length - 1) = (l.drop 1).drop (l.length - 2) := by
    rw [List.drop_drop]
    congr 1
    omega
  rw [h1, List.take_append_drop, List.take_append_drop]

/-- C24: `local_search_2opt` changes neither the first nor the last node of any route: for
every solution and every route slot the output route has the length of the input route,
the same element at index 0 and the same element at its last index, and its interior
(the positions 1 to length−2) is a permutation of the interior of the input route. -/
theorem local_search_2opt_keeps_ends (inst : Instance) (s : HybridSolution) (k : Nat) :
    ((local_search_2opt inst s).routes.getD k []).length = (s.routes.getD k []).length
    ∧ ((local_search_2opt inst s).routes.getD k [])[0]? = (s.routes.getD k [])[0]?
    ∧ ((local_search_2opt inst s).routes.getD k [])[(s.routes.getD k []).length - 1]?
        = (s.routes.getD k [])[(s.routes.getD k []).length - 1]?
    ∧ ((local_search_2opt inst s).routes.getD k []).head?
        = (s.routes.getD k []).head?
    ∧ ((local_search_2opt inst s).routes.getD k []).getLast?
        = (s.routes.getD k []).getLast?
    ∧ ((((local_search_2opt inst s).routes.getD k []).drop 1).take
          ((s.routes.getD k []).length - 2)).Perm
        (((s.routes.getD k []).drop 1).take ((s.routes.getD k []).length - 2)) := by
  have hk : (local_search_2opt inst s).routes.getD k []
      = two_opt_route inst (s.routes.getD k []) := by
    rw [local_search_2opt_routes]
    by_cases hlt : k < s.routes.length
    · simp [List.getD_eq_getElem?_getD, List.getElem?_map, List.getElem?_eq_getElem hlt]
    · have h1 : s.routes[k]? = none := List.getElem?_eq_none (by omega)
      have h2 : (s.routes.map (two_opt_route inst))[k]? = none :=
        List.getElem?_eq_none (by simp; omega)
      simp only [List.getD_eq_getElem?_getD, h1, h2, Option.getD_none]
      exact ((two_opt_route_spec inst []).2.1 (by simp)).symm
  rw [hk]
  generalize s.routes.getD k [] = route
  obtain ⟨hl, ht, hd⟩ := two_opt_route_ends inst route
  have h0 : (two_opt_route inst route)[0]? = route[0]? := by
    have := congrArg (fun l => l[0]?) ht
    simpa [List.getElem?_take] using this
  have hlast : (two_opt_route inst route)[route.length - 1]? = route[route.length - 1]? := by
    have := congrArg (fun l => l[0]?) hd
    simpa [List.getElem?_drop] using this
  refine ⟨hl, h0, hlast, ?_, ?_, ?_⟩
  · rw [List.head?_eq_getElem?, List.head?_eq_getElem?, h0]
  · rw [List.getLast?_eq_getElem?, List.getLast?_eq_getElem?, hl, hlast]
  · by_cases h2 : 2 ≤ route.length
    · have hp := (two_opt_route_spec inst route).1
      have e1 := interior_split route h2
      have e2 := interior_split (two_opt_route inst route) (by omega)
      rw [hl, ht, hd] at e2
      have hp2 : (route.take 1 ++ (((two_opt_route inst route).drop 1).take (route.length - 2)
          ++ route.drop (route.length - 1))).Perm
          (route.take 1 ++ ((route.drop 1).take (route.length - 2)
            ++ route.drop (route.length - 1))) := by
        rw [← e1, ← e2]
        exact hp
      exact (List.perm_append_right_iff _).mp ((List.perm_append_left_iff _).mp hp2)
    · have : route.length - 2 = 0 := by omega
      rw [this]
      simp

/-- C25: the update of the global best can lose coverage. With the default parameters
(`greedy_bias` 0.85, below 1) and one route: on the instance `inst_unserved` the initial
greedy solution serves the pair (1, 2), an ant whose roulette selects the pickup 3 finds no
feasible insertion and stops with the empty solution, which uses fewer routes and so
compares strictly less, and `hybrid_aco_solve` returns the empty solution, which serves no
pair. On the instance `inst_unserved3` the initial greedy solution serves two pairs at cost
8, an ant that places the pair (1, 2) and then selects the pickup 5 stops with one pair on
the same number of routes at cost 4, and `hybrid_aco_solve` returns that solution. -/
theorem best_update_can_lose_coverage :
    default_params.greedy_bias < 1
    ∧ initial_solution inst_unserved 1
        = { routes := [[1, 2]], total_cost := 4, used_routes := 1 }
    ∧ ant_select inst_unserved default_params (roulette_draws.ant 0 0) 0 [[]] [1, 3] = 3
    ∧ find_best_insertion inst_unserved [[]] 3 (inst_unserved.node 3).delivery_pair = none
    ∧ construct_solution inst_unserved default_params (roulette_draws.ant 0 0) 1
        = { routes := [[]], total_cost := 0, used_routes := 0 }
    ∧ HybridSolution.lt
        (construct_solution inst_unserved default_params (roulette_draws.ant 0 0) 1)
        (initial_solution inst_unserved 1) = true
    ∧ hybrid_aco_solve inst_unserved default_params roulette_draws 1
        = { routes := [[]], total_cost := 0, used_routes := 0 }
    ∧ total_nodes_visited (hybrid_aco_solve inst_unserved default_params roulette_draws 1) / 2
        < total_nodes_visited (initial_solution inst_unserved 1) / 2
    ∧ initial_solution inst_unserved3 1
        = { routes := [[1, 3, 4, 2]], total_cost := 8, used_routes := 1 }
    ∧ construct_solution inst_unserved3 default_params (roulette_draws_late.ant 0 0) 1
        = { routes := [[1, 2]], total_cost := 4, used_routes := 1 }
    ∧ hybrid_aco_solve inst_unserved3 default_params roulette_draws_late 1
        = { routes := [[1, 2]], total_cost := 4, used_routes := 1 }
    ∧ total_nodes_visited
          (hybrid_aco_solve inst_unserved3 default_params roulette_draws_late 1) / 2
        < total_nodes_visited (initial_solution inst_unserved3 1) / 2 := by
  decide

/-! ## Evaluator within and beyond the range of int -/

theorem wrap_int_of_fits (x : Int) (h : fits_int x = true) : wrap_int x = x := by
  unfold fits_int INT_MIN INT_MAX at h
  simp only [Bool.and_eq_true, decide_eq_true_eq] at h
  unfold wrap_int
  omega

theorem wrap_int_add (x y : Int) : wrap_int (wrap_int x + y) = wrap_int (x + y) := by
  unfold wrap_int
  omega

theorem feasible_loop_int_eq (inst : Instance) :
    ∀ (rest : Route) (prev t load : Int) (vis : List Bool),
      walk_fits inst rest prev t load vis = true →
      feasible_loop_int inst rest prev t load vis = feasible_loop inst rest prev t load vis := by
  intro rest
  induction rest with
  | nil =>
    intro prev t load vis h
    simp only [walk_fits] at h
    simp only [feasible_loop_int, feasible_loop, wrap_int_of_fits _ h]
  | cons a rest ih =>
    intro prev t load vis h
    simp only [walk_fits, Bool.and_eq_true] at h
    obtain ⟨h1, h⟩ := h
    simp only [feasible_loop_int, feasible_loop, wrap_int_of_fits _ h1]
    split
    · rfl
    · rename_i hl
      rw [if_neg hl] at h
      simp only [Bool.and_eq_true] at h
      obtain ⟨h2, h⟩ := h
      rw [wrap_int_of_fits _ h2]
      split
      · rfl
      · rename_i hd
        have hd' := hd
        simp only [Bool.and_eq_true] at hd'
        rw [if_neg hd'] at h
        simp only [Bool.and_eq_true] at h
        obtain ⟨h3, h⟩ := h
        rw [wrap_int_of_fits _ h3]
        split
        · rfl
        · rename_i hc
          rw [if_neg hc] at h
          exact ih _ _ _ _ h

theorem is_feasible_route_int_eq (inst : Instance) (route : Route)
    (h : no_overflow inst route = true) :
    is_feasible_route_int inst route = is_feasible_route inst route := by
  unfold is_feasible_route_int is_feasible_route
  unfold no_overflow at h
  split
  · rfl
  · rename_i he
    rw [if_neg he] at h
    exact feasible_loop_int_eq inst _ _ _ _ _ h

theorem cost_loop_int_wrap (inst : Instance) :
    ∀ (l : Route) (t y : Int),
      wrap_int (cost_loop_int inst l t + y) = wrap_int (cost_loop inst l t + y) := by
  intro l
  induction l with
  | nil => intro t y; rfl
  | cons a l ih =>
    intro t y
    cases l with
    | nil => rfl
    | cons b rest =>
      simp only [cost_loop_int, cost_loop]
      rw [ih, cost_loop_eq, cost_loop_eq, add_assoc, wrap_int_add, ← add_assoc]

theorem calculate_route_cost_int_wrap (inst : Instance) (route : Route) :
    calculate_route_cost_int inst route = wrap_int (calculate_route_cost inst route) := by
  cases route with
  | nil => rfl
  | cons r0 rest =>
    simp only [calculate_route_cost_int, calculate_route_cost]
    exact cost_loop_int_wrap inst _ _ _

/-- Counterexample to C2 as stated, on the route of node 1 alone of the instance
`inst_ovf`: the node identifier is in range and the program's walk accepts the route,
because the return time 2147483647 + 1 leaves the range of `int` and is held as
−2147483648, while invariant (d) fails: the departure 2147483647 plus the travel time 1 back
to the depot exceeds the late time 1000 of the depot. -/
theorem feasible_route_overflow_accepted :
    (∀ x ∈ ([1] : Route), 0 ≤ x ∧ x < inst_ovf.size)
    ∧ is_feasible_route_int inst_ovf [1] = true
    ∧ ¬ DepotReturnOk inst_ovf [1]
    ∧ clock inst_ovf [1] 1 + inst_ovf.travel 1 0 = 2147483648
    ∧ wrap_int 2147483648 = -2147483648
    ∧ (inst_ovf.node 0).late_time = 1000
    ∧ no_overflow inst_ovf [1] = false := by
  refine ⟨by decide, by decide, ?_, by decide, by decide, by decide, by decide⟩
  intro h
  have := h (by simp)
  revert this
  decide

/-- C2 (amended): on a route of in-range node identifiers for which no `int` addition of the
walk overflows, `is_feasible_route` returns true exactly when (a) every delivery is preceded
by its paired pickup (an earlier position holds its `pickup_pair`, and that node is a
pickup), (b) the running load stays within 0 and the capacity, (c) every arrival, with the
clock started at 0 at the depot and departure = max(arrival, early_time) + service_duration,
is at most the late time of its node, and (d) the departure from the last node plus the
travel time to node 0 is at most the late time of the depot; the empty route is feasible.
When the `pickup_pair` of every delivery of the route is a pickup node, (a) is plain
precedence of positions. -/
theorem is_feasible_route_int_iff (inst : Instance) (route : Route)
    (hr : ∀ x ∈ route, 0 ≤ x ∧ x < inst.size)
    (hno : no_overflow inst route = true) :
    (is_feasible_route_int inst route = true
      ↔ (PrecedenceOk inst route ∧ LoadOk inst route ∧ WindowsOk inst route
          ∧ DepotReturnOk inst route))
    ∧ is_feasible_route_int inst [] = true
    ∧ ((∀ x ∈ route, (inst.node x).is_delivery = true →
          (inst.node (inst.node x).pickup_pair).is_pickup = true) →
        (is_feasible_route_int inst route = true
          ↔ (PrecedencePlain inst route ∧ LoadOk inst route ∧ WindowsOk inst route
              ∧ DepotReturnOk inst route))) := by
  rw [is_feasible_route_int_eq inst route hno]
  refine ⟨feasible_route_characterisation inst route hr, rfl, fun hwf => ?_⟩
  rw [feasible_route_characterisation inst route hr]
  have hiff : PrecedenceOk inst route ↔ PrecedencePlain inst route := by
    constructor
    · intro h i hi hd
      obtain ⟨j, hj, hq, _⟩ := h i hi hd
      exact ⟨j, hj, hq⟩
    · intro h i hi hd
      obtain ⟨j, hj, hq⟩ := h i hi hd
      refine ⟨j, hj, hq, ?_⟩
      rw [hq]
      apply hwf _ _ hd
      rw [List.getD_eq_getElem _ _ hi]
      exact List.getElem_mem _
  rw [hiff]

/-- Witness of the amended C2 on the route 1, 2 of the one-pair instance, which the walk
accepts without overflow. -/
theorem is_feasible_route_int_iff_witness :
    (∀ x ∈ ([1, 2] : Route), 0 ≤ x ∧ x < inst1.size)
    ∧ no_overflow inst1 [1, 2] = true
    ∧ is_feasible_route_int inst1 [1, 2] = true
    ∧ (is_feasible_route_int inst1 [1, 2] = true
        ↔ (PrecedenceOk inst1 [1, 2] ∧ LoadOk inst1 [1, 2] ∧ WindowsOk inst1 [1, 2]
            ∧ DepotReturnOk inst1 [1, 2])) :=
  ⟨by decide, by decide, by decide,
    (is_feasible_route_int_iff inst1 [1, 2] (by decide) (by decide)).1⟩

/-- Counterexample to C3 as stated, on the route of node 1 alone of the instance
`inst_ovf`: `travel[0][1] + travel[1][0]` is 2147483647 + 1 = 2147483648, which is not an
`int`, and the program returns −2147483648. -/
theorem route_cost_overflow_wraps :
    calculate_route_cost_int inst_ovf [1] = -2147483648
    ∧ inst_ovf.travel 0 1 + inst_ovf.travel 1 0 = 2147483648
    ∧ calculate_route_cost_int inst_ovf [1] ≠ inst_ovf.travel 0 1 + inst_ovf.travel 1 0 := by
  decide

/-- C3 (amended): `calculate_route_cost` of the empty route is 0; of a one-node route `[p]`
it is `travel[0][p] + travel[p][0]` when that sum lies within the range of `int`; and of a
non-empty route it is the depot-to-first travel time plus the sum over the consecutive pairs
plus the last-to-depot travel time when that total lies within the range of `int`. -/
theorem calculate_route_cost_int_spec (inst : Instance) :
    calculate_route_cost_int inst [] = 0
    ∧ (∀ p : Int, fits_int (inst.travel 0 p + inst.travel p 0) = true →
        calculate_route_cost_int inst [p] = inst.travel 0 p + inst.travel p 0)
    ∧ (∀ (r0 : Int) (rest : Route),
        fits_int (inst.travel 0 r0
            + (((r0 :: rest).zip rest).map (fun ab => inst.travel ab.1 ab.2)).sum
            + inst.travel ((r0 :: rest).getLast (List.cons_ne_nil r0 rest)) 0) = true →
        calculate_route_cost_int inst (r0 :: rest)
          = inst.travel 0 r0
            + (((r0 :: rest).zip rest).map (fun ab => inst.travel ab.1 ab.2)).sum
            + inst.travel ((r0 :: rest).getLast (List.cons_ne_nil r0 rest)) 0) := by
  refine ⟨rfl, ?_, ?_⟩
  · intro p h
    rw [calculate_route_cost_int_wrap]
    have : calculate_route_cost inst [p] = inst.travel 0 p + inst.travel p 0 := by
      simp [calculate_route_cost, cost_loop]
    rw [this]
    exact wrap_int_of_fits _ h
  · intro r0 rest h
    rw [calculate_route_cost_int_wrap]
    have : calculate_route_cost inst (r0 :: rest)
        = inst.travel 0 r0
          + (((r0 :: rest).zip rest).map (fun ab => inst.travel ab.1 ab.2)).sum
          + inst.travel ((r0 :: rest).getLast (List.cons_ne_nil r0 rest)) 0 := by
      rw [cost_cons]
      simp [consecutive_sum, List.getLastD_eq_getLast?, List.getLast?_eq_getLast]
    rw [this]
    exact wrap_int_of_fits _ h

/-- Witness of the amended C3 on the one-pair instance: the route 1, 2 costs
3 + 5 + 4 = 12 and the route of node 1 alone costs 3 + 3 = 6. -/
theorem calculate_route_cost_int_spec_witness :
    calculate_route_cost_int inst1 [1, 2] = 12 ∧ calculate_route_cost_int inst1 [1] = 6 :=
  ⟨((calculate_route_cost_int_spec inst1).2.2 1 [2] (by decide)).trans (by decide),
    ((calculate_route_cost_int_spec inst1).2.1 1 (by decide)).trans (by decide)⟩

/-! ## Pheromone update in the arithmetic of double -/

theorem dmat_get_set {D : Type} (ops : DoubleOps D) (m : List (List D)) (i j a b : Int)
    (x : D) :
    dmat_get ops (dmat_set m i j x) a b
      = if a = i ∧ b = j ∧ HasEntry m i j then x else dmat_get ops m a b := by
  unfold dmat_get dmat_set HasEntry
  rw [vec_get_set]
  by_cases h1 : a = i ∧ 0 ≤ i ∧ i < (m.length : Int)
  · rw [if_pos h1, vec_get_set]
    obtain ⟨rfl, h2, h3⟩ := h1
    by_cases h4 : b = j ∧ 0 ≤ j ∧ j < ((vec_get m a []).length : Int)
    · rw [if_pos h4, if_pos ⟨rfl, h4.1, h2, h3, h4.2.1, h4.2.2⟩]
    · rw [if_neg h4, if_neg (fun h => h4 ⟨h.2.1, h.2.2.2.2⟩)]
  · rw [if_neg h1, if_neg (fun h => h1 ⟨h.1, h.2.2.1, h.2.2.2.1⟩)]

theorem hasEntry_set {D : Type} (m : List (List D)) (i j a b : Int) (x : D) :
    HasEntry (dmat_set m i j x) a b ↔ HasEntry m a b := by
  unfold HasEntry dmat_set
  have hlen : (vec_get (vec_set m i (vec_set (vec_get m i []) j x)) a []).length
      = (vec_get m a []).length := by
    rw [vec_get_set]
    split
    · rename_i h1
      rw [vec_set_len, h1.1]
    · rfl
  rw [vec_set_len, hlen]

theorem dmat_get_add {D : Type} (ops : DoubleOps D) (m : List (List D)) (i j a b : Int)
    (x : D) (h : HasEntry m a b) :
    dmat_get ops (dmat_add ops m i j x) a b
      = if (i, j) = (a, b) then ops.add (dmat_get ops m a b) x else dmat_get ops m a b := by
  unfold dmat_add
  rw [dmat_get_set]
  by_cases h1 : a = i ∧ b = j
  · obtain ⟨rfl, rfl⟩ := h1
    simp [h]
  · have h2 : ¬ (a = i ∧ b = j ∧ HasEntry m i j) := fun h' => h1 ⟨h'.1, h'.2.1⟩
    have h3 : ¬ ((i, j) = (a, b)) := by
      intro h'
      simp only [Prod.mk.injEq] at h'
      exact h1 ⟨h'.1.symm, h'.2.symm⟩
    rw [if_neg h2, if_neg h3]

/-- Adding `delta` along a list of arcs applies one addition of `delta` to an existing
entry per occurrence of its arc. -/
theorem dmat_get_foldl_add {D : Type} (ops : DoubleOps D) (delta : D) (a b : Int)
    (arcs : List (Int × Int)) :
    ∀ m : List (List D), HasEntry m a b →
      dmat_get ops (arcs.foldl (fun m ab => dmat_add ops m ab.1 ab.2 delta) m) a b
          = Nat.iterate (fun u => ops.add u delta) (arcs.count (a, b)) (dmat_get ops m a b)
        ∧ HasEntry (arcs.foldl (fun m ab => dmat_add ops m ab.1 ab.2 delta) m) a b := by
  induction arcs with
  | nil => intro m h; simp [h]
  | cons ab arcs ih =>
    intro m h
    obtain ⟨h1, h2⟩ := ih (dmat_add ops m ab.1 ab.2 delta) ((hasEntry_set m _ _ a b _).mpr h)
    rw [List.foldl_cons]
    refine ⟨?_, h2⟩
    rw [h1, dmat_get_add ops m _ _ a b _ h, List.count_cons]
    by_cases he : (ab.1, ab.2) = (a, b)
    · have : (ab == (a, b)) = true := by
        rw [beq_iff_eq]; exact he
      rw [if_pos he, this]
      simp only [if_true, Function.iterate_succ, Function.comp_apply]
    · have : (ab == (a, b)) = false := by
        rw [beq_eq_false_iff_ne]; exact he
      rw [if_neg he, this]
      simp

theorem ddeposit_consecutive_eq {D : Type} (ops : DoubleOps D) (delta : D) (route : Route) :
    ∀ m : List (List D), ddeposit_consecutive ops m route delta
      = (route.zip route.tail).foldl (fun m ab => dmat_add ops m ab.1 ab.2 delta) m := by
  induction route with
  | nil => intro m; simp [ddeposit_consecutive]
  | cons a rest ih =>
    intro m
    cases rest with
    | nil => simp [ddeposit_consecutive]
    | cons b rest =>
      rw [ddeposit_consecutive, ih]
      simp

theorem ddeposit_route_eq {D : Type} (ops : DoubleOps D) (m : List (List D)) (route : Route)
    (delta : D) :
    ddeposit_route ops m route delta
      = (route_arcs route).foldl (fun m ab => dmat_add ops m ab.1 ab.2 delta) m := by
  cases route with
  | nil => simp [ddeposit_route, route_arcs]
  | cons r0 rest =>
    have h : route_arcs (r0 :: rest)
        = (0, r0) :: ((r0 :: rest).zip rest ++ [((r0 :: rest).getLastD 0, 0)]) := by
      unfold route_arcs
      simp only [List.isEmpty_cons, Bool.false_eq_true, if_false, List.cons_append,
        List.zip_cons_cons]
      rw [zip_cons_snoc]
    rw [h, ddeposit_route, ddeposit_consecutive_eq, List.foldl_cons, List.foldl_append]
    simp

theorem foldl_ddeposit_eq {D : Type} (ops : DoubleOps D) (delta : D) (routes : List Route) :
    ∀ m : List (List D), routes.foldl (fun m route => ddeposit_route ops m route delta) m
      = (solution_arcs routes).foldl (fun m ab => dmat_add ops m ab.1 ab.2 delta) m := by
  induction routes with
  | nil => intro m; simp [solution_arcs]
  | cons r routes ih =>
    intro m
    rw [List.foldl_cons, ih, ddeposit_route_eq]
    simp [solution_arcs, List.foldl_append]

theorem dmat_get_reinforce {D : Type} (ops : DoubleOps D) (a b : Int)
    (sols : List HybridSolution) :
    ∀ m : List (List D), HasEntry m a b →
      dmat_get ops (sols.foldl (fun m solution =>
          solution.routes.foldl
            (fun m route => ddeposit_route ops m route (delta_tau ops solution)) m) m) a b
        = reinforced ops sols a b (dmat_get ops m a b)
      ∧ HasEntry (sols.foldl (fun m solution =>
          solution.routes.foldl
            (fun m route => ddeposit_route ops m route (delta_tau ops solution)) m) m) a b := by
  induction sols with
  | nil => intro m h; exact ⟨rfl, h⟩
  | cons s sols ih =>
    intro m h
    have hd := dmat_get_foldl_add ops (delta_tau ops s) a b (solution_arcs s.routes) m h
    rw [← foldl_ddeposit_eq] at hd
    obtain ⟨h1, h2⟩ := hd
    obtain ⟨h3, h4⟩ := ih _ h2
    rw [List.foldl_cons]
    refine ⟨?_, h4⟩
    rw [h3, h1]
    rfl

theorem devaporate_keys_eq {D : Type} (ops : DoubleOps D) (n : Nat) (c : D)
    (m : List (List D)) :
    (List.range n).foldl (fun (m : List (List D)) (i : Nat) =>
        (List.range n).foldl (fun (m : List (List D)) (j : Nat) =>
          dmat_set m i j (ops.mul c (dmat_get ops m i j))) m) m
      = ((List.range n).flatMap (fun (i : Nat) => (List.range n).map
            (fun (j : Nat) => ((i : Int), (j : Int))))).foldl
          (fun m k => dmat_set m k.1 k.2 (ops.mul c (dmat_get ops m k.1 k.2))) m := by
  rw [foldl_flatMap_eq]
  congr 1
  funext m i
  rw [List.foldl_map]

theorem dmat_get_scale_keys {D : Type} (ops : DoubleOps D) (c : D) (a b : Int)
    (ks : List (Int × Int)) (hn : ks.Nodup) :
    ∀ m : List (List D), HasEntry m a b →
      dmat_get ops
          (ks.foldl (fun m k => dmat_set m k.1 k.2 (ops.mul c (dmat_get ops m k.1 k.2))) m) a b
        = if (a, b) ∈ ks then ops.mul c (dmat_get ops m a b) else dmat_get ops m a b := by
  induction ks with
  | nil => intro m _; simp
  | cons k ks ih =>
    intro m h
    rw [List.nodup_cons] at hn
    rw [List.foldl_cons, ih hn.2 _ ((hasEntry_set m _ _ a b _).mpr h), dmat_get_set]
    by_cases hk : (a, b) = k
    · subst hk
      have h1 : (a, b) ∉ ks := hn.1
      simp [h1, h]
    · have h1 : ¬ (a = k.1 ∧ b = k.2 ∧ HasEntry m k.1 k.2) := by
        intro h'
        exact hk (Prod.ext h'.1 h'.2.1)
      rw [if_neg h1]
      simp only [List.mem_cons, hk, false_or]

theorem hasEntry_scale_keys {D : Type} (ops : DoubleOps D) (c : D) (a b : Int)
    (ks : List (Int × Int)) :
    ∀ m : List (List D),
      HasEntry
          (ks.foldl (fun m k => dmat_set m k.1 k.2 (ops.mul c (dmat_get ops m k.1 k.2))) m) a b
        ↔ HasEntry m a b := by
  induction ks with
  | nil => intro m; rfl
  | cons k ks ih =>
    intro m
    rw [List.foldl_cons, ih, hasEntry_set]

theorem dmat_get_evaporate {D : Type} (ops : DoubleOps D) (n : Nat) (rho : D)
    (m : List (List D)) (i j : Nat) (hi : i < n) (hj : j < n) (h : HasEntry m i j) :
    dmat_get ops (devaporate ops n rho m) i j
      = ops.mul (ops.sub (ops.of_int 1) rho) (dmat_get ops m i j) := by
  unfold devaporate
  rw [devaporate_keys_eq, dmat_get_scale_keys ops _ _ _ _ (evaporate_keys_nodup n) m h,
    if_pos (mem_evaporate_keys n i j hi hj)]

theorem hasEntry_evaporate {D : Type} (ops : DoubleOps D) (n : Nat) (rho : D)
    (m : List (List D)) (a b : Int) :
    HasEntry (devaporate ops n rho m) a b ↔ HasEntry m a b := by
  unfold devaporate
  rw [devaporate_keys_eq, hasEntry_scale_keys]

theorem dmat_get_update {D : Type} (ops : DoubleOps D) (inst : Instance)
    (params : HybridParams) (rho : D) (solutions : List HybridSolution) (m : List (List D))
    (i j : Nat) (hi : i < inst.size) (hj : j < inst.size) (h : HasEntry m i j) :
    dmat_get ops (update_pheromone_in ops inst params rho solutions m) i j
      = reinforced ops (solutions.take (min params.elite_solutions solutions.length).toNat)
          i j (ops.mul (ops.sub (ops.of_int 1) rho) (dmat_get ops m i j)) := by
  unfold update_pheromone_in
  rw [(dmat_get_reinforce ops i j _ _ ((hasEntry_evaporate ops _ _ m i j).mpr h)).1,
    dmat_get_evaporate ops _ _ m i j hi hj h]

theorem reinforced_unused {D : Type} (ops : DoubleOps D) (a b : Int) :
    ∀ (elite : List HybridSolution) (v : D),
      (∀ s ∈ elite, (a, b) ∉ solution_arcs s.routes) → reinforced ops elite a b v = v := by
  intro elite
  induction elite with
  | nil => intro v _; rfl
  | cons s elite ih =>
    intro v h
    unfold reinforced at ih ⊢
    rw [List.foldl_cons, List.count_eq_zero.mpr (h s (by simp))]
    exact ih _ (fun s' hs' => h s' (List.mem_cons_of_mem _ hs'))

theorem reinforced_exact (a b : Int) :
    ∀ (elite : List HybridSolution) (v : ℚ),
      reinforced exact_ops elite a b v
        = v + (elite.map (fun s =>
            10 / ((s.total_cost : ℚ) + 1) * ((solution_arcs s.routes).count (a, b) : ℚ))).sum := by
  intro elite
  induction elite with
  | nil => intro v; simp [reinforced]
  | cons s elite ih =>
    intro v
    have hit : ∀ (n : Nat) (u : ℚ),
        Nat.iterate (fun u => exact_ops.add u (delta_tau exact_ops s)) n u
          = u + 10 / ((s.total_cost : ℚ) + 1) * (n : ℚ) := by
      intro n
      induction n with
      | zero => intro u; simp
      | succ n ihn =>
        intro u
        rw [Function.iterate_succ, Function.comp_apply, ihn]
        simp only [exact_ops, delta_tau]
        push_cast
        ring
    unfold reinforced at ih ⊢
    rw [List.foldl_cons, ih, hit, List.map_cons, List.sum_cons]
    ring

/-- Counterexample to C11 as stated: on the one-pair instance, with the default `rho` (the
`double` nearest to 0.1) and a batch of one solution with the route 1, 2 and `total_cost`
12, the entry (1, 2), whose prior value is 3, becomes 7812013199784976 / 2^51, which is
neither (1 − rho) · 3 + 10 / 13 for the value of `rho` nor 451 / 130, its value for rho =
1/10; and the entry (1, 1), whose arc is not used and whose prior value is 1, becomes
8106479329266893 / 2^53, which is not 1 − rho. -/
theorem update_pheromone_rounds :
    dmat_get binary64_ops (update_pheromone_in binary64_ops inst1 default_params
        (some rho_default) [{ routes := [[1, 2]], total_cost := 12, used_routes := 1 }]
        matrix_one_pair) 1 2 = some ⟨7812013199784976, -51⟩
    ∧ dmat_get binary64_ops matrix_one_pair 1 2 = some ⟨3, 0⟩
    ∧ (⟨7812013199784976, -51⟩ : Binary).to_rat
        ≠ (1 - rho_default.to_rat) * 3 + 10 / ((12 : ℚ) + 1) * 1
    ∧ (⟨7812013199784976, -51⟩ : Binary).to_rat ≠ 451 / 130
    ∧ dmat_get binary64_ops (update_pheromone_in binary64_ops inst1 default_params
        (some rho_default) [{ routes := [[1, 2]], total_cost := 12, used_routes := 1 }]
        matrix_one_pair) 1 1 = some ⟨8106479329266893, -53⟩
    ∧ dmat_get binary64_ops matrix_one_pair 1 1 = some ⟨1, 0⟩
    ∧ (⟨8106479329266893, -53⟩ : Binary).to_rat ≠ 1 * (1 - rho_default.to_rat) := by
  refine ⟨by decide, by decide, ?_, ?_, by decide, by decide, ?_⟩
  · simp only [Binary.to_rat, rho_default]
    norm_num
  · simp only [Binary.to_rat]
    norm_num
  · simp only [Binary.to_rat, rho_default]
    norm_num

/-- C11 (amended): after `update_pheromone(batch)` every entry `(i, j)` of the matrix is
obtained from its prior value by one multiplication with `1.0 - rho` followed, for each of
the first `min(elite_solutions, |batch|)` solutions of the batch in turn, by one addition
of `10.0 / (total_cost + 1.0)` per use of the arc `(i, j)` by the routes of the solution,
every operation being the operation of `double`; an entry whose arc none of these solutions
uses is the product of `1.0 - rho` and its prior value. In exact arithmetic the value is
`(1 - rho)` times the prior value plus the sum of `10 / (total_cost + 1)` times the number
of uses. -/
theorem update_pheromone_entry_double {D : Type} (ops : DoubleOps D) (inst : Instance)
    (params : HybridParams) (rho : D) (batch : List HybridSolution)
    (pheromone : List (List D)) (i j : Nat)
    (hi : i < inst.size) (hj : j < inst.size) (hb : HasEntry pheromone i j) :
    dmat_get ops (update_pheromone_in ops inst params rho batch pheromone) i j
        = (batch.take (min params.elite_solutions batch.length).toNat).foldl
            (fun v s =>
              Nat.iterate
                (fun u => ops.add u
                  (ops.div (ops.of_int 10) (ops.add (ops.of_int s.total_cost) (ops.of_int 1))))
                ((solution_arcs s.routes).count ((i : Int), (j : Int))) v)
            (ops.mul (ops.sub (ops.of_int 1) rho) (dmat_get ops pheromone i j))
    ∧ ((∀ s ∈ batch.take (min params.elite_solutions batch.length).toNat,
          ((i : Int), (j : Int)) ∉ solution_arcs s.routes) →
        dmat_get ops (update_pheromone_in ops inst params rho batch pheromone) i j
          = ops.mul (ops.sub (ops.of_int 1) rho) (dmat_get ops pheromone i j))
    ∧ (∀ (elite : List HybridSolution) (v : ℚ),
        elite.foldl
            (fun v s =>
              Nat.iterate
                (fun u => exact_ops.add u
                  (exact_ops.div (exact_ops.of_int 10)
                    (exact_ops.add (exact_ops.of_int s.total_cost) (exact_ops.of_int 1))))
                ((solution_arcs s.routes).count ((i : Int), (j : Int))) v) v
          = v + (elite.map (fun s =>
              10 / ((s.total_cost : ℚ) + 1)
                * ((solution_arcs s.routes).count ((i : Int), (j : Int)) : ℚ))).sum) := by
  have h := dmat_get_update ops inst params rho batch pheromone i j hi hj hb
  refine ⟨h, fun hno => ?_, fun elite v => reinforced_exact i j elite v⟩
  rw [h]
  exact reinforced_unused ops i j _ _ hno

/-- Witness of the amended C11 on the one-pair instance with the arithmetic of `double`:
the entry (1, 2) after one update of the initial matrix. -/
theorem update_pheromone_entry_double_witness :
    HasEntry matrix_one_pair ((1 : Nat) : Int) ((2 : Nat) : Int)
    ∧ dmat_get binary64_ops (update_pheromone_in binary64_ops inst1 default_params
        (some rho_default) [{ routes := [[1, 2]], total_cost := 12, used_routes := 1 }]
        matrix_one_pair) ((1 : Nat) : Int) ((2 : Nat) : Int)
      = binary64_ops.add
          (binary64_ops.mul (binary64_ops.sub (binary64_ops.of_int 1) (some rho_default))
            (some ⟨3, 0⟩))
          (binary64_ops.div (binary64_ops.of_int 10)
            (binary64_ops.add (binary64_ops.of_int 12) (binary64_ops.of_int 1))) :=
  ⟨by decide,
    ((update_pheromone_entry_double binary64_ops inst1 default_params (some rho_default)
      [{ routes := [[1, 2]], total_cost := 12, used_routes := 1 }] matrix_one_pair 1 2
      (by decide) (by decide) (by decide)).1).trans (by decide)⟩

/-! ## The exact pheromone update as an instance of the update on double values -/

theorem dmat_get_exact (m : Pheromone) (i j : Int) : dmat_get exact_ops m i j = mat_get m i j := by
  simp [dmat_get, mat_get, exact_ops]

theorem dmat_add_exact (m : Pheromone) (i j : Int) (x : ℚ) :
    dmat_add exact_ops m i j x = mat_add m i j x := by
  unfold dmat_add mat_add dmat_set mat_set
  rw [dmat_get_exact]
  rfl

theorem ddeposit_consecutive_exact (route : Route) (delta : ℚ) :
    ∀ m : Pheromone,
      ddeposit_consecutive exact_ops m route delta = deposit_consecutive m route delta := by
  induction route with
  | nil => intro m; rfl
  | cons a rest ih =>
    intro m
    cases rest with
    | nil => rfl
    | cons b rest =>
      simp only [ddeposit_consecutive, deposit_consecutive, dmat_add_exact]
      exact ih _

theorem ddeposit_route_exact (m : Pheromone) (route : Route) (delta : ℚ) :
    ddeposit_route exact_ops m route delta = deposit_route m route delta := by
  cases route with
  | nil => rfl
  | cons r0 rest =>
    simp only [ddeposit_route, deposit_route, dmat_add_exact, ddeposit_consecutive_exact]

theorem devaporate_exact (size : Nat) (rho : ℚ) (m : Pheromone) :
    devaporate exact_ops size rho m = evaporate size rho m := by
  unfold devaporate evaporate
  simp only [dmat_get_exact, dmat_set, mat_set]
  have h1 : exact_ops.of_int 1 = (1 : ℚ) := by simp [exact_ops]
  rw [h1]
  rfl

/-- The update on exact rationals is the update on `double` values with every operation taken
as exact. -/
theorem update_pheromone_in_exact (inst : Instance) (params : HybridParams)
    (solutions : List HybridSolution) (pheromone : Pheromone) :
    update_pheromone_in exact_ops inst params params.rho solutions pheromone
      = update_pheromone inst params solutions pheromone := by
  unfold update_pheromone_in update_pheromone
  simp only [ddeposit_route_exact, devaporate_exact, delta_tau]
  have h : ∀ n : Int, exact_ops.div (exact_ops.of_int 10)
      (exact_ops.add (exact_ops.of_int n) (exact_ops.of_int 1)) = 10 / ((n : ℚ) + 1) := by
    intro n
    simp [exact_ops]
  simp only [h]

/-! ## Pairs without a feasible insertion -/

theorem well_formed_own_ids {inst : Instance} (hw : WellFormed inst) (p : Int)
    (hp : p ∈ initial_unvisited inst) :
    ∀ q ∈ initial_unvisited inst, q ≠ p →
      q ≠ (inst.node p).delivery_pair ∧ (inst.node q).delivery_pair ≠ p
        ∧ (inst.node q).delivery_pair ≠ (inst.node p).delivery_pair := by
  intro q hq hne
  refine ⟨fun h => ?_, fun h => ?_, fun h => ?_⟩
  · exact well_formed_delivery_not_pickup hw p hp (h ▸ hq)
  · exact well_formed_delivery_not_pickup hw q hq (h ▸ hp)
  · exact hne (well_formed_delivery_inj hw q p hq hp h)

theorem feasible_loop_demand_ge (inst : Instance) :
    ∀ (rest : Route) (prev t load : Int) (vis : List Bool), load ≤ inst.capacity →
      feasible_loop inst rest prev t load vis = true →
      ∀ x ∈ rest, -inst.capacity ≤ (inst.node x).demand := by
  intro rest
  induction rest with
  | nil => intro _ _ _ _ _ _ x hx; cases hx
  | cons a rest ih =>
    intro prev t load vis hl h x hx
    simp only [feasible_loop] at h
    split at h
    · cases h
    · split at h
      · cases h
      · split at h
        · cases h
        · rename_i hload
          simp only [Bool.or_eq_true, decide_eq_true_eq, not_or, not_lt] at hload
          rcases List.mem_cons.mp hx with rfl | hx
          · omega
          · exact ih _ _ _ _ (by omega) h x hx

/-- A route that holds a node taking off more than the capacity is not feasible, when the
capacity is not negative. -/
theorem infeasible_of_underload (inst : Instance) (route : Route) (x : Int) (hx : x ∈ route)
    (hc : 0 ≤ inst.capacity) (hd : (inst.node x).demand < -inst.capacity) :
    is_feasible_route inst route = false := by
  cases hf : is_feasible_route inst route with
  | false => rfl
  | true =>
    unfold is_feasible_route at hf
    cases route with
    | nil => cases hx
    | cons a rest =>
      simp only [List.isEmpty_cons, Bool.false_eq_true, if_false] at hf
      have := feasible_loop_demand_ge inst _ _ _ _ _ hc hf x hx
      omega

theorem mem_insert_pair_delivery (route : Route) (pk dl : Int) (p d : Nat) :
    dl ∈ insert_pair route pk dl p d :=
  (insert_pair_perm route pk dl p d).mem_iff.mpr (by simp)

/-- Counterexample to C15 as stated, on two instances that the program reads. On
`inst_shared` the pair of pickup 1 and its delivery 3 has no feasible insertion into any
route at any positions (node 1 asks for 20 with capacity 10), and yet node 3 is in the route
returned by `pure_greedy_insertion`, in the route built by an ant and in the solution that
`solve` ends with (run with one ant and one iteration), as the delivery of pickup 2. On
`inst_chain` the pair of pickup 2 and its delivery 3 has no feasible insertion into any
route at any positions (node 3 takes off 20 with capacity 10), and yet node 2 is in these
routes, as the delivery of pickup 1. -/
theorem foreign_pair_node_is_served :
    ((∀ (route : Route) (p_pos d_pos : Nat),
        is_feasible_insertion inst_shared route 1 (inst_shared.node 1).delivery_pair
          p_pos d_pos = false)
      ∧ (inst_shared.node 1).delivery_pair = 3
      ∧ pure_greedy_insertion inst_shared 1 = [[2, 3]]
      ∧ (construct_solution inst_shared default_params (greedy_draws.ant 0 0) 1).routes
          = [[2, 3]]
      ∧ (solve_escalation inst_shared { default_params with num_ants := 1, max_iterations := 1 }
          (fun _ => greedy_draws) 1).best_solution.routes.flatten = [2, 3])
    ∧ ((∀ (route : Route) (p_pos d_pos : Nat),
        is_feasible_insertion inst_chain route 2 (inst_chain.node 2).delivery_pair
          p_pos d_pos = false)
      ∧ (inst_chain.node 2).delivery_pair = 3
      ∧ pure_greedy_insertion inst_chain 1 = [[1, 2]]
      ∧ (construct_solution inst_chain default_params (greedy_draws.ant 0 0) 1).routes
          = [[1, 2]]
      ∧ (solve_escalation inst_chain { default_params with num_ants := 1, max_iterations := 1 }
          (fun _ => greedy_draws) 1).best_solution.routes.flatten = [1, 2]) := by
  refine ⟨⟨fun route p d => ?_, by decide, by decide, by decide, by decide⟩,
    ⟨fun route p d => ?_, by decide, by decide, by decide, by decide⟩⟩
  · unfold is_feasible_insertion
    split
    · rfl
    · exact infeasible_of_overload inst_shared _ 1 (mem_insert_pair _ _ _ _ _) (by decide)
  · unfold is_feasible_insertion
    split
    · rfl
    · exact infeasible_of_underload inst_chain _ _ (mem_insert_pair_delivery _ _ _ _ _)
        (by decide) (by decide)

/-- The greedy constructor on the two-pair instance with one route: pair 1, 2 goes first
(increase 4 against 8), then pair 3, 4 at positions 1, 1 (increase 4, first of a tie). -/
theorem greedy_trace_two_pairs : pure_greedy_insertion inst2 1 = [[1, 3, 4, 2]] := by
  decide

/-- The local search on the route 1, 3, 2, 4: the first reversal, of positions 1 to 2, is
feasible and cheaper (8 against 10), and no second one is. -/
theorem two_opt_trace_two_pairs : two_opt_route inst2 [1, 3, 2, 4] = [1, 2, 3, 4] := by
  decide

/-- An ant that always takes the greedy branch, on the one-pair instance. -/
theorem ant_trace_one_pair :
    construct_solution inst1 default_params (greedy_draws.ant 0 0) 2
      = { routes := [[1, 2], []], total_cost := 12, used_routes := 1 } := by
  decide

end PDPTW
